import Mathlib

/-!
# Asset ledger contract (`chaincode/asset-management.go`)

A shallow embedding of the asset-registry chaincode and of the narrow
platform interface it calls into.

* A Go `string` is a sequence of bytes (`GoString`), which need not be valid
  UTF-8; a text (a literal of the source, a decoded JSON string) is the Go
  string of its UTF-8 encoding. `encoding/json` writes U+FFFD for every byte of
  a string that is not part of a valid encoding (`GoString.replaceInvalid`).
* A Go `[]byte` holding a JSON document is the text of that document (what
  the contract writes is the output of `json.Marshal`, which is valid UTF-8), a
  nil slice is `none`.
* Go `int` is a 64-bit integer: `Int` together with the range predicate `isInt`.
* Go `error` results are `Except GoString _`, the string being the message.
* The ledger platform (world state, write set, history index) and the two
  library codecs (`encoding/json`, `ptypes.Timestamp`) are not part of the
  repository; they are modelled from the interface description of the
  specification. Every platform call is allowed to fail: which calls fail is
  a parameter of the platform (`Faults`), the same from one transaction to the
  next unless it is replaced (`Stub.withFaults`).
* An operation that writes returns its error result together with the context
  it leaves behind, so that "no write" is "the context comes back unchanged";
  `Stub.invoke` runs an operation as a transaction and commits its write set.
-/

namespace AssetManagement

/-! ## Data model -/

/-- A Go byte slice holding text. -/
abbrev Bytes := String

/-- A Go `string`: an immutable sequence of bytes, which need not be valid
UTF-8. A byte is a number below 256; a larger number is a byte of no Go string
and is read like a byte that starts no valid encoding. -/
structure GoString where
  bytes : List Nat
deriving DecidableEq

/-- UTF-8 encoding of one character (`utf8.AppendRune`). -/
def utf8Char (c : Char) : List Nat :=
  if c.toNat < 128 then [c.toNat]
  else if c.toNat < 2048 then [192 + c.toNat / 64, 128 + c.toNat % 64]
  else if c.toNat < 65536 then
    [224 + c.toNat / 4096, 128 + c.toNat / 64 % 64, 128 + c.toNat % 64]
  else
    [240 + c.toNat / 262144, 128 + c.toNat / 4096 % 64, 128 + c.toNat / 64 % 64,
      128 + c.toNat % 64]

/-- UTF-8 encoding of a text. -/
def utf8Chars : List Char → List Nat
  | [] => []
  | c :: cs => utf8Char c ++ utf8Chars cs

/-- The Go string holding a text, that is its UTF-8 encoding (a string literal
of the source, or a string built from decoded characters). -/
@[coe] def GoString.ofText (s : String) : GoString := ⟨utf8Chars s.data⟩

instance : Coe String GoString := ⟨GoString.ofText⟩

instance : Append GoString := ⟨fun a b => ⟨a.bytes ++ b.bytes⟩⟩

/-- A UTF-8 continuation byte. -/
def isCont (b : Nat) : Bool := 128 ≤ b && b < 192

/-- Smallest second byte accepted after the first byte `b0` of a multi-byte
encoding: the bound that rules out overlong forms. -/
def secondLo (b0 : Nat) : Nat := if b0 = 224 then 160 else if b0 = 240 then 144 else 128

/-- Bound above the second bytes accepted after the first byte `b0`: it rules
out surrogates and values above U+10FFFF. -/
def secondHi (b0 : Nat) : Nat := if b0 = 237 then 160 else if b0 = 244 then 144 else 192

/-- A two-byte encoding with first byte `b0`. -/
def decode2 (b0 : Nat) : List Nat → Option (Char × Nat)
  | b1 :: _ =>
    if isCont b1 then some (Char.ofNat ((b0 - 192) * 64 + (b1 - 128)), 1) else none
  | _ => none

/-- A three-byte encoding with first byte `b0`. -/
def decode3 (b0 : Nat) : List Nat → Option (Char × Nat)
  | b1 :: b2 :: _ =>
    if secondLo b0 ≤ b1 ∧ b1 < secondHi b0 ∧ isCont b2 then
      some (Char.ofNat ((b0 - 224) * 4096 + (b1 - 128) * 64 + (b2 - 128)), 2)
    else none
  | _ => none

/-- A four-byte encoding with first byte `b0`. -/
def decode4 (b0 : Nat) : List Nat → Option (Char × Nat)
  | b1 :: b2 :: b3 :: _ =>
    if secondLo b0 ≤ b1 ∧ b1 < secondHi b0 ∧ isCont b2 ∧ isCont b3 then
      some (Char.ofNat ((b0 - 240) * 262144 + (b1 - 128) * 4096 + (b2 - 128) * 64
        + (b3 - 128)), 3)
    else none
  | _ => none

/-- The character encoded at the front of `b0 :: rest` and the number of bytes
it takes after `b0` (`utf8.DecodeRune`); `none` when the bytes start no valid
encoding, which Go reports as `RuneError` of width 1: a byte that cannot
start an encoding, a missing or wrong continuation byte, an overlong form, a
surrogate or a value above U+10FFFF. -/
def decodeRune (b0 : Nat) (rest : List Nat) : Option (Char × Nat) :=
  if b0 < 128 then some (Char.ofNat b0, 0)
  else if b0 < 194 then none
  else if b0 < 224 then decode2 b0 rest
  else if b0 < 240 then decode3 b0 rest
  else if b0 < 245 then decode4 b0 rest
  else none

/-- The characters of a byte string as a `for range` loop over a Go string
sees them: a decoded character, or `none` for a byte that starts no valid
encoding. The first argument counts bytes still to skip, those of the
character decoded last. -/
def decodeRunes : Nat → List Nat → List (Option Char)
  | _, [] => []
  | skip + 1, _ :: rest => decodeRunes skip rest
  | 0, b0 :: rest =>
    match decodeRune b0 rest with
    | some (c, more) => some c :: decodeRunes more rest
    | none => none :: decodeRunes 0 rest

/-- The replacement character U+FFFD. -/
def replacementChar : Char := Char.ofNat 65533

/-- The string is valid UTF-8 (`utf8.ValidString`). -/
def GoString.validUTF8 (s : GoString) : Bool :=
  (decodeRunes 0 s.bytes).all Option.isSome

/-- The text of a Go string, each byte that is not part of a valid encoding read
as U+FFFD. -/
def GoString.text (s : GoString) : List Char :=
  (decodeRunes 0 s.bytes).map (fun r => r.getD replacementChar)

/-- The string with each byte that is not part of a valid UTF-8 encoding
replaced by U+FFFD: what a string becomes when it is encoded by `json.Marshal`
and decoded again. -/
def GoString.replaceInvalid (s : GoString) : GoString :=
  GoString.ofText (String.mk s.text)

/-- Asset describes basic details of what makes up a simple asset
(`type Asset struct`, JSON tags `ID`, `Type`, `Price`, `Owner`). -/
structure Asset where
  ID : GoString
  Type_ : GoString
  Price : Int
  Owner : GoString
deriving DecidableEq

/-- The asset with each byte of its strings that is not part of a valid UTF-8
encoding replaced by U+FFFD: what an asset becomes when it is encoded by
`json.Marshal` and decoded again. -/
def Asset.replaceInvalid (a : Asset) : Asset :=
  ⟨a.ID.replaceInvalid, a.Type_.replaceInvalid, a.Price, a.Owner.replaceInvalid⟩

/-- Smallest value of a Go `int` on a 64-bit platform. -/
def minInt : Int := -9223372036854775808

/-- Largest value of a Go `int` on a 64-bit platform. -/
def maxInt : Int := 9223372036854775807

/-- The integer is representable as a Go `int`. -/
def isInt (n : Int) : Prop := minInt ≤ n ∧ n ≤ maxInt

instance (n : Int) : Decidable (isInt n) := by unfold isInt; infer_instance

/-- HistoricalAssetRecord contains the mutable details of an asset at a
specific point in time. -/
structure HistoricalAssetRecord where
  Price : Int
  Owner : GoString
deriving DecidableEq

/-- A point in time (`time.Time`, also `google.protobuf.Timestamp`): seconds and
nanoseconds since the Unix epoch. -/
structure Timestamp where
  Seconds : Int
  Nanos : Int
deriving DecidableEq

/-- HistoryQueryResult structure used for returning history query results;
`Record` is a pointer and may be nil. -/
structure HistoryQueryResult where
  Record : Option HistoricalAssetRecord
  TxId : GoString
  Timestamp : Timestamp
  IsDelete : Bool
deriving DecidableEq

/-! ## `encoding/json` for `Asset` -/

/-- The double quote character. -/
def dq : Char := Char.ofNat 34

/-- The backslash character. -/
def bsl : Char := Char.ofNat 92

/-- Lower-case hexadecimal digit of a number below 16. -/
def hexDigit (n : Nat) : Char :=
  if n < 10 then Char.ofNat (48 + n) else Char.ofNat (87 + n)

/-- Four hexadecimal digits of a number below 65536. -/
def hex4 (n : Nat) : List Char :=
  [hexDigit (n / 4096 % 16), hexDigit (n / 256 % 16), hexDigit (n / 16 % 16), hexDigit (n % 16)]

/-- Modelled from the spec: the JSON string escaping of `json.Marshal`. Quote and
backslash get a backslash, newline, carriage return and tab their short
escapes, the other control characters, the HTML characters `<`, `>`, `&` and
the line separators U+2028, U+2029 a `\u` escape; every other character is
copied. (Newer Go versions also write backspace and form feed as short
escapes; the decoder below reads both forms.) -/
def encodeChar (c : Char) : List Char :=
  if c.toNat = 34 then [bsl, dq]
  else if c.toNat = 92 then [bsl, bsl]
  else if c.toNat = 10 then [bsl, 'n']
  else if c.toNat = 13 then [bsl, 'r']
  else if c.toNat = 9 then [bsl, 't']
  else if c.toNat < 32 ∨ c.toNat = 60 ∨ c.toNat = 62 ∨ c.toNat = 38
      ∨ c.toNat = 8232 ∨ c.toNat = 8233 then bsl :: 'u' :: hex4 c.toNat
  else [c]

/-- The escaped body of a JSON string literal holding a text. -/
def encodeChars : List Char → List Char
  | [] => []
  | c :: cs => encodeChar c ++ encodeChars cs

/-- Modelled from the spec: the escaped form of one step of the encoder's walk over a
string: a decoded character is escaped as above, a byte that starts no valid
encoding is written as the escape `\ufffd`. -/
def encodeRune : Option Char → List Char
  | some c => encodeChar c
  | none => [bsl, 'u', 'f', 'f', 'f', 'd']

/-- The escaped body of a JSON string literal holding a Go string. -/
def encodeRunes : List (Option Char) → List Char
  | [] => []
  | r :: rs => encodeRune r ++ encodeRunes rs

/-- A JSON string literal holding a Go string. -/
def encodeString (s : GoString) : List Char :=
  dq :: (encodeRunes (decodeRunes 0 s.bytes) ++ [dq])

/-- Decimal digits of a natural number, most significant first
(`strconv.AppendInt`); the first argument bounds the number of digits. -/
def natDigits : Nat → Nat → List Char
  | 0, _ => []
  | fuel + 1, n =>
    if n < 10 then [Char.ofNat (48 + n)]
    else natDigits fuel (n / 10) ++ [Char.ofNat (48 + n % 10)]

/-- Decimal text of an integer, as `%d` and `json.Marshal` print it. -/
def formatInt (n : Int) : List Char :=
  match n with
  | Int.ofNat m => natDigits (m + 1) m
  | Int.negSucc m => '-' :: natDigits (m + 2) (m + 1)

/-- Modelled from the spec: `json.Marshal` of an `Asset`, the persisted record shape
`{"ID":string,"Type":string,"Price":int,"Owner":string}` with the fields in
declaration order and no white space. -/
def encodeAsset (a : Asset) : List Char :=
  "\x7b\"ID\":".data ++ encodeString a.ID ++ ",\"Type\":".data ++ encodeString a.Type_
    ++ ",\"Price\":".data ++ formatInt a.Price ++ ",\"Owner\":".data ++ encodeString a.Owner
    ++ "\x7d".data

/-- Modelled from the spec: `json.Marshal(asset)`; encoding a struct of strings and an
integer never fails. -/
def json_Marshal (a : Asset) : Except GoString Bytes :=
  .ok (String.mk (encodeAsset a))

/-- A parsed JSON value; a number keeps its literal. -/
inductive JSON where
  | null
  | bool (b : Bool)
  | num (lit : List Char)
  | str (s : List Char)
  | arr (xs : List JSON)
  | obj (ms : List (List Char × JSON))

/-- JSON white space: space, tab, line feed, carriage return. -/
def isWS (c : Char) : Bool :=
  c.toNat = 32 || c.toNat = 9 || c.toNat = 10 || c.toNat = 13

/-- Drop leading white space. -/
def skipWS : List Char → List Char
  | [] => []
  | c :: cs => if isWS c then skipWS cs else c :: cs

/-- Value of a hexadecimal digit, either case. -/
def hexVal (c : Char) : Option Nat :=
  let n := c.toNat
  if 48 ≤ n ∧ n ≤ 57 then some (n - 48)
  else if 97 ≤ n ∧ n ≤ 102 then some (n - 87)
  else if 65 ≤ n ∧ n ≤ 70 then some (n - 55)
  else none

/-- A UTF-16 surrogate code unit. -/
def isSurrogate (n : Nat) : Bool := 55296 ≤ n && n < 57344

/-- Position inside a string literal: plain text, after a backslash, or inside
a `\u` escape with `k` digits read and value `v`. -/
inductive StrPos where
  | plain
  | esc
  | uni (k : Nat) (v : Nat)

/-- Scanner for the body of a string literal, one character per step. `acc` is
the decoded text in reverse, `hi` a surrogate code unit read by the previous
`\u` escape and still waiting for its partner. Returns the decoded text and
the input after the closing quote. -/
def scanString : List Char → StrPos → Option Nat → List Char → Option (List Char × List Char)
  | [], _, _, _ => none
  | c :: cs, .plain, hi, acc =>
    if c.toNat = 92 then scanString cs .esc hi acc
    else
      let acc := match hi with
        | some _ => replacementChar :: acc
        | none => acc
      if c.toNat = 34 then some (acc.reverse, cs)
      else if c.toNat < 32 then none
      else scanString cs .plain none (c :: acc)
  | c :: cs, .esc, hi, acc =>
    if c = 'u' then scanString cs (.uni 0 0) hi acc
    else
      let acc := match hi with
        | some _ => replacementChar :: acc
        | none => acc
      if c.toNat = 34 then scanString cs .plain none (dq :: acc)
      else if c.toNat = 92 then scanString cs .plain none (bsl :: acc)
      else if c = '/' then scanString cs .plain none ('/' :: acc)
      else if c = 'b' then scanString cs .plain none (Char.ofNat 8 :: acc)
      else if c = 'f' then scanString cs .plain none (Char.ofNat 12 :: acc)
      else if c = 'n' then scanString cs .plain none (Char.ofNat 10 :: acc)
      else if c = 'r' then scanString cs .plain none (Char.ofNat 13 :: acc)
      else if c = 't' then scanString cs .plain none (Char.ofNat 9 :: acc)
      else none
  | c :: cs, .uni k v, hi, acc =>
    match hexVal c with
    | none => none
    | some d =>
      let v := v * 16 + d
      if k < 3 then scanString cs (.uni (k + 1) v) hi acc
      else
        match hi with
        | some h =>
          if 55296 ≤ h ∧ h < 56320 ∧ 56320 ≤ v ∧ v < 57344 then
            scanString cs .plain none
              (Char.ofNat ((h - 55296) * 1024 + (v - 56320) + 65536) :: acc)
          else if isSurrogate v then scanString cs .plain (some v) (replacementChar :: acc)
          else scanString cs .plain none (Char.ofNat v :: replacementChar :: acc)
        | none =>
          if isSurrogate v then scanString cs .plain (some v) acc
          else scanString cs .plain none (Char.ofNat v :: acc)

/-- A decimal digit. -/
def isDigit (c : Char) : Bool := 48 ≤ c.toNat && c.toNat ≤ 57

/-- Split off the leading run of decimal digits. -/
def spanDigits : List Char → List Char × List Char
  | [] => ([], [])
  | c :: cs =>
    if isDigit c then ((spanDigits cs).1.cons c, (spanDigits cs).2) else ([], c :: cs)

/-- Split an optional leading minus sign off. -/
def splitSign : List Char → List Char × List Char
  | [] => ([], [])
  | c :: rest => if c = '-' then ([c], rest) else ([], c :: rest)

/-- Optional fraction of a number: a point and at least one digit. -/
def scanFrac : List Char → Option (List Char × List Char)
  | [] => some ([], [])
  | c :: rest =>
    if c = '.' then
      if (spanDigits rest).1 = [] then none
      else some (c :: (spanDigits rest).1, (spanDigits rest).2)
    else some ([], c :: rest)

/-- Optional sign of an exponent. -/
def splitExpSign : List Char → List Char × List Char
  | [] => ([], [])
  | c :: rest => if c = '+' ∨ c = '-' then ([c], rest) else ([], c :: rest)

/-- Optional exponent of a number: `e` or `E`, an optional sign and at least
one digit. -/
def scanExp : List Char → Option (List Char × List Char)
  | [] => some ([], [])
  | c :: rest =>
    if c = 'e' ∨ c = 'E' then
      if (spanDigits (splitExpSign rest).2).1 = [] then none
      else some (c :: (splitExpSign rest).1 ++ (spanDigits (splitExpSign rest).2).1,
        (spanDigits (splitExpSign rest).2).2)
    else some ([], c :: rest)

/-- Scanner for a JSON number: optional minus, integer part without a leading
zero, optional fraction, optional exponent. Returns the literal and the rest. -/
def scanNumber (cs : List Char) : Option (List Char × List Char) :=
  let ip := spanDigits (splitSign cs).2
  if ip.1 = [] ∨ (1 < ip.1.length ∧ ip.1.head? = some '0') then none
  else
    match scanFrac ip.2 with
    | none => none
    | some fp =>
      match scanExp fp.2 with
      | none => none
      | some ep => some ((splitSign cs).1 ++ ip.1 ++ fp.1 ++ ep.1, ep.2)

/-- Strip a literal keyword from the front of the input. -/
def stripKeyword (kw : List Char) (cs : List Char) : Option (List Char) :=
  if kw.isPrefixOf cs then some (cs.drop kw.length) else none

mutual
/-- Parser for one JSON value; the first argument bounds the nesting and the
number of members. -/
def parseValue : Nat → List Char → Option (JSON × List Char)
  | 0, _ => none
  | fuel + 1, cs =>
    match skipWS cs with
    | [] => none
    | c :: rest =>
      if c.toNat = 34 then
        match scanString rest .plain none [] with
        | none => none
        | some (s, rest) => some (.str s, rest)
      else if c.toNat = 123 then
        match skipWS rest with
        | [] => none
        | d :: rest2 =>
          if d.toNat = 125 then some (.obj [], rest2)
          else
            match parseMembers fuel (d :: rest2) with
            | none => none
            | some (ms, rest3) => some (.obj ms, rest3)
      else if c = '[' then
        match skipWS rest with
        | [] => none
        | d :: rest2 =>
          if d = ']' then some (.arr [], rest2)
          else
            match parseElems fuel (d :: rest2) with
            | none => none
            | some (xs, rest3) => some (.arr xs, rest3)
      else if c = 't' then (stripKeyword "rue".data rest).map (fun r => (.bool true, r))
      else if c = 'f' then (stripKeyword "alse".data rest).map (fun r => (.bool false, r))
      else if c = 'n' then (stripKeyword "ull".data rest).map (fun r => (.null, r))
      else
        match scanNumber (c :: rest) with
        | none => none
        | some (lit, rest) => some (.num lit, rest)
/-- Parser for the members of an object, from the first key to the closing
brace. -/
def parseMembers : Nat → List Char → Option (List (List Char × JSON) × List Char)
  | 0, _ => none
  | fuel + 1, cs =>
    match skipWS cs with
    | [] => none
    | q :: rest =>
      if q.toNat = 34 then
        match scanString rest .plain none [] with
        | none => none
        | some (key, rest) =>
          match skipWS rest with
          | [] => none
          | colon :: rest =>
            if colon = ':' then
              match parseValue fuel rest with
              | none => none
              | some (v, rest) =>
                match skipWS rest with
                | [] => none
                | d :: rest =>
                  if d.toNat = 125 then some ([(key, v)], rest)
                  else if d = ',' then
                    match parseMembers fuel rest with
                    | none => none
                    | some (ms, rest) => some ((key, v) :: ms, rest)
                  else none
            else none
      else none
/-- Parser for the elements of an array, from the first element to the closing
bracket. -/
def parseElems : Nat → List Char → Option (List JSON × List Char)
  | 0, _ => none
  | fuel + 1, cs =>
    match parseValue fuel cs with
    | none => none
    | some (v, rest) =>
      match skipWS rest with
      | [] => none
      | d :: rest =>
        if d = ']' then some ([v], rest)
        else if d = ',' then
          match parseElems fuel rest with
          | none => none
          | some (xs, rest) => some (v :: xs, rest)
        else none
end

/-- Parse a whole document: one value surrounded by optional white space. -/
def parseJSON (cs : List Char) : Option JSON :=
  match parseValue (cs.length + 1) cs with
  | none => none
  | some (v, rest) => if skipWS rest = [] then some v else none

/-- Value of a run of decimal digits. -/
def digitsValue (ds : List Char) : Nat :=
  ds.foldl (fun a c => a * 10 + (c.toNat - 48)) 0

/-- Result of `strconv.ParseInt(lit, 10, 64)` on a number literal: a plain
integer literal inside the 64-bit range. -/
def parseInt (lit : List Char) : Option Int :=
  let ds := (splitSign lit).2
  if ds = [] ∨ ds.all isDigit = false then none
  else
    let n : Int :=
      if (splitSign lit).1 = [] then (digitsValue ds : Int) else - (digitsValue ds : Int)
    if isInt n then some n else none

/-- ASCII lower case of a key, for the case-insensitive field match. -/
def lowerASCII (cs : List Char) : List Char :=
  cs.map (fun c => if 65 ≤ c.toNat ∧ c.toNat ≤ 90 then Char.ofNat (c.toNat + 32) else c)

/-- The value a string field takes from a JSON value: the text of a string,
the old value for `null`, an error for any other value. -/
def stringField (old : GoString) : JSON → Option GoString
  | .str s => some (GoString.ofText (String.mk s))
  | .null => some old
  | _ => none

/-- The value an `int` field takes from a JSON value: the integer of a number
literal, the old value for `null`, an error for any other value. -/
def intField (old : Int) : JSON → Option Int
  | .num lit => parseInt lit
  | .null => some old
  | _ => none

/-- Store one object member into the struct: the key selects the field
ignoring case, an unknown key is skipped. -/
def setField (a : Asset) (key : List Char) (v : JSON) : Option Asset :=
  if lowerASCII key = "id".data then
    (stringField a.ID v).map (fun s => { a with ID := s })
  else if lowerASCII key = "type".data then
    (stringField a.Type_ v).map (fun s => { a with Type_ := s })
  else if lowerASCII key = "price".data then
    (intField a.Price v).map (fun n => { a with Price := n })
  else if lowerASCII key = "owner".data then
    (stringField a.Owner v).map (fun s => { a with Owner := s })
  else some a

/-- Store the members in order; a later duplicate overrides an earlier one. -/
def setFields : Asset → List (List Char × JSON) → Option Asset
  | a, [] => some a
  | a, (k, v) :: ms =>
    match setField a k v with
    | none => none
    | some a2 => setFields a2 ms

/-- Modelled from the spec: `json.Unmarshal(data, &asset)` into a zero `Asset`. The
document must be valid JSON; an object fills the fields, `null` leaves the
zero value, any other value is an error. The text of library errors is not
modelled beyond two fixed messages. -/
def json_Unmarshal (data : Bytes) : Except GoString Asset :=
  match parseJSON data.data with
  | none => .error "json: invalid JSON input"
  | some (.obj ms) =>
    match setFields ⟨"", "", 0, ""⟩ ms with
    | none => .error "json: cannot unmarshal value into Go struct field of Asset"
    | some a => .ok a
  | some .null => .ok ⟨"", "", 0, ""⟩
  | some _ => .error "json: cannot unmarshal value into Go value of type Asset"

/-! ## The ledger platform: transaction context and stub -/

/-- One result of a range query (`queryresult.KV`). -/
structure KV where
  Key : GoString
  Value : Bytes
deriving DecidableEq

/-- One entry of the change history of a key (`queryresult.KeyModification`);
the timestamp is a pointer and may be nil. -/
structure KeyModification where
  TxId : GoString
  Value : Bytes
  Timestamp : Option Timestamp
  IsDelete : Bool
deriving DecidableEq

/-- Failures of the platform: for every call of the stub interface the error
it answers with, if any. `rangeNext i` and `historyNext i` are the answers of
the call number `i` of `Next()` on a range or history iterator. -/
structure Faults where
  getState : GoString → Option GoString
  putState : GoString → Bytes → Option GoString
  getStateByRange : GoString → GoString → Option GoString
  rangeNext : Nat → Option GoString
  getHistoryForKey : GoString → Option GoString
  historyNext : Nat → Option GoString

/-- A platform on which no call fails. -/
def noFaults : Faults :=
  ⟨fun _ => none, fun _ _ => none, fun _ _ => none, fun _ => none, fun _ => none, fun _ => none⟩

/-- Modelled from the spec: the transaction context's stub. `state` is the committed
world state (the key/value snapshot reads are served from), `history` the
committed changes of all keys, newest first, `writes` the write set of the
running invocation, which the platform commits only if the invocation
succeeds. -/
structure Stub where
  state : List (GoString × Bytes)
  history : List (GoString × KeyModification)
  writes : List (GoString × Bytes)
  faults : Faults

/-- Value stored at a key, if any. -/
def lookup : List (GoString × Bytes) → GoString → Option Bytes
  | [], _ => none
  | (k, v) :: rest, key => if k = key then some v else lookup rest key

/-- Lexicographic order on byte sequences. -/
def ltBytes : List Nat → List Nat → Bool
  | _, [] => false
  | [], _ :: _ => true
  | a :: as, b :: bs =>
    if a < b then true
    else if b < a then false
    else ltBytes as bs

/-- The order of keys in the world state: lexicographic, byte by byte. -/
def keyLt (a b : GoString) : Bool := ltBytes a.bytes b.bytes

/-- Insert or overwrite the value at a key, keeping ascending key order. -/
def upsert : List (GoString × Bytes) → GoString → Bytes → List (GoString × Bytes)
  | [], key, value => [(key, value)]
  | (k, v) :: rest, key, value =>
    if key = k then (key, value) :: rest
    else if keyLt key k then (key, value) :: (k, v) :: rest
    else (k, v) :: upsert rest key value

/-- Modelled from the spec: `GetState(key) -> bytes-or-absent`, a point lookup in the
committed world state; absence is `none` (a nil slice), not an error. -/
def Stub.GetState (ctx : Stub) (key : GoString) : Except GoString (Option Bytes) :=
  match ctx.faults.getState key with
  | some err => .error err
  | none => .ok (lookup ctx.state key)

/-- Modelled from the spec: `PutState(key, bytes) -> success-or-error`, an upsert at
the key, recorded in the write set of the invocation. -/
def Stub.PutState (ctx : Stub) (key : GoString) (value : Bytes) : Except GoString Unit × Stub :=
  match ctx.faults.putState key value with
  | some err => (.error err, ctx)
  | none => (.ok (), { ctx with writes := upsert ctx.writes key value })

/-- The answers of successive `Next()` calls of an iterator over `xs`, the
first call having number `i`. -/
def iterate {α : Type} (fault : Nat → Option GoString) : Nat → List α → List (Except GoString α)
  | _, [] => []
  | i, x :: xs =>
    (match fault i with
      | some err => .error err
      | none => .ok x) :: iterate fault (i + 1) xs

/-- The key lies in the range from `startKey` (inclusive) to `endKey`
(exclusive); an empty bound is no bound. -/
def inRange (startKey endKey key : GoString) : Bool :=
  !keyLt key startKey && (endKey = "" || keyLt key endKey)

/-- Modelled from the spec: `GetStateByRange(startKey, endKey)`, a forward iterator
over the committed world state in key order; empty bounds give the full range. -/
def Stub.GetStateByRange (ctx : Stub) (startKey endKey : GoString) :
    Except GoString (List (Except GoString KV)) :=
  match ctx.faults.getStateByRange startKey endKey with
  | some err => .error err
  | none =>
    .ok (iterate ctx.faults.rangeNext 0
      ((ctx.state.filter (fun kv => inRange startKey endKey kv.1)).map (fun kv => ⟨kv.1, kv.2⟩)))

/-- Modelled from the spec: `GetHistoryForKey(key)`, a forward iterator over the full
change history of one key, newest first. -/
def Stub.GetHistoryForKey (ctx : Stub) (key : GoString) :
    Except GoString (List (Except GoString KeyModification)) :=
  match ctx.faults.getHistoryForKey key with
  | some err => .error err
  | none =>
    .ok (iterate ctx.faults.historyNext 0
      ((ctx.history.filter (fun e => e.1 = key)).map (fun e => e.2)))

/-- Modelled from the spec: the platform commits the write set of a successful
invocation: every written key is upserted in the world state and gets a new
history entry carrying the transaction id and timestamp, in front of the
older ones. -/
def Stub.commit (ctx : Stub) (txId : GoString) (ts : Option Timestamp) : Stub :=
  { ctx with
    state := ctx.writes.foldl (fun st kv => upsert st kv.1 kv.2) ctx.state
    history := ctx.writes.map (fun kv => (kv.1, ⟨txId, kv.2, ts, false⟩)) ++ ctx.history
    writes := [] }

/-- Modelled from the spec: one invocation run as a transaction. The operation runs on
an empty write set; if it succeeds the writes are committed, if it fails none
is (the ledger stays as it was). -/
def Stub.invoke (ctx : Stub) (txId : GoString) (ts : Option Timestamp)
    (op : Stub → Except GoString Unit × Stub) : Except GoString Unit × Stub :=
  match op { ctx with writes := [] } with
  | (.ok v, ctx2) => (.ok v, ctx2.commit txId ts)
  | (.error err, _) => (.error err, { ctx with writes := [] })

/-- Modelled from the spec: `ptypes.Timestamp`, the conversion of the platform's
timestamp to a time value. It fails on a nil timestamp, on seconds outside
the years 1 to 9999 and on nanoseconds outside `[0, 1e9)`. -/
def ptypes_Timestamp (ts : Option Timestamp) : Except GoString Timestamp :=
  match ts with
  | none => .error "timestamp: nil Timestamp"
  | some t =>
    if t.Seconds < -62135596800 then .error "timestamp: before 0001-01-01"
    else if t.Seconds ≥ 253402300800 then .error "timestamp: after 10000-01-01"
    else if t.Nanos < 0 ∨ t.Nanos ≥ 1000000000 then
      .error "timestamp: nanos not in range [0, 1e9)"
    else .ok t

/-! ## The contract -/

/-- The three sample assets of `InitLedger`. -/
def sampleAssets : List Asset :=
  [⟨"asset1", "Car", 10000, "Tomoko"⟩,
   ⟨"asset2", "House", 250000, "Brad"⟩,
   ⟨"asset3", "Boat", 50000, "Jin Soo"⟩]

/-- The loop of `InitLedger`: marshal and put each asset, stop at the first error. -/
def InitLedger_loop : List Asset → Stub → Except GoString Unit × Stub
  | [], ctx => (.ok (), ctx)
  | asset :: rest, ctx =>
    match json_Marshal asset with
    | .error err => (.error err, ctx)
    | .ok assetJSON =>
      match ctx.PutState asset.ID assetJSON with
      | (.error err, ctx2) => (.error ("failed to put to world state. " ++ err), ctx2)
      | (.ok _, ctx2) => InitLedger_loop rest ctx2

/-- InitLedger adds a base set of assets to the ledger. -/
def InitLedger (ctx : Stub) : Except GoString Unit × Stub :=
  InitLedger_loop sampleAssets ctx

/-- AssetExists returns true when asset with given ID exists in world state. -/
def AssetExists (ctx : Stub) (id : GoString) : Except GoString Bool :=
  match ctx.GetState id with
  | .error err => .error ("failed to read from world state: " ++ err)
  | .ok assetJSON => .ok assetJSON.isSome

/-- CreateAsset issues a new asset to the world state with given details. -/
def CreateAsset (ctx : Stub) (id : GoString) (assetType : GoString) (price : Int)
    (owner : GoString) : Except GoString Unit × Stub :=
  match AssetExists ctx id with
  | .error err => (.error err, ctx)
  | .ok found =>
    if found then (.error ("the asset " ++ id ++ " already exists"), ctx)
    else
      let asset : Asset := { ID := id, Type_ := assetType, Price := price, Owner := owner }
      match json_Marshal asset with
      | .error err => (.error err, ctx)
      | .ok assetJSON => ctx.PutState id assetJSON

/-- ReadAsset returns the asset stored in the world state with given id. -/
def ReadAsset (ctx : Stub) (id : GoString) : Except GoString Asset :=
  match ctx.GetState id with
  | .error err => .error ("failed to read from world state: " ++ err)
  | .ok none => .error ("the asset " ++ id ++ " does not exist")
  | .ok (some assetJSON) =>
    match json_Unmarshal assetJSON with
    | .error err => .error err
    | .ok asset => .ok asset

/-- SearchAssetByID returns the asset stored in the world state with given id. -/
def SearchAssetByID (ctx : Stub) (id : GoString) : Except GoString Asset :=
  ReadAsset ctx id

/-- UpdateAssetPrice updates the price of an existing asset in the world state. -/
def UpdateAssetPrice (ctx : Stub) (id : GoString) (newPrice : Int) : Except GoString Unit × Stub :=
  match ReadAsset ctx id with
  | .error err => (.error err, ctx)
  | .ok asset =>
    if asset.Price = newPrice then
      (.error ("price is already " ++ String.mk (formatInt newPrice) ++ ", no update performed"),
        ctx)
    else
      let asset : Asset := { asset with Price := newPrice }
      match json_Marshal asset with
      | .error err => (.error err, ctx)
      | .ok assetJSON => ctx.PutState id assetJSON

/-- TransferAsset updates the owner of an asset in the world state. -/
def TransferAsset (ctx : Stub) (id : GoString) (newOwner : GoString) : Except GoString Unit × Stub :=
  match ReadAsset ctx id with
  | .error err => (.error err, ctx)
  | .ok asset =>
    if asset.Owner = newOwner then
      (.error ("asset is already owned by " ++ newOwner ++ ", no transfer performed"), ctx)
    else
      let asset : Asset := { asset with Owner := newOwner }
      match json_Marshal asset with
      | .error err => (.error err, ctx)
      | .ok assetJSON => ctx.PutState id assetJSON

/-- The loop of `GetAllAssets` over the iterator: decode each value, stop at
the first iteration or decoding error. -/
def GetAllAssets_loop : List (Except GoString KV) → List Asset → Except GoString (List Asset)
  | [], assets => .ok assets
  | .error err :: _, _ => .error err
  | .ok queryResponse :: rest, assets =>
    match json_Unmarshal queryResponse.Value with
    | .error err => .error err
    | .ok asset => GetAllAssets_loop rest (assets ++ [asset])

/-- GetAllAssets returns all assets found in the world state. -/
def GetAllAssets (ctx : Stub) : Except GoString (List Asset) :=
  match ctx.GetStateByRange "" "" with
  | .error err => .error err
  | .ok resultsIterator => GetAllAssets_loop resultsIterator []

/-- The record of one history entry: nil for a deletion or an empty value,
otherwise the price and owner decoded from the value. -/
def historicalRecord (response : KeyModification) :
    Except GoString (Option HistoricalAssetRecord) :=
  if !response.IsDelete && response.Value.length > 0 then
    match json_Unmarshal response.Value with
    | .error err => .error err
    | .ok asset => .ok (some { Price := asset.Price, Owner := asset.Owner })
  else .ok none

/-- The loop of `GetAssetHistory` over the iterator: stop at the first
iteration, decoding or timestamp error. -/
def GetAssetHistory_loop :
    List (Except GoString KeyModification) → List HistoryQueryResult →
      Except GoString (List HistoryQueryResult)
  | [], records => .ok records
  | .error err :: _, _ => .error err
  | .ok response :: rest, records =>
    match historicalRecord response with
    | .error err => .error err
    | .ok rec =>
      match ptypes_Timestamp response.Timestamp with
      | .error err => .error err
      | .ok timestamp =>
        GetAssetHistory_loop rest
          (records ++ [{ TxId := response.TxId, Timestamp := timestamp, Record := rec,
                         IsDelete := response.IsDelete }])

/-- GetAssetHistory returns the chain of custody for an asset since issuance. -/
def GetAssetHistory (ctx : Stub) (assetID : GoString) : Except GoString (List HistoryQueryResult) :=
  match ctx.GetHistoryForKey assetID with
  | .error err => .error err
  | .ok resultsIterator => GetAssetHistory_loop resultsIterator []


/-! ## Sample platforms and ledgers -/

/-- A platform that refuses a write at the empty key and fails nowhere else. -/
def rejectEmptyKey : Faults :=
  { noFaults with
    putState := fun key _ => if key = "" then some "key must not be an empty string" else none }

/-- A platform on which every write fails and nothing else does. -/
def writesFail : Faults :=
  { noFaults with putState := fun _ _ => some "PUT_STATE failed" }

/-- A platform without a history index: opening a history iterator fails. -/
def noHistoryIndex : Faults :=
  { noFaults with getHistoryForKey := fun _ => some "history database not enabled" }

/-- The ledger with an empty world state and no history on the given platform. -/
def emptyLedger (f : Faults) : Stub := ⟨[], [], [], f⟩

/-- A ledger holding the single asset `asset1` on the given platform. -/
def oneAssetLedger (f : Faults) : Stub :=
  ⟨[("asset1", "\x7b\"ID\":\"asset1\",\"Type\":\"Car\",\"Price\":10000,\"Owner\":\"Tomoko\"\x7d")],
    [], [], f⟩

/-- The same ledger seen through a platform with other failures. -/
def Stub.withFaults (ctx : Stub) (f : Faults) : Stub := { ctx with faults := f }

/-- A platform on which opening a range scan fails and nothing else does. -/
def rangeScanFails : Faults :=
  { noFaults with getStateByRange := fun _ _ => some "GET_STATE_BY_RANGE failed" }

/-- A ledger whose history of `asset1` holds one entry that is not a deletion
and carries no value. -/
def emptyValueHistory : Stub :=
  ⟨[], [("asset1", ⟨"tx1", "", some ⟨100, 0⟩, false⟩)], [], noFaults⟩

/-- The result entry `GetAssetHistory` builds from one history entry: the body
of its loop, failing where the loop returns an error. -/
def historyEntry (response : KeyModification) : Except GoString HistoryQueryResult :=
  match historicalRecord response with
  | .error err => .error err
  | .ok rec =>
    match ptypes_Timestamp response.Timestamp with
    | .error err => .error err
    | .ok timestamp =>
      .ok { TxId := response.TxId, Timestamp := timestamp, Record := rec,
            IsDelete := response.IsDelete }

/-- The history entry carries a value: it is not a deletion and its bytes are
not empty. -/
def hasValue (response : KeyModification) : Prop :=
  response.IsDelete = false ∧ 0 < response.Value.length

instance (response : KeyModification) : Decidable (hasValue response) := by
  unfold hasValue; infer_instance

/-- The result entry `r` is the one the history entry `response` stands for: same
transaction id and deletion flag, the converted timestamp, and the price and
owner decoded from the value when the entry carries one, no record otherwise. -/
def describes (response : KeyModification) (r : HistoryQueryResult) : Prop :=
  r.TxId = response.TxId ∧ r.IsDelete = response.IsDelete ∧
  ptypes_Timestamp response.Timestamp = .ok r.Timestamp ∧
  (hasValue response →
    ∃ a, json_Unmarshal response.Value = .ok a ∧ r.Record = some ⟨a.Price, a.Owner⟩) ∧
  (¬ hasValue response → r.Record = none)

/-- One answer of the history iterator makes `GetAssetHistory` fail: the
iteration itself fails, the value the entry carries does not decode, or the
timestamp does not convert. -/
def entryFails : Except GoString KeyModification → Prop
  | .error _ => True
  | .ok response =>
    (hasValue response ∧ ∀ a, json_Unmarshal response.Value ≠ .ok a) ∨
    ∀ t, ptypes_Timestamp response.Timestamp ≠ .ok t

/-- A ledger whose history of `asset1` holds, newest first, a deletion and the
creation before it. -/
def deletedAssetHistory : Stub :=
  ⟨[], [("asset1", ⟨"tx2", "", some ⟨200, 0⟩, true⟩),
        ("asset1", ⟨"tx1",
          "\x7b\"ID\":\"asset1\",\"Type\":\"Car\",\"Price\":10000,\"Owner\":\"Tomoko\"\x7d",
          some ⟨100, 0⟩, false⟩)], [], noFaults⟩

/-- A platform that refuses to store a value longer than `limit` characters and
fails nowhere else. -/
def sizeLimit (limit : Nat) : Faults :=
  { noFaults with
    putState := fun _ value => if limit < value.length then some "value too large" else none }

/-- One call of a writing operation of the contract, with its arguments. -/
inductive Invocation where
  | initLedger
  | createAsset (id assetType : GoString) (price : Int) (owner : GoString)
  | updateAssetPrice (id : GoString) (newPrice : Int)
  | transferAsset (id newOwner : GoString)

/-- The operation a call runs. -/
def Invocation.run : Invocation → Stub → Except GoString Unit × Stub
  | .initLedger, ctx => InitLedger ctx
  | .createAsset id assetType price owner, ctx => CreateAsset ctx id assetType price owner
  | .updateAssetPrice id newPrice, ctx => UpdateAssetPrice ctx id newPrice
  | .transferAsset id newOwner, ctx => TransferAsset ctx id newOwner

/-- The integer arguments of the call are Go `int` values. -/
def Invocation.wellTyped : Invocation → Prop
  | .initLedger => True
  | .createAsset _ _ price _ => isInt price
  | .updateAssetPrice _ newPrice => isInt newPrice
  | .transferAsset _ _ => True

/-- One transaction: a call, its transaction id and timestamp, and the failures
of the platform while it runs. -/
structure Transaction where
  txId : GoString
  timestamp : Option Timestamp
  faults : Faults
  call : Invocation

/-- The ledger after one transaction, successful or failing. -/
def Stub.step (ctx : Stub) (tx : Transaction) : Stub :=
  ((ctx.withFaults tx.faults).invoke tx.txId tx.timestamp tx.call.run).2

/-- The ledger after a sequence of transactions. -/
def Stub.steps (ctx : Stub) (txs : List Transaction) : Stub :=
  txs.foldl Stub.step ctx

/-- The ledger is reachable from the empty store by a sequence of invocations
of `InitLedger`, `CreateAsset`, `UpdateAssetPrice` and `TransferAsset`. -/
def Reachable (ctx : Stub) : Prop :=
  ∃ (f : Faults) (txs : List Transaction),
    (∀ tx ∈ txs, tx.call.wellTyped) ∧ ctx = (emptyLedger f).steps txs

/-- Every stored value decodes as an asset whose ID is the key it is stored
under, with U+FFFD for each byte of the key that is not valid UTF-8. -/
def wellFormed (st : List (GoString × Bytes)) : Prop :=
  ∀ kv ∈ st, ∃ a, json_Unmarshal kv.2 = .ok a ∧ a.ID = kv.1.replaceInvalid

/-- The keys of the store ascend strictly in the key order. -/
def keysAscending (st : List (GoString × Bytes)) : Prop :=
  st.Pairwise (fun a b => keyLt a.1 b.1 = true)

/-! ## UTF-8: encoding and decoding of Go strings -/

theorem char_ofNat_toNat_of (c : Char) (n : Nat) (h : n = c.toNat) : Char.ofNat n = c := by
  rw [h]; exact Char.ofNat_toNat c

theorem char_toNat_valid (c : Char) :
    c.toNat < 55296 ∨ (57343 < c.toNat ∧ c.toNat < 1114112) := by
  have := c.valid
  simp only [UInt32.isValidChar, Nat.isValidChar] at this
  exact this

theorem char_toNat_ofNat (n : Nat) (h : n < 55296 ∨ (57343 < n ∧ n < 1114112)) :
    (Char.ofNat n).toNat = n := by
  have hv : n.isValidChar := h
  unfold Char.ofNat
  rw [dif_pos hv]
  rfl

theorem isCont_iff (b : Nat) : isCont b = true ↔ 128 ≤ b ∧ b < 192 := by
  simp [isCont]

theorem secondLo_bounds (b0 : Nat) :
    (b0 = 224 → secondLo b0 = 160) ∧ (b0 = 240 → secondLo b0 = 144) ∧
      (b0 ≠ 224 → b0 ≠ 240 → secondLo b0 = 128) := by
  unfold secondLo
  refine ⟨fun h => by simp [h], fun h => by simp [h], fun h1 h2 => by simp [h1, h2]⟩

theorem secondHi_bounds (b0 : Nat) :
    (b0 = 237 → secondHi b0 = 160) ∧ (b0 = 244 → secondHi b0 = 144) ∧
      (b0 ≠ 237 → b0 ≠ 244 → secondHi b0 = 192) := by
  unfold secondHi
  refine ⟨fun h => by simp [h], fun h => by simp [h], fun h1 h2 => by simp [h1, h2]⟩

theorem decodeRune_utf8Char (c : Char) :
    ∃ b0 tl, utf8Char c = b0 :: tl ∧
      ∀ rest, decodeRune b0 (tl ++ rest) = some (c, tl.length) := by
  have hv := char_toNat_valid c
  unfold utf8Char
  split_ifs with h1 h2 h3
  · refine ⟨_, _, rfl, fun rest => ?_⟩
    simp only [List.nil_append, decodeRune, h1, if_true, List.length_nil]
    rw [Char.ofNat_toNat]
  · refine ⟨_, _, rfl, fun rest => ?_⟩
    have e := char_ofNat_toNat_of c ((192 + c.toNat / 64 - 192) * 64 + (128 + c.toNat % 64 - 128))
      (by omega)
    have a1 : ¬ (192 + c.toNat / 64 < 128) := by omega
    have a2 : ¬ (192 + c.toNat / 64 < 194) := by omega
    have a3 : 192 + c.toNat / 64 < 224 := by omega
    have a4 : isCont (128 + c.toNat % 64) = true := by rw [isCont_iff]; omega
    simp only [List.cons_append, List.nil_append, decodeRune, decode2,
      a1, a2, a3, a4, if_true, if_false, e, List.length_cons, List.length_nil]
  · refine ⟨_, _, rfl, fun rest => ?_⟩
    have e := char_ofNat_toNat_of c ((224 + c.toNat / 4096 - 224) * 4096
      + (128 + c.toNat / 64 % 64 - 128) * 64 + (128 + c.toNat % 64 - 128)) (by omega)
    have a1 : ¬ (224 + c.toNat / 4096 < 128) := by omega
    have a2 : ¬ (224 + c.toNat / 4096 < 194) := by omega
    have a3 : ¬ (224 + c.toNat / 4096 < 224) := by omega
    have a5 : 224 + c.toNat / 4096 < 240 := by omega
    obtain ⟨l1, l2, l3⟩ := secondLo_bounds (224 + c.toNat / 4096)
    obtain ⟨u1, u2, u3⟩ := secondHi_bounds (224 + c.toNat / 4096)
    have a4 : secondLo (224 + c.toNat / 4096) ≤ 128 + c.toNat / 64 % 64
        ∧ 128 + c.toNat / 64 % 64 < secondHi (224 + c.toNat / 4096)
        ∧ isCont (128 + c.toNat % 64) = true := by
      refine ⟨?_, ?_, ?_⟩
      · by_cases e1 : 224 + c.toNat / 4096 = 224
        · rw [l1 e1]; omega
        · rw [l3 e1 (by omega)]; omega
      · by_cases e1 : 224 + c.toNat / 4096 = 237
        · rw [u1 e1]; omega
        · rw [u3 e1 (by omega)]; omega
      · rw [isCont_iff]; omega
    simp only [List.cons_append, List.nil_append, decodeRune, decode3,
      a1, a2, a3, a4, a5, if_true, if_false, e, and_self, List.length_cons, List.length_nil]
  · refine ⟨_, _, rfl, fun rest => ?_⟩
    have e := char_ofNat_toNat_of c ((240 + c.toNat / 262144 - 240) * 262144
      + (128 + c.toNat / 4096 % 64 - 128) * 4096
      + (128 + c.toNat / 64 % 64 - 128) * 64 + (128 + c.toNat % 64 - 128)) (by omega)
    have a1 : ¬ (240 + c.toNat / 262144 < 128) := by omega
    have a2 : ¬ (240 + c.toNat / 262144 < 194) := by omega
    have a3 : ¬ (240 + c.toNat / 262144 < 224) := by omega
    have a5 : ¬ (240 + c.toNat / 262144 < 240) := by omega
    have a6 : 240 + c.toNat / 262144 < 245 := by omega
    obtain ⟨l1, l2, l3⟩ := secondLo_bounds (240 + c.toNat / 262144)
    obtain ⟨u1, u2, u3⟩ := secondHi_bounds (240 + c.toNat / 262144)
    have a4 : secondLo (240 + c.toNat / 262144) ≤ 128 + c.toNat / 4096 % 64
        ∧ 128 + c.toNat / 4096 % 64 < secondHi (240 + c.toNat / 262144)
        ∧ isCont (128 + c.toNat / 64 % 64) = true ∧ isCont (128 + c.toNat % 64) = true := by
      refine ⟨?_, ?_, ?_, ?_⟩
      · by_cases e1 : 240 + c.toNat / 262144 = 240
        · rw [l2 e1]; omega
        · rw [l3 (by omega) e1]; omega
      · by_cases e1 : 240 + c.toNat / 262144 = 244
        · rw [u2 e1]; omega
        · rw [u3 (by omega) e1]; omega
      · rw [isCont_iff]; omega
      · rw [isCont_iff]; omega
    simp only [List.cons_append, List.nil_append, decodeRune, decode4,
      a1, a2, a3, a4, a5, a6, if_true, if_false, e, and_self, List.length_cons, List.length_nil]

theorem decodeRunes_skip (k : Nat) (bs : List Nat) :
    decodeRunes k bs = decodeRunes 0 (bs.drop k) := by
  induction k generalizing bs with
  | zero => rfl
  | succ k ih =>
    cases bs with
    | nil => rfl
    | cons b bs => simp only [decodeRunes, List.drop_succ_cons]; exact ih bs

theorem decodeRunes_utf8Chars (cs : List Char) (rest : List Nat) :
    decodeRunes 0 (utf8Chars cs ++ rest) = cs.map some ++ decodeRunes 0 rest := by
  induction cs with
  | nil => rfl
  | cons c cs ih =>
    obtain ⟨b0, tl, hc, hd⟩ := decodeRune_utf8Char c
    simp only [utf8Chars, hc, List.cons_append, List.append_assoc, decodeRunes, hd,
      List.map_cons]
    rw [decodeRunes_skip, List.drop_left, ih]

theorem decode2_encode (b0 : Nat) (rest : List Nat) (c : Char) (more : Nat)
    (h0 : 194 ≤ b0) (h1 : b0 < 224) (h : decode2 b0 rest = some (c, more)) :
    utf8Char c = b0 :: rest.take more ∧ more ≤ rest.length := by
  cases rest with
  | nil => simp [decode2] at h
  | cons b1 r =>
    by_cases hb : isCont b1 = true
    · simp only [decode2, hb, if_true, Option.some.injEq, Prod.mk.injEq] at h
      obtain ⟨hc, hm⟩ := h
      subst hc hm
      rw [isCont_iff] at hb
      have t := char_toNat_ofNat ((b0 - 192) * 64 + (b1 - 128)) (by omega)
      have a1 : ¬ ((b0 - 192) * 64 + (b1 - 128) < 128) := by omega
      have a2 : (b0 - 192) * 64 + (b1 - 128) < 2048 := by omega
      have e1 : 192 + ((b0 - 192) * 64 + (b1 - 128)) / 64 = b0 := by omega
      have e2 : 128 + ((b0 - 192) * 64 + (b1 - 128)) % 64 = b1 := by omega
      simp only [utf8Char, t, a1, a2, if_true, if_false, List.take_succ_cons, List.take_zero,
        List.length_cons, e1, e2]
      exact ⟨trivial, by omega⟩
    · simp [decode2, hb] at h

theorem decode3_encode (b0 : Nat) (rest : List Nat) (c : Char) (more : Nat)
    (h0 : 224 ≤ b0) (h1 : b0 < 240) (h : decode3 b0 rest = some (c, more)) :
    utf8Char c = b0 :: rest.take more ∧ more ≤ rest.length := by
  cases rest with
  | nil => simp [decode3] at h
  | cons b1 r =>
    cases r with
    | nil => simp [decode3] at h
    | cons b2 r =>
      by_cases hb : secondLo b0 ≤ b1 ∧ b1 < secondHi b0 ∧ isCont b2 = true
      · simp only [decode3, hb, and_self, if_true, Option.some.injEq, Prod.mk.injEq] at h
        obtain ⟨hc, hm⟩ := h
        subst hc hm
        obtain ⟨hb1, hb2, hb3⟩ := hb
        rw [isCont_iff] at hb3
        obtain ⟨l1, l2, l3⟩ := secondLo_bounds b0
        obtain ⟨u1, u2, u3⟩ := secondHi_bounds b0
        have k1 : 128 ≤ b1 ∧ (b0 = 224 → 160 ≤ b1) := by
          by_cases e1 : b0 = 224
          · rw [l1 e1] at hb1; exact ⟨by omega, fun _ => hb1⟩
          · rw [l3 e1 (by omega)] at hb1; exact ⟨hb1, fun e => absurd e e1⟩
        have k2 : b1 < 192 ∧ (b0 = 237 → b1 < 160) := by
          by_cases e1 : b0 = 237
          · rw [u1 e1] at hb2; exact ⟨by omega, fun _ => hb2⟩
          · rw [u3 e1 (by omega)] at hb2; exact ⟨hb2, fun e => absurd e e1⟩
        obtain ⟨k1a, k1b⟩ := k1
        obtain ⟨k2a, k2b⟩ := k2
        have t := char_toNat_ofNat ((b0 - 224) * 4096 + (b1 - 128) * 64 + (b2 - 128)) (by omega)
        have a1 : ¬ ((b0 - 224) * 4096 + (b1 - 128) * 64 + (b2 - 128) < 128) := by omega
        have a2 : ¬ ((b0 - 224) * 4096 + (b1 - 128) * 64 + (b2 - 128) < 2048) := by omega
        have a3 : (b0 - 224) * 4096 + (b1 - 128) * 64 + (b2 - 128) < 65536 := by omega
        have e1 : 224 + ((b0 - 224) * 4096 + (b1 - 128) * 64 + (b2 - 128)) / 4096 = b0 := by
          omega
        have e2 : 128 + ((b0 - 224) * 4096 + (b1 - 128) * 64 + (b2 - 128)) / 64 % 64 = b1 := by
          omega
        have e3 : 128 + ((b0 - 224) * 4096 + (b1 - 128) * 64 + (b2 - 128)) % 64 = b2 := by
          omega
        simp only [utf8Char, t, a1, a2, a3, if_true, if_false, List.take_succ_cons,
          List.take_zero, List.length_cons, e1, e2, e3]
        exact ⟨trivial, by omega⟩
      · simp [decode3, hb] at h

theorem decode4_encode (b0 : Nat) (rest : List Nat) (c : Char) (more : Nat)
    (h0 : 240 ≤ b0) (h1 : b0 < 245) (h : decode4 b0 rest = some (c, more)) :
    utf8Char c = b0 :: rest.take more ∧ more ≤ rest.length := by
  cases rest with
  | nil => simp [decode4] at h
  | cons b1 r =>
    cases r with
    | nil => simp [decode4] at h
    | cons b2 r =>
      cases r with
      | nil => simp [decode4] at h
      | cons b3 r =>
        by_cases hb : secondLo b0 ≤ b1 ∧ b1 < secondHi b0 ∧ isCont b2 = true ∧ isCont b3 = true
        · simp only [decode4, hb, and_self, if_true, Option.some.injEq, Prod.mk.injEq] at h
          obtain ⟨hc, hm⟩ := h
          subst hc hm
          obtain ⟨hb1, hb2, hb3, hb4⟩ := hb
          rw [isCont_iff] at hb3 hb4
          obtain ⟨l1, l2, l3⟩ := secondLo_bounds b0
          obtain ⟨u1, u2, u3⟩ := secondHi_bounds b0
          have k1 : 128 ≤ b1 ∧ (b0 = 240 → 144 ≤ b1) := by
            by_cases e1 : b0 = 240
            · rw [l2 e1] at hb1; exact ⟨by omega, fun _ => hb1⟩
            · rw [l3 (by omega) e1] at hb1; exact ⟨hb1, fun e => absurd e e1⟩
          have k2 : b1 < 192 ∧ (b0 = 244 → b1 < 144) := by
            by_cases e1 : b0 = 244
            · rw [u2 e1] at hb2; exact ⟨by omega, fun _ => hb2⟩
            · rw [u3 (by omega) e1] at hb2; exact ⟨hb2, fun e => absurd e e1⟩
          obtain ⟨k1a, k1b⟩ := k1
          obtain ⟨k2a, k2b⟩ := k2
          have t := char_toNat_ofNat ((b0 - 240) * 262144 + (b1 - 128) * 4096 + (b2 - 128) * 64
            + (b3 - 128)) (by omega)
          have a1 : ¬ ((b0 - 240) * 262144 + (b1 - 128) * 4096 + (b2 - 128) * 64
            + (b3 - 128) < 128) := by omega
          have a2 : ¬ ((b0 - 240) * 262144 + (b1 - 128) * 4096 + (b2 - 128) * 64
            + (b3 - 128) < 2048) := by omega
          have a3 : ¬ ((b0 - 240) * 262144 + (b1 - 128) * 4096 + (b2 - 128) * 64
            + (b3 - 128) < 65536) := by omega
          have e1 : 240 + ((b0 - 240) * 262144 + (b1 - 128) * 4096 + (b2 - 128) * 64
            + (b3 - 128)) / 262144 = b0 := by omega
          have e2 : 128 + ((b0 - 240) * 262144 + (b1 - 128) * 4096 + (b2 - 128) * 64
            + (b3 - 128)) / 4096 % 64 = b1 := by omega
          have e3 : 128 + ((b0 - 240) * 262144 + (b1 - 128) * 4096 + (b2 - 128) * 64
            + (b3 - 128)) / 64 % 64 = b2 := by omega
          have e4 : 128 + ((b0 - 240) * 262144 + (b1 - 128) * 4096 + (b2 - 128) * 64
            + (b3 - 128)) % 64 = b3 := by omega
          simp only [utf8Char, t, a1, a2, a3, if_true, if_false, List.take_succ_cons,
            List.take_zero, List.length_cons, e1, e2, e3, e4]
          exact ⟨trivial, by omega⟩
        · simp [decode4, hb] at h

theorem decodeRune_encode (b0 : Nat) (rest : List Nat) (c : Char) (more : Nat)
    (h : decodeRune b0 rest = some (c, more)) :
    utf8Char c = b0 :: rest.take more ∧ more ≤ rest.length := by
  unfold decodeRune at h
  by_cases h1 : b0 < 128
  · rw [if_pos h1] at h
    simp only [Option.some.injEq, Prod.mk.injEq] at h
    obtain ⟨hc, hm⟩ := h
    subst hc hm
    have t := char_toNat_ofNat b0 (by omega)
    simp only [utf8Char, t, h1, if_true, List.take_zero]
    exact ⟨trivial, Nat.zero_le _⟩
  · rw [if_neg h1] at h
    by_cases h2 : b0 < 194
    · rw [if_pos h2] at h; exact absurd h (by simp)
    · rw [if_neg h2] at h
      by_cases h3 : b0 < 224
      · rw [if_pos h3] at h
        exact decode2_encode b0 rest c more (by omega) h3 h
      · rw [if_neg h3] at h
        by_cases h4 : b0 < 240
        · rw [if_pos h4] at h
          exact decode3_encode b0 rest c more (by omega) h4 h
        · rw [if_neg h4] at h
          by_cases h5 : b0 < 245
          · rw [if_pos h5] at h
            exact decode4_encode b0 rest c more (by omega) h5 h
          · rw [if_neg h5] at h; exact absurd h (by simp)

theorem utf8Chars_decodeRunes (n : Nat) (bs : List Nat) (hn : bs.length ≤ n)
    (h : (decodeRunes 0 bs).all Option.isSome = true) :
    utf8Chars ((decodeRunes 0 bs).map (fun r => r.getD replacementChar)) = bs := by
  induction n generalizing bs with
  | zero =>
    have : bs = [] := List.length_eq_zero.mp (by omega)
    subst this; rfl
  | succ n ih =>
    cases bs with
    | nil => rfl
    | cons b0 rest =>
      simp only [decodeRunes] at h ⊢
      cases hd : decodeRune b0 rest with
      | none => rw [hd] at h; simp at h
      | some p =>
        obtain ⟨c, more⟩ := p
        rw [hd] at h
        simp only [hd, List.all_cons, Option.isSome_some, Bool.true_and, List.map_cons,
          Option.getD_some, utf8Chars] at h ⊢
        obtain ⟨he, hle⟩ := decodeRune_encode b0 rest c more hd
        rw [decodeRunes_skip] at h ⊢
        have hlen : (rest.drop more).length ≤ n := by
          simp only [List.length_drop, List.length_cons] at hn ⊢; omega
        rw [ih (rest.drop more) hlen h, he]
        simp

theorem GoString.replaceInvalid_of_valid (s : GoString) (h : s.validUTF8 = true) :
    s.replaceInvalid = s := by
  cases s with
  | mk bs =>
    simp only [GoString.replaceInvalid, GoString.ofText, GoString.text, GoString.mk.injEq]
    exact utf8Chars_decodeRunes bs.length bs (le_refl _) h

theorem GoString.text_ofText (t : String) : (GoString.ofText t).text = t.data := by
  have := decodeRunes_utf8Chars t.data []
  simp only [List.append_nil] at this
  simp only [GoString.text, GoString.ofText, this, decodeRunes, List.append_nil, List.map_map]
  induction t.data with
  | nil => rfl
  | cons c cs ih => simp [ih]

theorem GoString.validUTF8_ofText (t : String) : (GoString.ofText t).validUTF8 = true := by
  have := decodeRunes_utf8Chars t.data []
  simp only [List.append_nil] at this
  simp only [GoString.validUTF8, GoString.ofText, this, decodeRunes, List.append_nil]
  induction t.data with
  | nil => rfl
  | cons c cs ih => simp [ih]

theorem GoString.replaceInvalid_ofText (t : String) :
    (GoString.ofText t).replaceInvalid = GoString.ofText t := by
  simp only [GoString.replaceInvalid, GoString.text_ofText]

theorem GoString.replaceInvalid_idem (s : GoString) :
    s.replaceInvalid.replaceInvalid = s.replaceInvalid :=
  GoString.replaceInvalid_ofText _

theorem GoString.text_replaceInvalid (s : GoString) : s.replaceInvalid.text = s.text :=
  GoString.text_ofText _

/-! ## Round trip of the JSON encoding -/

theorem hexVal_hexDigit (d : Nat) (h : d < 16) : hexVal (hexDigit d) = some d := by
  have : ∀ x : Fin 16, hexVal (hexDigit x.val) = some x.val := by decide
  exact this ⟨d, h⟩

theorem scanString_uni (n : Nat) (hn : n < 55296) (cs acc : List Char) :
    scanString (hex4 n ++ cs) (.uni 0 0) none acc
      = scanString cs .plain none (Char.ofNat n :: acc) := by
  have h3 : n / 4096 % 16 = n / 4096 := Nat.mod_eq_of_lt (by omega)
  simp only [hex4, List.cons_append, List.nil_append, scanString,
    hexVal_hexDigit _ (Nat.mod_lt _ (by decide : 0 < 16))]
  have e1 : n / 16 / 16 = n / 256 := Nat.div_div_eq_div_mul n 16 16
  have e2 : n / 256 / 16 = n / 4096 := Nat.div_div_eq_div_mul n 256 16
  have hv : ((n / 4096 % 16 * 16 + n / 256 % 16) * 16 + n / 16 % 16) * 16 + n % 16 = n := by
    omega
  have hs : isSurrogate n = false := by simp [isSurrogate]; omega
  simp [hv, hs]

theorem scanString_encodeChar (c : Char) (cs acc : List Char) :
    scanString (encodeChar c ++ cs) .plain none acc = scanString cs .plain none (c :: acc) := by
  have hc : Char.ofNat c.toNat = c := Char.ofNat_toNat c
  unfold encodeChar
  split_ifs with h1 h2 h3 h4 h5 h6
  · rw [← hc, h1]; rfl
  · rw [← hc, h2]; rfl
  · rw [← hc, h3]; rfl
  · rw [← hc, h4]; rfl
  · rw [← hc, h5]; rfl
  · have hn : c.toNat < 55296 := by omega
    have := scanString_uni c.toNat hn cs acc
    rw [hc] at this
    rw [← this]
    rfl
  · simp only [List.cons_append, List.nil_append, scanString]
    have : ¬ c.toNat < 32 := by omega
    simp [h1, h2, this]

theorem scanString_encodeChars (s cs acc : List Char) :
    scanString (encodeChars s ++ dq :: cs) .plain none acc = some (acc.reverse ++ s, cs) := by
  induction s generalizing acc with
  | nil => simp [encodeChars, scanString, dq]
  | cons c s ih =>
    simp only [encodeChars, List.append_assoc]
    rw [scanString_encodeChar, ih]
    simp

theorem digit_toNat (d : Nat) (h : d < 10) : (Char.ofNat (48 + d)).toNat = 48 + d := by
  have : ∀ x : Fin 10, (Char.ofNat (48 + x.val)).toNat = 48 + x.val := by decide
  exact this ⟨d, h⟩

theorem isDigit_digit (d : Nat) (h : d < 10) : isDigit (Char.ofNat (48 + d)) = true := by
  simp [isDigit, digit_toNat d h]; omega

theorem natDigits_spec (fuel n : Nat) (h : n < fuel) :
    natDigits fuel n ≠ [] ∧ ((natDigits fuel n).head? = some '0' → n = 0)
      ∧ (natDigits fuel n).all isDigit = true ∧ digitsValue (natDigits fuel n) = n := by
  induction fuel generalizing n with
  | zero => omega
  | succ fuel ih =>
    unfold natDigits
    split_ifs with h10
    · refine ⟨by simp, ?_, ?_, ?_⟩
      · intro hh
        simp only [List.head?_cons, Option.some.injEq] at hh
        have := digit_toNat n h10
        rw [hh] at this
        have h0 : ('0' : Char).toNat = 48 := by decide
        omega
      · simp [isDigit_digit n h10]
      · simp [digitsValue, digit_toNat n h10]
    · obtain ⟨ne, hz, hall, hval⟩ := ih (n / 10) (by omega)
      refine ⟨by simp, ?_, ?_, ?_⟩
      · intro hh
        rw [List.head?_append_of_ne_nil _ ne] at hh
        have := hz hh
        omega
      · simp [hall, isDigit_digit (n % 10) (Nat.mod_lt _ (by decide))]
      · unfold digitsValue at hval ⊢
        rw [List.foldl_append, hval]
        simp [digit_toNat (n % 10) (Nat.mod_lt _ (by decide))]
        omega

theorem spanDigits_append (ds : List Char) (c : Char) (rest : List Char)
    (hds : ds.all isDigit = true) (hc : isDigit c = false) :
    spanDigits (ds ++ c :: rest) = (ds, c :: rest) := by
  induction ds with
  | nil => simp [spanDigits, hc]
  | cons d ds ih =>
    simp only [List.all_cons, Bool.and_eq_true] at hds
    simp [spanDigits, hds.1, ih hds.2]

theorem splitSign_digits (ds rest : List Char) (hne : ds ≠ [])
    (hds : ds.all isDigit = true) : splitSign (ds ++ rest) = ([], ds ++ rest) := by
  cases ds with
  | nil => exact absurd rfl hne
  | cons d ds =>
    simp only [List.all_cons, Bool.and_eq_true] at hds
    have hd : d ≠ '-' := by
      intro h
      rw [h] at hds
      exact absurd hds.1 (by decide)
    simp [splitSign, hd]

theorem scanNumber_digits (sign ds rest : List Char) (hne : ds ≠ [])
    (hds : ds.all isDigit = true) (hz : ds.head? = some '0' → ds.length ≤ 1)
    (hsign : sign = [] ∨ sign = ['-']) :
    scanNumber (sign ++ ds ++ ',' :: rest) = some (sign ++ ds, ',' :: rest) := by
  have hs : splitSign (sign ++ ds ++ ',' :: rest) = (sign, ds ++ ',' :: rest) := by
    rcases hsign with h | h
    · subst h
      simpa using splitSign_digits ds (',' :: rest) hne hds
    · subst h
      simp [splitSign]
  have hsp : spanDigits (ds ++ ',' :: rest) = (ds, ',' :: rest) :=
    spanDigits_append ds ',' rest hds (by decide)
  have hcond : ¬ (ds = [] ∨ (1 < ds.length ∧ ds.head? = some '0')) := by
    rintro (h | ⟨h1, h2⟩)
    · exact hne h
    · have := hz h2
      omega
  simp only [scanNumber, hs, hsp]
  rw [if_neg hcond]
  simp [scanFrac, scanExp]


theorem scanNumber_formatInt (n : Int) (rest : List Char) :
    scanNumber (formatInt n ++ ',' :: rest) = some (formatInt n, ',' :: rest) := by
  cases n with
  | ofNat m =>
    obtain ⟨ne, hz, hall, _⟩ := natDigits_spec (m + 1) m (by omega)
    have := scanNumber_digits [] (natDigits (m + 1) m) rest ne hall
      (fun h => by rw [hz h]; simp [natDigits]) (Or.inl rfl)
    simpa [formatInt] using this
  | negSucc m =>
    obtain ⟨ne, hz, hall, _⟩ := natDigits_spec (m + 2) (m + 1) (by omega)
    have := scanNumber_digits ['-'] (natDigits (m + 2) (m + 1)) rest ne hall
      (fun h => by have := hz h; omega) (Or.inr rfl)
    simpa [formatInt] using this

theorem parseInt_formatInt (n : Int) (h : isInt n) : parseInt (formatInt n) = some n := by
  cases n with
  | ofNat m =>
    obtain ⟨ne, _, hall, hval⟩ := natDigits_spec (m + 1) m (by omega)
    have hs := splitSign_digits (natDigits (m + 1) m) [] ne hall
    simp only [List.append_nil] at hs
    have hc : ¬ (natDigits (m + 1) m = [] ∨ (natDigits (m + 1) m).all isDigit = false) := by
      simp [ne, hall]
    simp only [parseInt, formatInt, hs, hval]
    rw [if_neg hc]
    have h2 : isInt (m : Int) := h
    simp only [if_true]
    rw [if_pos h2]
    rfl
  | negSucc m =>
    obtain ⟨ne, _, hall, hval⟩ := natDigits_spec (m + 2) (m + 1) (by omega)
    have hs : splitSign ('-' :: natDigits (m + 2) (m + 1)) = (['-'], natDigits (m + 2) (m + 1)) := by
      simp [splitSign]
    have hc : ¬ (natDigits (m + 2) (m + 1) = [] ∨ (natDigits (m + 2) (m + 1)).all isDigit = false) := by
      simp [ne, hall]
    simp only [parseInt, formatInt, hs, hval]
    rw [if_neg hc]
    have e : (-((m + 1 : Nat) : Int)) = Int.negSucc m := by rfl
    simp only [List.cons_ne_nil, if_false, e]
    rw [if_pos h]


theorem parseValue_string (f : Nat) (s rest : List Char) :
    parseValue (f + 1) (dq :: (encodeChars s ++ dq :: rest)) = some (.str s, rest) := by
  have h := scanString_encodeChars s rest []
  simp only [List.reverse_nil, List.nil_append] at h
  have hw : skipWS (dq :: (encodeChars s ++ dq :: rest)) = dq :: (encodeChars s ++ dq :: rest) := by
    simp [skipWS, isWS, dq]
  have hq : dq.toNat = 34 := by decide
  simp only [parseValue, hw, hq, if_true, h]

theorem scanString_encodeRune (r : Option Char) (cs acc : List Char) :
    scanString (encodeRune r ++ cs) .plain none acc
      = scanString cs .plain none (r.getD replacementChar :: acc) := by
  cases r with
  | some c => exact scanString_encodeChar c cs acc
  | none => rfl

theorem scanString_encodeRunes (rs : List (Option Char)) (cs acc : List Char) :
    scanString (encodeRunes rs ++ dq :: cs) .plain none acc
      = some (acc.reverse ++ rs.map (fun r => r.getD replacementChar), cs) := by
  induction rs generalizing acc with
  | nil => simp [encodeRunes, scanString, dq]
  | cons r rs ih =>
    simp only [encodeRunes, List.append_assoc]
    rw [scanString_encodeRune, ih]
    simp

theorem parseValue_goString (f : Nat) (s : GoString) (rest : List Char) :
    parseValue (f + 1) (dq :: (encodeRunes (decodeRunes 0 s.bytes) ++ dq :: rest))
      = some (.str s.text, rest) := by
  have h := scanString_encodeRunes (decodeRunes 0 s.bytes) rest []
  simp only [List.reverse_nil, List.nil_append] at h
  have hw : skipWS (dq :: (encodeRunes (decodeRunes 0 s.bytes) ++ dq :: rest))
      = dq :: (encodeRunes (decodeRunes 0 s.bytes) ++ dq :: rest) := by
    simp [skipWS, isWS, dq]
  have hq : dq.toNat = 34 := by decide
  simp only [parseValue, hw, hq, if_true, h, GoString.text]

theorem formatInt_head (n : Int) :
    ∃ c tl, formatInt n = c :: tl ∧ 44 < c.toNat ∧ c.toNat < 58 := by
  cases n with
  | ofNat m =>
    obtain ⟨ne, _, hall, _⟩ := natDigits_spec (m + 1) m (by omega)
    simp only [formatInt]
    cases hd : natDigits (m + 1) m with
    | nil => exact absurd hd ne
    | cons c tl =>
      rw [hd] at hall
      simp only [List.all_cons, Bool.and_eq_true, isDigit, decide_eq_true_eq] at hall
      exact ⟨c, tl, rfl, by omega, by omega⟩
  | negSucc m => exact ⟨'-', _, rfl, by decide, by decide⟩

theorem parseValue_int (f : Nat) (n : Int) (rest : List Char) :
    parseValue (f + 1) (formatInt n ++ ',' :: rest)
      = some (.num (formatInt n), ',' :: rest) := by
  have hnum := scanNumber_formatInt n rest
  obtain ⟨c, tl, hc, h1, h2⟩ := formatInt_head n
  rw [hc] at hnum ⊢
  have hw : skipWS ((c :: tl) ++ ',' :: rest) = c :: (tl ++ ',' :: rest) := by
    simp [skipWS, isWS]; omega
  have n1 : c ≠ '[' := fun h => by rw [h] at h2; exact absurd h2 (by decide)
  have n2 : c ≠ 't' := fun h => by rw [h] at h2; exact absurd h2 (by decide)
  have n3 : c ≠ 'f' := fun h => by rw [h] at h2; exact absurd h2 (by decide)
  have n4 : c ≠ 'n' := fun h => by rw [h] at h2; exact absurd h2 (by decide)
  have n5 : c.toNat ≠ 34 := by omega
  have n6 : c.toNat ≠ 123 := by omega
  simp only [parseValue, hw, n1, n2, n3, n4, n5, n6, if_false]
  rw [show c :: (tl ++ ',' :: rest) = (c :: tl) ++ ',' :: rest from rfl, hnum]

theorem parseMembers_cons (f : Nat) (key vt rest rest2 : List Char) (v : JSON)
    (ms : List (List Char × JSON))
    (hv : parseValue (f + 1) vt = some (v, ',' :: rest))
    (hm : parseMembers (f + 1) rest = some (ms, rest2)) :
    parseMembers (f + 2) (dq :: (encodeChars key ++ dq :: ':' :: vt))
      = some ((key, v) :: ms, rest2) := by
  have h := scanString_encodeChars key (':' :: vt) []
  simp only [List.reverse_nil, List.nil_append] at h
  have hw : skipWS (dq :: (encodeChars key ++ dq :: ':' :: vt))
      = dq :: (encodeChars key ++ dq :: ':' :: vt) := by
    simp [skipWS, isWS, dq]
  have hq : dq.toNat = 34 := by decide
  have hw2 : skipWS (':' :: vt) = ':' :: vt := by simp [skipWS, isWS]
  have hw3 : skipWS (',' :: rest) = ',' :: rest := by simp [skipWS, isWS]
  have hk : (',' : Char).toNat ≠ 125 := by decide
  rw [parseMembers]
  simp only [hw, hq, if_true, h, hw2, hv, hw3, hk, if_false, hm]

theorem parseMembers_last (f : Nat) (key vt rest : List Char) (v : JSON)
    (hv : parseValue (f + 1) vt = some (v, Char.ofNat 125 :: rest)) :
    parseMembers (f + 2) (dq :: (encodeChars key ++ dq :: ':' :: vt))
      = some ([(key, v)], rest) := by
  have h := scanString_encodeChars key (':' :: vt) []
  simp only [List.reverse_nil, List.nil_append] at h
  have hw : skipWS (dq :: (encodeChars key ++ dq :: ':' :: vt))
      = dq :: (encodeChars key ++ dq :: ':' :: vt) := by
    simp [skipWS, isWS, dq]
  have hq : dq.toNat = 34 := by decide
  have hw2 : skipWS (':' :: vt) = ':' :: vt := by simp [skipWS, isWS]
  have hw3 : skipWS (Char.ofNat 125 :: rest) = Char.ofNat 125 :: rest := by simp [skipWS, isWS]
  have hk : (Char.ofNat 125).toNat = 125 := by decide
  rw [parseMembers]
  simp only [hw, hq, if_true, h, hw2, hv, hw3, hk]

theorem encodeAsset_eq (a : Asset) :
    encodeAsset a = Char.ofNat 123 :: dq :: (encodeChars "ID".data ++ dq :: ':' ::
      dq :: (encodeRunes (decodeRunes 0 a.ID.bytes) ++ dq :: ',' ::
      dq :: (encodeChars "Type".data ++ dq :: ':' ::
      dq :: (encodeRunes (decodeRunes 0 a.Type_.bytes) ++ dq :: ',' ::
      dq :: (encodeChars "Price".data ++ dq :: ':' ::
      (formatInt a.Price ++ ',' ::
      dq :: (encodeChars "Owner".data ++ dq :: ':' ::
      dq :: (encodeRunes (decodeRunes 0 a.Owner.bytes) ++ dq :: [Char.ofNat 125])))))))) := by
  simp only [encodeAsset, encodeString, List.append_assoc, List.cons_append, List.nil_append]
  rfl

theorem parseValue_encodeAsset (k : Nat) (a : Asset) :
    parseValue (k + 6) (encodeAsset a)
      = some (.obj [("ID".data, .str a.ID.text), ("Type".data, .str a.Type_.text),
          ("Price".data, .num (formatInt a.Price)), ("Owner".data, .str a.Owner.text)], []) := by
  have m4 := parseMembers_last k "Owner".data _ [] _
    (parseValue_goString k a.Owner [Char.ofNat 125])
  have m3 := parseMembers_cons (k + 1) "Price".data _ _ _ _ _ (parseValue_int (k + 1) a.Price _) m4
  have m2 := parseMembers_cons (k + 2) "Type".data _ _ _ _ _
    (parseValue_goString (k + 2) a.Type_ _) m3
  have m1 := parseMembers_cons (k + 3) "ID".data _ _ _ _ _
    (parseValue_goString (k + 3) a.ID _) m2
  rw [encodeAsset_eq, parseValue]
  have hw : ∀ cs, skipWS (Char.ofNat 123 :: cs) = Char.ofNat 123 :: cs := by
    intro cs; simp [skipWS, isWS]
  have hw2 : ∀ cs, skipWS (dq :: cs) = dq :: cs := by
    intro cs; simp [skipWS, isWS, dq]
  have h1 : ¬ ((123 : Nat) = 34) := by decide
  have h2 : (Char.ofNat 123).toNat = 123 := by decide
  have h3 : dq.toNat ≠ 125 := by decide
  simp only [hw, hw2, h1, h2, h3, if_true, if_false, m1]

theorem encodeAsset_length (a : Asset) : 5 ≤ (encodeAsset a).length := by
  rw [encodeAsset_eq]
  simp only [List.length_cons, List.length_append]
  omega

theorem setFields_encoded (a : Asset) (h : isInt a.Price) :
    setFields ⟨"", "", 0, ""⟩ [("ID".data, .str a.ID.text), ("Type".data, .str a.Type_.text),
          ("Price".data, .num (formatInt a.Price)), ("Owner".data, .str a.Owner.text)]
      = some a.replaceInvalid := by
  have k1 : lowerASCII "ID".data = "id".data := by decide
  have k2 : lowerASCII "Type".data = "type".data := by decide
  have k3 : lowerASCII "Price".data = "price".data := by decide
  have k4 : lowerASCII "Owner".data = "owner".data := by decide
  have d1 : "type".data ≠ "id".data := by decide
  have d2 : "price".data ≠ "id".data := by decide
  have d3 : "price".data ≠ "type".data := by decide
  have d4 : "owner".data ≠ "id".data := by decide
  have d5 : "owner".data ≠ "type".data := by decide
  have d6 : "owner".data ≠ "price".data := by decide
  simp only [setFields, setField, stringField, intField, k1, k2, k3, k4, d1, d2, d3, d4, d5, d6,
    if_true, if_false, parseInt_formatInt a.Price h, Option.map_some']
  rfl

/-- Decoding the encoding of an asset whose price is a Go `int` gives the asset
back, with U+FFFD in the place of every byte of its strings that is not part
of a valid UTF-8 encoding. -/
theorem json_roundtrip_bytes (a : Asset) (h : isInt a.Price) :
    json_Unmarshal (String.mk (encodeAsset a)) = .ok a.replaceInvalid := by
  have hl := encodeAsset_length a
  obtain ⟨k, hk⟩ : ∃ k, (encodeAsset a).length + 1 = k + 6 :=
    ⟨(encodeAsset a).length - 5, by omega⟩
  have hp : parseJSON (encodeAsset a) = some (.obj [("ID".data, .str a.ID.text),
      ("Type".data, .str a.Type_.text), ("Price".data, .num (formatInt a.Price)),
      ("Owner".data, .str a.Owner.text)]) := by
    simp only [parseJSON, hk, parseValue_encodeAsset, skipWS, if_true]
  simp only [json_Unmarshal, hp, setFields_encoded a h]

/-- Decoding the encoding of an asset whose strings are unchanged by the
replacement of invalid bytes and whose price is a Go `int` gives the asset back. -/
theorem json_roundtrip (a : Asset) (h : isInt a.Price) (hv : a.replaceInvalid = a) :
    json_Unmarshal (String.mk (encodeAsset a)) = .ok a := by
  rw [json_roundtrip_bytes a h, hv]

theorem asset_replaceInvalid_eq (a : Asset) (h1 : a.ID.replaceInvalid = a.ID)
    (h2 : a.Type_.replaceInvalid = a.Type_) (h3 : a.Owner.replaceInvalid = a.Owner) :
    a.replaceInvalid = a := by
  cases a
  simp only [Asset.replaceInvalid, Asset.mk.injEq] at h1 h2 h3 ⊢
  exact ⟨h1, h2, trivial, h3⟩

theorem asset_replaceInvalid_fields (a : Asset) (h : a.replaceInvalid = a) :
    a.ID.replaceInvalid = a.ID ∧ a.Type_.replaceInvalid = a.Type_
      ∧ a.Owner.replaceInvalid = a.Owner := by
  cases a
  simp only [Asset.replaceInvalid, Asset.mk.injEq] at h ⊢
  exact ⟨h.1, h.2.1, h.2.2.2⟩

theorem stringField_fixed (old s : GoString) (v : JSON) (h : stringField old v = some s)
    (ho : old.replaceInvalid = old) : s.replaceInvalid = s := by
  cases v with
  | str cs =>
    simp only [stringField, Option.some.injEq] at h
    rw [← h]
    exact GoString.replaceInvalid_ofText _
  | null =>
    simp only [stringField, Option.some.injEq] at h
    rw [← h]; exact ho
  | bool _ => simp [stringField] at h
  | num _ => simp [stringField] at h
  | arr _ => simp [stringField] at h
  | obj _ => simp [stringField] at h

theorem setField_fixed (a b : Asset) (key : List Char) (v : JSON)
    (h : setField a key v = some b) (ha : a.replaceInvalid = a) : b.replaceInvalid = b := by
  obtain ⟨h1, h2, h3⟩ := asset_replaceInvalid_fields a ha
  unfold setField at h
  split_ifs at h
  · cases hs : stringField a.ID v with
    | none => simp [hs] at h
    | some s =>
      simp [hs] at h; rw [← h]
      exact asset_replaceInvalid_eq _ (stringField_fixed _ _ _ hs h1) h2 h3
  · cases hs : stringField a.Type_ v with
    | none => simp [hs] at h
    | some s =>
      simp [hs] at h; rw [← h]
      exact asset_replaceInvalid_eq _ h1 (stringField_fixed _ _ _ hs h2) h3
  · cases hs : intField a.Price v with
    | none => simp [hs] at h
    | some n =>
      simp [hs] at h; rw [← h]
      exact asset_replaceInvalid_eq _ h1 h2 h3
  · cases hs : stringField a.Owner v with
    | none => simp [hs] at h
    | some s =>
      simp [hs] at h; rw [← h]
      exact asset_replaceInvalid_eq _ h1 h2 (stringField_fixed _ _ _ hs h3)
  · simp only [Option.some.injEq] at h
    rw [← h]; exact ha

theorem setFields_fixed (ms : List (List Char × JSON)) (a b : Asset)
    (h : setFields a ms = some b) (ha : a.replaceInvalid = a) : b.replaceInvalid = b := by
  induction ms generalizing a with
  | nil =>
    simp only [setFields, Option.some.injEq] at h
    rw [← h]; exact ha
  | cons m ms ih =>
    obtain ⟨k, v⟩ := m
    simp only [setFields] at h
    cases hs : setField a k v with
    | none => simp [hs] at h
    | some a2 =>
      rw [hs] at h
      exact ih a2 h (setField_fixed a a2 k v hs ha)

/-- The strings of a decoded asset are valid UTF-8: the replacement of invalid
bytes leaves them as they are. -/
theorem json_Unmarshal_fixed (v : Bytes) (a : Asset) (h : json_Unmarshal v = .ok a) :
    a.replaceInvalid = a := by
  unfold json_Unmarshal at h
  split at h
  · simp at h
  · split at h
    · simp at h
    · rename_i b hb
      simp only [Except.ok.injEq] at h
      rw [← h]
      exact setFields_fixed _ ⟨"", "", 0, ""⟩ b hb (by decide)
  · simp only [Except.ok.injEq] at h
    rw [← h]; decide
  · simp at h

/-! ## The world state and the transaction runner -/

theorem lookup_upsert_self (st : List (GoString × Bytes)) (key : GoString) (value : Bytes) :
    lookup (upsert st key value) key = some value := by
  induction st with
  | nil => simp [upsert, lookup]
  | cons kv rest ih =>
    obtain ⟨k, v⟩ := kv
    unfold upsert
    split_ifs with h1 h2
    · simp [lookup]
    · simp [lookup]
    · have : ¬ k = key := fun h => h1 h.symm
      simp [lookup, this, ih]

theorem lookup_upsert_other (st : List (GoString × Bytes)) (key other : GoString) (value : Bytes)
    (h : other ≠ key) : lookup (upsert st key value) other = lookup st other := by
  induction st with
  | nil => simp [upsert, lookup, h.symm]
  | cons kv rest ih =>
    obtain ⟨k, v⟩ := kv
    unfold upsert
    split_ifs with h1 h2
    · subst h1
      simp [lookup, h.symm]
    · simp [lookup, h.symm]
    · simp [lookup, ih]

theorem getState_fault_none (ctx : Stub) (key : GoString) (r : Option Bytes)
    (h : ctx.GetState key = .ok r) : ctx.faults.getState key = none ∧ lookup ctx.state key = r := by
  unfold Stub.GetState at h
  cases hf : ctx.faults.getState key with
  | none => rw [hf] at h; simpa using h
  | some e => rw [hf] at h; simp at h


/-- The ledger after a transaction that wrote exactly one key. -/
theorem invoke_single_write (ctx : Stub) (txId : GoString) (ts : Option Timestamp)
    (op : Stub → Except GoString Unit × Stub) (key : GoString) (value : Bytes)
    (h : op { ctx with writes := [] } = (.ok (), { ctx with writes := [(key, value)] })) :
    ctx.invoke txId ts op = (.ok (),
      ⟨upsert ctx.state key value, (key, ⟨txId, value, ts, false⟩) :: ctx.history, [],
        ctx.faults⟩) := by
  simp [Stub.invoke, h, Stub.commit]

theorem invoke_error (ctx : Stub) (txId : GoString) (ts : Option Timestamp)
    (op : Stub → Except GoString Unit × Stub) (err : GoString) (c2 : Stub)
    (h : op { ctx with writes := [] } = (.error err, c2)) :
    ctx.invoke txId ts op = (.error err, { ctx with writes := [] }) := by
  simp [Stub.invoke, h]

/-! ## The operations, step by step -/

theorem readAsset_of_value (ctx : Stub) (id : GoString) (v : Bytes)
    (h : ctx.GetState id = .ok (some v)) :
    ReadAsset ctx id = json_Unmarshal v := by
  simp only [ReadAsset, h]
  cases json_Unmarshal v <;> rfl

theorem readAsset_absent (ctx : Stub) (id : GoString) (h : ctx.GetState id = .ok none) :
    ReadAsset ctx id = .error ("the asset " ++ id ++ " does not exist") := by
  simp only [ReadAsset, h]

theorem readAsset_ok_inv (ctx : Stub) (id : GoString) (a : Asset) (h : ReadAsset ctx id = .ok a) :
    ∃ v, ctx.GetState id = .ok (some v) ∧ json_Unmarshal v = .ok a := by
  cases hg : ctx.GetState id with
  | error e => simp [ReadAsset, hg] at h
  | ok r =>
    cases r with
    | none => simp [ReadAsset, hg] at h
    | some v =>
      rw [readAsset_of_value _ _ _ hg] at h
      exact ⟨v, rfl, h⟩

theorem readAsset_fixed (ctx : Stub) (id : GoString) (a : Asset)
    (h : ReadAsset ctx id = .ok a) : a.replaceInvalid = a := by
  obtain ⟨v, _, hv⟩ := readAsset_ok_inv ctx id a h
  exact json_Unmarshal_fixed v a hv

theorem readAsset_writes (ctx : Stub) (ws : List (GoString × Bytes)) (id : GoString) :
    ReadAsset { ctx with writes := ws } id = ReadAsset ctx id := rfl

theorem createAsset_run (ctx : Stub) (id assetType owner : GoString) (price : Int)
    (habsent : ctx.GetState id = .ok none) :
    CreateAsset ctx id assetType price owner
      = ctx.PutState id (String.mk (encodeAsset ⟨id, assetType, price, owner⟩)) := by
  simp [CreateAsset, AssetExists, habsent, json_Marshal]

theorem updateAssetPrice_run (ctx : Stub) (id : GoString) (newPrice : Int) (a : Asset)
    (hread : ReadAsset ctx id = .ok a) (hne : a.Price ≠ newPrice) :
    UpdateAssetPrice ctx id newPrice
      = ctx.PutState id (String.mk (encodeAsset { a with Price := newPrice })) := by
  simp [UpdateAssetPrice, hread, hne, json_Marshal]

theorem transferAsset_run (ctx : Stub) (id newOwner : GoString) (a : Asset)
    (hread : ReadAsset ctx id = .ok a) (hne : a.Owner ≠ newOwner) :
    TransferAsset ctx id newOwner
      = ctx.PutState id (String.mk (encodeAsset { a with Owner := newOwner })) := by
  simp [TransferAsset, hread, hne, json_Marshal]


/-- Reading a key back from the ledger a single-write transaction left. -/
theorem readAsset_after_write (ctx : Stub) (id : GoString) (a : Asset) (hist : List (GoString × KeyModification))
    (hf : ctx.faults.getState id = none) (hp : isInt a.Price) :
    ReadAsset ⟨upsert ctx.state id (String.mk (encodeAsset a)), hist, [], ctx.faults⟩ id
      = .ok a.replaceInvalid := by
  have hg : Stub.GetState ⟨upsert ctx.state id (String.mk (encodeAsset a)), hist, [],
      ctx.faults⟩ id = .ok (some (String.mk (encodeAsset a))) := by
    simp [Stub.GetState, hf, lookup_upsert_self]
  rw [readAsset_of_value _ _ _ hg, json_roundtrip_bytes a hp]

theorem replaceInvalid_withPrice (a : Asset) (p : Int) (h : a.replaceInvalid = a) :
    ({ a with Price := p } : Asset).replaceInvalid = { a with Price := p } := by
  obtain ⟨h1, h2, h3⟩ := asset_replaceInvalid_fields a h
  exact asset_replaceInvalid_eq _ h1 h2 h3

theorem replaceInvalid_withOwner (a : Asset) (o : GoString) (h : a.replaceInvalid = a) :
    ({ a with Owner := o } : Asset).replaceInvalid = { a with Owner := o.replaceInvalid } := by
  obtain ⟨h1, h2, _⟩ := asset_replaceInvalid_fields a h
  simp only [Asset.replaceInvalid, h1, h2]

/-- Reading a key back after a price update of an asset that was read from the
ledger. -/
theorem readAsset_after_price (ctx : Stub) (id : GoString) (a : Asset) (p : Int)
    (hist : List (GoString × KeyModification))
    (hf : ctx.faults.getState id = none) (hp : isInt p) (hv : a.replaceInvalid = a) :
    ReadAsset ⟨upsert ctx.state id (String.mk (encodeAsset { a with Price := p })), hist, [],
        ctx.faults⟩ id = .ok { a with Price := p } := by
  rw [readAsset_after_write ctx id { a with Price := p } hist hf hp,
    replaceInvalid_withPrice a p hv]

/-- Reading a key back after a transfer of an asset that was read from the
ledger: the new owner comes back with U+FFFD for its invalid bytes. -/
theorem readAsset_after_owner (ctx : Stub) (id : GoString) (a : Asset) (o : GoString)
    (hist : List (GoString × KeyModification))
    (hf : ctx.faults.getState id = none) (hp : isInt a.Price) (hv : a.replaceInvalid = a) :
    ReadAsset ⟨upsert ctx.state id (String.mk (encodeAsset { a with Owner := o })), hist, [],
        ctx.faults⟩ id = .ok { a with Owner := o.replaceInvalid } := by
  rw [readAsset_after_write ctx id { a with Owner := o } hist hf hp,
    replaceInvalid_withOwner a o hv]

/-- The ledger after a `CreateAsset` transaction at an absent key on a platform
that accepts the write. -/
theorem createAsset_commit (ctx : Stub) (id assetType owner : GoString) (price : Int)
    (txId : GoString) (ts : Option Timestamp)
    (habsent : ctx.GetState id = .ok none)
    (hput : ∀ value, ctx.faults.putState id value = none) :
    ctx.invoke txId ts (fun c => CreateAsset c id assetType price owner) = (.ok (),
      ⟨upsert ctx.state id (String.mk (encodeAsset ⟨id, assetType, price, owner⟩)),
       (id, ⟨txId, String.mk (encodeAsset ⟨id, assetType, price, owner⟩), ts, false⟩)
         :: ctx.history, [], ctx.faults⟩) := by
  apply invoke_single_write
  rw [createAsset_run _ _ _ _ _ (by simpa [Stub.GetState] using habsent)]
  simp [Stub.PutState, hput, upsert]

/-- The ledger after an `UpdateAssetPrice` transaction that changes the price on
a platform that accepts the write. -/
theorem updateAssetPrice_commit (ctx : Stub) (id : GoString) (newPrice : Int) (a : Asset)
    (txId : GoString) (ts : Option Timestamp)
    (hread : ReadAsset ctx id = .ok a) (hne : a.Price ≠ newPrice)
    (hput : ∀ value, ctx.faults.putState id value = none) :
    ctx.invoke txId ts (fun c => UpdateAssetPrice c id newPrice) = (.ok (),
      ⟨upsert ctx.state id (String.mk (encodeAsset { a with Price := newPrice })),
       (id, ⟨txId, String.mk (encodeAsset { a with Price := newPrice }), ts, false⟩)
         :: ctx.history, [], ctx.faults⟩) := by
  apply invoke_single_write
  rw [updateAssetPrice_run _ _ _ a (by rw [readAsset_writes]; exact hread) hne]
  simp [Stub.PutState, hput, upsert]

/-- The ledger after a `TransferAsset` transaction that changes the owner on a
platform that accepts the write. -/
theorem transferAsset_commit (ctx : Stub) (id newOwner : GoString) (a : Asset)
    (txId : GoString) (ts : Option Timestamp)
    (hread : ReadAsset ctx id = .ok a) (hne : a.Owner ≠ newOwner)
    (hput : ∀ value, ctx.faults.putState id value = none) :
    ctx.invoke txId ts (fun c => TransferAsset c id newOwner) = (.ok (),
      ⟨upsert ctx.state id (String.mk (encodeAsset { a with Owner := newOwner })),
       (id, ⟨txId, String.mk (encodeAsset { a with Owner := newOwner }), ts, false⟩)
         :: ctx.history, [], ctx.faults⟩) := by
  apply invoke_single_write
  rw [transferAsset_run _ _ _ a (by rw [readAsset_writes]; exact hread) hne]
  simp [Stub.PutState, hput, upsert]

theorem readAsset_fault_none (ctx : Stub) (id : GoString) (a : Asset)
    (h : ReadAsset ctx id = .ok a) : ctx.faults.getState id = none := by
  obtain ⟨v, hv, _⟩ := readAsset_ok_inv ctx id a h
  exact (getState_fault_none ctx id _ hv).1

theorem createAsset_cases (ctx : Stub) (id assetType owner : GoString) (price : Int) :
    CreateAsset ctx id assetType price owner =
      match ctx.faults.getState id with
      | some err => (.error ("failed to read from world state: " ++ err), ctx)
      | none =>
        match lookup ctx.state id with
        | some _ => (.error ("the asset " ++ id ++ " already exists"), ctx)
        | none => ctx.PutState id (String.mk (encodeAsset ⟨id, assetType, price, owner⟩)) := by
  cases hf : ctx.faults.getState id with
  | some err => simp [CreateAsset, AssetExists, Stub.GetState, hf]
  | none =>
    cases hl : lookup ctx.state id with
    | some v => simp [CreateAsset, AssetExists, Stub.GetState, hf, hl]
    | none => simp [CreateAsset, AssetExists, Stub.GetState, hf, hl, json_Marshal]

/-- What a successful `CreateAsset` transaction means: the key was absent, the
write was accepted, and the ledger holds the new value. -/
theorem createAsset_invoke_ok (ctx : Stub) (id assetType owner : GoString) (price : Int)
    (txId : GoString) (ts : Option Timestamp)
    (h : (ctx.invoke txId ts (fun c => CreateAsset c id assetType price owner)).1 = .ok ()) :
    ctx.faults.getState id = none ∧
    ctx.invoke txId ts (fun c => CreateAsset c id assetType price owner) = (.ok (),
      ⟨upsert ctx.state id (String.mk (encodeAsset ⟨id, assetType, price, owner⟩)),
       (id, ⟨txId, String.mk (encodeAsset ⟨id, assetType, price, owner⟩), ts, false⟩)
         :: ctx.history, [], ctx.faults⟩) := by
  have hc := createAsset_cases { ctx with writes := [] } id assetType owner price
  simp only at hc
  cases hf : ctx.faults.getState id with
  | some err =>
    rw [hf] at hc
    rw [invoke_error ctx txId ts _ _ _ hc] at h
    simp at h
  | none =>
    rw [hf] at hc
    cases hl : lookup ctx.state id with
    | some v =>
      rw [hl] at hc
      rw [invoke_error ctx txId ts _ _ _ hc] at h
      simp at h
    | none =>
      rw [hl] at hc
      cases hp : ctx.faults.putState id (String.mk (encodeAsset ⟨id, assetType, price, owner⟩)) with
      | some err =>
        have hc2 : CreateAsset { ctx with writes := [] } id assetType price owner
            = (.error err, { ctx with writes := [] }) := by
          rw [hc]; simp [Stub.PutState, hp]
        rw [invoke_error ctx txId ts _ _ _ hc2] at h
        simp at h
      | none =>
        refine ⟨rfl, ?_⟩
        apply invoke_single_write
        rw [hc]
        simp [Stub.PutState, hp, upsert]

theorem asset_replaceInvalid_of_valid (a : Asset) (h1 : a.ID.validUTF8 = true)
    (h2 : a.Type_.validUTF8 = true) (h3 : a.Owner.validUTF8 = true) : a.replaceInvalid = a :=
  asset_replaceInvalid_eq a (GoString.replaceInvalid_of_valid _ h1)
    (GoString.replaceInvalid_of_valid _ h2) (GoString.replaceInvalid_of_valid _ h3)

/-- C1, as amended: for every world state in which the key `id` is absent and
the platform accepts the write at `id`, and for every type, price and owner
(empty strings and a zero price included) such that `id`, type and owner are
valid UTF-8, the `CreateAsset` transaction succeeds and a following
`ReadAsset(id)` succeeds and returns exactly the asset with the given ID,
type, price and owner. -/
theorem createAsset_then_readAsset (ctx : Stub) (id assetType owner : GoString) (price : Int)
    (txId : GoString) (ts : Option Timestamp) (hprice : isInt price)
    (hid : id.validUTF8 = true) (htype : assetType.validUTF8 = true)
    (howner : owner.validUTF8 = true)
    (habsent : ctx.GetState id = .ok none)
    (hput : ∀ value, ctx.faults.putState id value = none) :
    (ctx.invoke txId ts (fun c => CreateAsset c id assetType price owner)).1 = .ok () ∧
    ReadAsset (ctx.invoke txId ts (fun c => CreateAsset c id assetType price owner)).2 id
      = .ok ⟨id, assetType, price, owner⟩ := by
  have hf := (getState_fault_none ctx id none habsent).1
  rw [createAsset_commit ctx id assetType owner price txId ts habsent hput]
  have hr := readAsset_after_write ctx id ⟨id, assetType, price, owner⟩
    ((id, ⟨txId, String.mk (encodeAsset ⟨id, assetType, price, owner⟩), ts, false⟩)
      :: ctx.history) hf hprice
  rw [asset_replaceInvalid_of_valid ⟨id, assetType, price, owner⟩ hid htype howner] at hr
  exact ⟨rfl, hr⟩

/-- Witness of C1 as amended: an asset with an empty type, zero price and empty
owner created on the empty ledger. -/
theorem createAsset_then_readAsset_witness :
    ((emptyLedger noFaults).invoke "tx1" (some ⟨0, 0⟩)
        (fun c => CreateAsset c "asset7" "" 0 "")).1 = .ok () ∧
    ReadAsset ((emptyLedger noFaults).invoke "tx1" (some ⟨0, 0⟩)
        (fun c => CreateAsset c "asset7" "" 0 "")).2 "asset7" = .ok ⟨"asset7", "", 0, ""⟩ :=
  createAsset_then_readAsset (emptyLedger noFaults) "asset7" "" "" 0 "tx1" (some ⟨0, 0⟩)
    (by decide) rfl rfl rfl rfl (fun _ => rfl)

/-- Counterexample to C1 as stated, in two parts. The empty key is absent from
the empty ledger, yet `CreateAsset` at it fails when the platform refuses the
write. And on a platform that refuses nothing, `CreateAsset` with the id
`"\xff"`, the type `"t\xfe"` and the owner `"o\xfe"`, none of them valid UTF-8,
succeeds, but the following `ReadAsset` returns an asset in which U+FFFD
stands for each of these bytes: its ID, type and owner are not those given. -/
theorem createAsset_absent_can_fail :
    ((emptyLedger rejectEmptyKey).GetState "" = .ok none ∧
      ((emptyLedger rejectEmptyKey).invoke "tx1" (some ⟨0, 0⟩)
          (fun c => CreateAsset c "" "Car" 10000 "Tomoko")).1
        = .error "key must not be an empty string") ∧
    ((emptyLedger noFaults).GetState ⟨[255]⟩ = .ok none ∧
      ((emptyLedger noFaults).invoke "tx1" (some ⟨0, 0⟩)
          (fun c => CreateAsset c ⟨[255]⟩ ⟨[116, 254]⟩ 1 ⟨[111, 254]⟩)).1 = .ok () ∧
      ReadAsset ((emptyLedger noFaults).invoke "tx1" (some ⟨0, 0⟩)
          (fun c => CreateAsset c ⟨[255]⟩ ⟨[116, 254]⟩ 1 ⟨[111, 254]⟩)).2 ⟨[255]⟩
        = .ok ⟨"\uFFFD", "t\uFFFD", 1, "o\uFFFD"⟩ ∧
      ("\uFFFD" : GoString) ≠ ⟨[255]⟩ ∧ ("t\uFFFD" : GoString) ≠ ⟨[116, 254]⟩ ∧
      ("o\uFFFD" : GoString) ≠ ⟨[111, 254]⟩) :=
  ⟨⟨rfl, rfl⟩, rfl, rfl, rfl, by decide, by decide, by decide⟩

/-- C2: for every world state in which a value is present at key `id`, and for
every type, price and owner, `CreateAsset` fails with the "already exists"
error and hands back the context untouched (no write, world state and the
value at `id` unchanged, also after the transaction); and after a successful
`CreateAsset` transaction every further `CreateAsset` with the same id fails:
with that error, and with some error whatever else the platform does. -/
theorem createAsset_existing_fails (ctx : Stub) (id assetType owner : GoString) (price : Int)
    (txId : GoString) (ts : Option Timestamp) :
    (∀ value, ctx.GetState id = .ok (some value) →
      CreateAsset ctx id assetType price owner
          = (.error ("the asset " ++ id ++ " already exists"), ctx) ∧
      (ctx.invoke txId ts (fun c => CreateAsset c id assetType price owner)).1
          = .error ("the asset " ++ id ++ " already exists") ∧
      (ctx.invoke txId ts (fun c => CreateAsset c id assetType price owner)).2.state = ctx.state ∧
      (ctx.invoke txId ts (fun c => CreateAsset c id assetType price owner)).2.GetState id
          = .ok (some value)) ∧
    ((ctx.invoke txId ts (fun c => CreateAsset c id assetType price owner)).1 = .ok () →
      ∀ (type2 owner2 : GoString) (price2 : Int),
        CreateAsset (ctx.invoke txId ts (fun c => CreateAsset c id assetType price owner)).2
            id type2 price2 owner2
          = (.error ("the asset " ++ id ++ " already exists"),
              (ctx.invoke txId ts (fun c => CreateAsset c id assetType price owner)).2) ∧
        ∀ f2 : Faults, ∃ err,
          (CreateAsset ((ctx.invoke txId ts
              (fun c => CreateAsset c id assetType price owner)).2.withFaults f2)
            id type2 price2 owner2).1 = .error err) := by
  constructor
  · intro value hv
    obtain ⟨hf, hl⟩ := getState_fault_none ctx id _ hv
    have h1 : ∀ c : Stub, c.faults = ctx.faults → c.state = ctx.state →
        CreateAsset c id assetType price owner
          = (.error ("the asset " ++ id ++ " already exists"), c) := by
      intro c hcf hcs
      rw [createAsset_cases, hcf, hcs, hf, hl]
    refine ⟨h1 ctx rfl rfl, ?_⟩
    rw [invoke_error ctx txId ts _ _ _ (h1 { ctx with writes := [] } rfl rfl)]
    refine ⟨rfl, rfl, ?_⟩
    simp [Stub.GetState, hf, hl]
  · intro hok type2 owner2 price2
    obtain ⟨hf, hinv⟩ := createAsset_invoke_ok ctx id assetType owner price txId ts hok
    rw [hinv]
    constructor
    · rw [createAsset_cases]
      simp [hf, lookup_upsert_self]
    · intro f2
      rw [createAsset_cases]
      cases hg : f2.getState id with
      | some err =>
        exact ⟨"failed to read from world state: " ++ err, by simp [Stub.withFaults, hg]⟩
      | none =>
        exact ⟨"the asset " ++ id ++ " already exists",
          by simp [Stub.withFaults, hg, lookup_upsert_self]⟩

/-- Witness of C2: a second asset at `asset1`, and a repeated creation of `asset7`. -/
theorem createAsset_existing_fails_witness :
    (CreateAsset (oneAssetLedger noFaults) "asset1" "Boat" 1 "Brad"
        = (.error ("the asset " ++ "asset1" ++ " already exists"), oneAssetLedger noFaults)) ∧
    (CreateAsset ((emptyLedger noFaults).invoke "tx1" none
          (fun c => CreateAsset c "asset7" "Car" 5 "Tomoko")).2 "asset7" "Boat" 1 "Brad"
        = (.error ("the asset " ++ "asset7" ++ " already exists"),
            ((emptyLedger noFaults).invoke "tx1" none
              (fun c => CreateAsset c "asset7" "Car" 5 "Tomoko")).2)) :=
  ⟨((createAsset_existing_fails (oneAssetLedger noFaults) "asset1" "Boat" "Brad" 1 "tx1" none).1
      _ rfl).1,
   ((createAsset_existing_fails (emptyLedger noFaults) "asset7" "Car" "Tomoko" 5 "tx1" none).2
      rfl "Boat" "Brad" 1).1⟩

/-- What a successful `UpdateAssetPrice` transaction means: an asset with another
price was read, the write was accepted, and the ledger holds the updated asset. -/
theorem updateAssetPrice_invoke_ok (ctx : Stub) (id : GoString) (newPrice : Int)
    (txId : GoString) (ts : Option Timestamp)
    (h : (ctx.invoke txId ts (fun c => UpdateAssetPrice c id newPrice)).1 = .ok ()) :
    ∃ a, ReadAsset ctx id = .ok a ∧ a.Price ≠ newPrice ∧
    ctx.invoke txId ts (fun c => UpdateAssetPrice c id newPrice) = (.ok (),
      ⟨upsert ctx.state id (String.mk (encodeAsset { a with Price := newPrice })),
       (id, ⟨txId, String.mk (encodeAsset { a with Price := newPrice }), ts, false⟩)
         :: ctx.history, [], ctx.faults⟩) := by
  cases hr : ReadAsset ctx id with
  | error err =>
    have hc : UpdateAssetPrice { ctx with writes := [] } id newPrice
        = (.error err, { ctx with writes := [] }) := by
      simp [UpdateAssetPrice, readAsset_writes, hr]
    rw [invoke_error ctx txId ts _ _ _ hc] at h
    simp at h
  | ok a =>
    by_cases hp : a.Price = newPrice
    · have hc : UpdateAssetPrice { ctx with writes := [] } id newPrice
          = (.error ("price is already " ++ String.mk (formatInt newPrice)
              ++ ", no update performed"), { ctx with writes := [] }) := by
        simp [UpdateAssetPrice, readAsset_writes, hr, hp]
      rw [invoke_error ctx txId ts _ _ _ hc] at h
      simp at h
    · have hrun := updateAssetPrice_run { ctx with writes := [] } id newPrice a
        (by rw [readAsset_writes]; exact hr) hp
      cases hf : ctx.faults.putState id (String.mk (encodeAsset { a with Price := newPrice })) with
      | some err =>
        have hc : UpdateAssetPrice { ctx with writes := [] } id newPrice
            = (.error err, { ctx with writes := [] }) := by
          rw [hrun]; simp [Stub.PutState, hf]
        rw [invoke_error ctx txId ts _ _ _ hc] at h
        simp at h
      | none =>
        refine ⟨a, rfl, hp, ?_⟩
        apply invoke_single_write
        rw [hrun]
        simp [Stub.PutState, hf, upsert]

/-- What a successful `TransferAsset` transaction means: an asset with another
owner was read, the write was accepted, and the ledger holds the updated asset. -/
theorem transferAsset_invoke_ok (ctx : Stub) (id newOwner : GoString)
    (txId : GoString) (ts : Option Timestamp)
    (h : (ctx.invoke txId ts (fun c => TransferAsset c id newOwner)).1 = .ok ()) :
    ∃ a, ReadAsset ctx id = .ok a ∧ a.Owner ≠ newOwner ∧
    ctx.invoke txId ts (fun c => TransferAsset c id newOwner) = (.ok (),
      ⟨upsert ctx.state id (String.mk (encodeAsset { a with Owner := newOwner })),
       (id, ⟨txId, String.mk (encodeAsset { a with Owner := newOwner }), ts, false⟩)
         :: ctx.history, [], ctx.faults⟩) := by
  cases hr : ReadAsset ctx id with
  | error err =>
    have hc : TransferAsset { ctx with writes := [] } id newOwner
        = (.error err, { ctx with writes := [] }) := by
      simp [TransferAsset, readAsset_writes, hr]
    rw [invoke_error ctx txId ts _ _ _ hc] at h
    simp at h
  | ok a =>
    by_cases hp : a.Owner = newOwner
    · have hc : TransferAsset { ctx with writes := [] } id newOwner
          = (.error ("asset is already owned by " ++ newOwner ++ ", no transfer performed"),
              { ctx with writes := [] }) := by
        simp [TransferAsset, readAsset_writes, hr, hp]
      rw [invoke_error ctx txId ts _ _ _ hc] at h
      simp at h
    · have hrun := transferAsset_run { ctx with writes := [] } id newOwner a
        (by rw [readAsset_writes]; exact hr) hp
      cases hf : ctx.faults.putState id (String.mk (encodeAsset { a with Owner := newOwner })) with
      | some err =>
        have hc : TransferAsset { ctx with writes := [] } id newOwner
            = (.error err, { ctx with writes := [] }) := by
          rw [hrun]; simp [Stub.PutState, hf]
        rw [invoke_error ctx txId ts _ _ _ hc] at h
        simp at h
      | none =>
        refine ⟨a, rfl, hp, ?_⟩
        apply invoke_single_write
        rw [hrun]
        simp [Stub.PutState, hf, upsert]

/-- C3, as amended: for every existing asset at `id` whose current price differs
from `newPrice`, if the platform accepts the write at `id`, the
`UpdateAssetPrice` transaction succeeds, and a following `ReadAsset(id)`
returns the asset read before the call with its price replaced by `newPrice`:
ID, type and owner are those read before. -/
theorem updateAssetPrice_then_readAsset (ctx : Stub) (id : GoString) (newPrice : Int) (a : Asset)
    (txId : GoString) (ts : Option Timestamp) (hnew : isInt newPrice)
    (hread : ReadAsset ctx id = .ok a) (hne : a.Price ≠ newPrice)
    (hput : ∀ value, ctx.faults.putState id value = none) :
    (ctx.invoke txId ts (fun c => UpdateAssetPrice c id newPrice)).1 = .ok () ∧
    ReadAsset (ctx.invoke txId ts (fun c => UpdateAssetPrice c id newPrice)).2 id
      = .ok ⟨a.ID, a.Type_, newPrice, a.Owner⟩ := by
  have hf := readAsset_fault_none ctx id a hread
  rw [updateAssetPrice_commit ctx id newPrice a txId ts hread hne hput]
  exact ⟨rfl, readAsset_after_price ctx id a newPrice _ hf hnew (readAsset_fixed ctx id a hread)⟩

/-- Witness of C3 as amended: the price of `asset1` changed from 10000 to 0. -/
theorem updateAssetPrice_then_readAsset_witness :
    ((oneAssetLedger noFaults).invoke "tx2" none
        (fun c => UpdateAssetPrice c "asset1" 0)).1 = .ok () ∧
    ReadAsset ((oneAssetLedger noFaults).invoke "tx2" none
        (fun c => UpdateAssetPrice c "asset1" 0)).2 "asset1"
      = .ok ⟨"asset1", "Car", 0, "Tomoko"⟩ :=
  updateAssetPrice_then_readAsset (oneAssetLedger noFaults) "asset1" 0
    ⟨"asset1", "Car", 10000, "Tomoko"⟩ "tx2" none (by decide) rfl (by decide) (fun _ => rfl)

/-- Counterexample to C3 as stated: `asset1` exists with price 10000, yet
`UpdateAssetPrice` to another price fails when the platform refuses the write. -/
theorem updateAssetPrice_existing_can_fail :
    ReadAsset (oneAssetLedger writesFail) "asset1" = .ok ⟨"asset1", "Car", 10000, "Tomoko"⟩ ∧
    ((oneAssetLedger writesFail).invoke "tx2" none
        (fun c => UpdateAssetPrice c "asset1" 20000)).1 = .error "PUT_STATE failed" :=
  ⟨rfl, rfl⟩

/-- C4: for every existing asset at `id`, `UpdateAssetPrice` with the asset's
current price fails with the "no update performed" error and hands back the
context untouched (no write, world state unchanged, also after the
transaction); and after a successful `UpdateAssetPrice(id, p)` transaction an
immediately following `UpdateAssetPrice(id, p)` fails: with that error, and
with some error whatever else the platform does. -/
theorem updateAssetPrice_same_price_fails (ctx : Stub) (id : GoString) (p : Int)
    (txId : GoString) (ts : Option Timestamp) (hp : isInt p) :
    (∀ a, ReadAsset ctx id = .ok a → a.Price = p →
      UpdateAssetPrice ctx id p
          = (.error ("price is already " ++ String.mk (formatInt p) ++ ", no update performed"),
              ctx) ∧
      (ctx.invoke txId ts (fun c => UpdateAssetPrice c id p)).1
          = .error ("price is already " ++ String.mk (formatInt p) ++ ", no update performed") ∧
      (ctx.invoke txId ts (fun c => UpdateAssetPrice c id p)).2.state = ctx.state) ∧
    ((ctx.invoke txId ts (fun c => UpdateAssetPrice c id p)).1 = .ok () →
      UpdateAssetPrice (ctx.invoke txId ts (fun c => UpdateAssetPrice c id p)).2 id p
        = (.error ("price is already " ++ String.mk (formatInt p) ++ ", no update performed"),
            (ctx.invoke txId ts (fun c => UpdateAssetPrice c id p)).2) ∧
      ∀ f2 : Faults, ∃ err,
        (UpdateAssetPrice ((ctx.invoke txId ts
            (fun c => UpdateAssetPrice c id p)).2.withFaults f2) id p).1 = .error err) := by
  constructor
  · intro a hr hprice
    have h1 : ∀ c : Stub, ReadAsset c id = .ok a →
        UpdateAssetPrice c id p
          = (.error ("price is already " ++ String.mk (formatInt p) ++ ", no update performed"),
              c) := by
      intro c hc
      simp [UpdateAssetPrice, hc, hprice]
    refine ⟨h1 ctx hr, ?_⟩
    rw [invoke_error ctx txId ts _ _ _ (h1 { ctx with writes := [] } hr)]
    exact ⟨rfl, rfl⟩
  · intro hok
    obtain ⟨a, hr, hne, hinv⟩ := updateAssetPrice_invoke_ok ctx id p txId ts hok
    have hf := readAsset_fault_none ctx id a hr
    rw [hinv]
    constructor
    · have hread := readAsset_after_price ctx id a p
        ((id, ⟨txId, String.mk (encodeAsset { a with Price := p }), ts, false⟩) :: ctx.history)
        hf hp (readAsset_fixed ctx id a hr)
      simp [UpdateAssetPrice, hread]
    · intro f2
      cases hg : f2.getState id with
      | some err =>
        exact ⟨"failed to read from world state: " ++ err,
          by simp [UpdateAssetPrice, ReadAsset, Stub.GetState, Stub.withFaults, hg]⟩
      | none =>
        have hread := readAsset_after_price
          ⟨ctx.state, ctx.history, ctx.writes, f2⟩ id a p
          ((id, ⟨txId, String.mk (encodeAsset { a with Price := p }), ts, false⟩) :: ctx.history)
          hg hp (readAsset_fixed ctx id a hr)
        simp only at hread
        exact ⟨"price is already " ++ String.mk (formatInt p) ++ ", no update performed",
          by simp [UpdateAssetPrice, Stub.withFaults, hread]⟩

/-- Witness of C4: `asset1` updated to its own price 10000, and updated to 5 twice. -/
theorem updateAssetPrice_same_price_fails_witness :
    (UpdateAssetPrice (oneAssetLedger noFaults) "asset1" 10000
        = (.error ("price is already " ++ String.mk (formatInt 10000) ++ ", no update performed"),
            oneAssetLedger noFaults)) ∧
    (UpdateAssetPrice ((oneAssetLedger noFaults).invoke "tx2" none
          (fun c => UpdateAssetPrice c "asset1" 5)).2 "asset1" 5
        = (.error ("price is already " ++ String.mk (formatInt 5) ++ ", no update performed"),
            ((oneAssetLedger noFaults).invoke "tx2" none
              (fun c => UpdateAssetPrice c "asset1" 5)).2)) :=
  ⟨((updateAssetPrice_same_price_fails (oneAssetLedger noFaults) "asset1" 10000 "tx2" none
      (by decide)).1 ⟨"asset1", "Car", 10000, "Tomoko"⟩ rfl rfl).1,
   ((updateAssetPrice_same_price_fails (oneAssetLedger noFaults) "asset1" 5 "tx2" none
      (by decide)).2 rfl).1⟩

theorem parseInt_isInt (lit : List Char) (n : Int) (h : parseInt lit = some n) : isInt n := by
  unfold parseInt at h
  simp only at h
  split_ifs at h with h1 h2 h3 h4
  · simp only [Option.some.injEq] at h
    rwa [← h]
  · simp only [Option.some.injEq] at h
    rwa [← h]

theorem setField_isInt (a b : Asset) (key : List Char) (v : JSON)
    (h : setField a key v = some b) (ha : isInt a.Price) : isInt b.Price := by
  unfold setField at h
  split_ifs at h
  · cases hs : stringField a.ID v with
    | none => simp [hs] at h
    | some s => simp [hs] at h; rw [← h]; exact ha
  · cases hs : stringField a.Type_ v with
    | none => simp [hs] at h
    | some s => simp [hs] at h; rw [← h]; exact ha
  · cases hs : intField a.Price v with
    | none => simp [hs] at h
    | some n =>
      simp [hs] at h
      rw [← h]
      cases v with
      | num lit => exact parseInt_isInt lit n hs
      | null => simp [intField] at hs; rw [← hs]; exact ha
      | bool _ => simp [intField] at hs
      | str _ => simp [intField] at hs
      | arr _ => simp [intField] at hs
      | obj _ => simp [intField] at hs
  · cases hs : stringField a.Owner v with
    | none => simp [hs] at h
    | some s => simp [hs] at h; rw [← h]; exact ha
  · simp only [Option.some.injEq] at h
    rw [← h]; exact ha

theorem setFields_isInt (ms : List (List Char × JSON)) (a b : Asset)
    (h : setFields a ms = some b) (ha : isInt a.Price) : isInt b.Price := by
  induction ms generalizing a with
  | nil =>
    simp only [setFields, Option.some.injEq] at h
    rw [← h]; exact ha
  | cons m ms ih =>
    obtain ⟨k, v⟩ := m
    simp only [setFields] at h
    cases hs : setField a k v with
    | none => simp [hs] at h
    | some a2 =>
      rw [hs] at h
      exact ih a2 h (setField_isInt a a2 k v hs ha)

/-- A decoded asset has a price in the Go `int` range. -/
theorem json_Unmarshal_isInt (v : Bytes) (a : Asset) (h : json_Unmarshal v = .ok a) :
    isInt a.Price := by
  unfold json_Unmarshal at h
  split at h
  · simp at h
  · split at h
    · simp at h
    · rename_i b hb
      simp only [Except.ok.injEq] at h
      rw [← h]
      exact setFields_isInt _ ⟨"", "", 0, ""⟩ b hb (by decide)
  · simp only [Except.ok.injEq] at h
    rw [← h]; decide
  · simp at h

theorem readAsset_isInt (ctx : Stub) (id : GoString) (a : Asset)
    (h : ReadAsset ctx id = .ok a) : isInt a.Price := by
  obtain ⟨v, _, hv⟩ := readAsset_ok_inv ctx id a h
  exact json_Unmarshal_isInt v a hv

/-- C5, as amended: for every existing asset at `id` whose current owner differs
from `newOwner`, if `newOwner` is valid UTF-8 and the platform accepts the
write at `id`, the `TransferAsset` transaction succeeds, and a following
`ReadAsset(id)` returns the asset read before the call with its owner replaced
by `newOwner`: ID, type and price are those read before. -/
theorem transferAsset_then_readAsset (ctx : Stub) (id newOwner : GoString) (a : Asset)
    (txId : GoString) (ts : Option Timestamp)
    (hread : ReadAsset ctx id = .ok a) (hne : a.Owner ≠ newOwner)
    (hvalid : newOwner.validUTF8 = true)
    (hput : ∀ value, ctx.faults.putState id value = none) :
    (ctx.invoke txId ts (fun c => TransferAsset c id newOwner)).1 = .ok () ∧
    ReadAsset (ctx.invoke txId ts (fun c => TransferAsset c id newOwner)).2 id
      = .ok ⟨a.ID, a.Type_, a.Price, newOwner⟩ := by
  have hf := readAsset_fault_none ctx id a hread
  have hprice := readAsset_isInt ctx id a hread
  rw [transferAsset_commit ctx id newOwner a txId ts hread hne hput]
  have hr := readAsset_after_owner ctx id a newOwner
    ((id, ⟨txId, String.mk (encodeAsset { a with Owner := newOwner }), ts, false⟩)
      :: ctx.history) hf hprice (readAsset_fixed ctx id a hread)
  rw [GoString.replaceInvalid_of_valid newOwner hvalid] at hr
  exact ⟨rfl, hr⟩

/-- Witness of C5 as amended: `asset1` transferred from Tomoko to the empty owner. -/
theorem transferAsset_then_readAsset_witness :
    ((oneAssetLedger noFaults).invoke "tx2" none
        (fun c => TransferAsset c "asset1" "")).1 = .ok () ∧
    ReadAsset ((oneAssetLedger noFaults).invoke "tx2" none
        (fun c => TransferAsset c "asset1" "")).2 "asset1"
      = .ok ⟨"asset1", "Car", 10000, ""⟩ :=
  transferAsset_then_readAsset (oneAssetLedger noFaults) "asset1" ""
    ⟨"asset1", "Car", 10000, "Tomoko"⟩ "tx2" none rfl (by decide) rfl (fun _ => rfl)

/-- Counterexample to C5 as stated, in two parts. `asset1` exists with owner
Tomoko, yet `TransferAsset` to another owner fails when the platform refuses
the write. And on a platform that refuses nothing, `TransferAsset` of `asset1`
to the owner `"o\xfe"`, which is not valid UTF-8, succeeds, but the following
`ReadAsset` returns the owner with U+FFFD for that byte: not the new owner. -/
theorem transferAsset_existing_can_fail :
    (ReadAsset (oneAssetLedger writesFail) "asset1" = .ok ⟨"asset1", "Car", 10000, "Tomoko"⟩ ∧
      ((oneAssetLedger writesFail).invoke "tx2" none
          (fun c => TransferAsset c "asset1" "Brad")).1 = .error "PUT_STATE failed") ∧
    (ReadAsset (oneAssetLedger noFaults) "asset1" = .ok ⟨"asset1", "Car", 10000, "Tomoko"⟩ ∧
      ((oneAssetLedger noFaults).invoke "tx2" none
          (fun c => TransferAsset c "asset1" ⟨[111, 254]⟩)).1 = .ok () ∧
      ReadAsset ((oneAssetLedger noFaults).invoke "tx2" none
          (fun c => TransferAsset c "asset1" ⟨[111, 254]⟩)).2 "asset1"
        = .ok ⟨"asset1", "Car", 10000, "o\uFFFD"⟩ ∧
      ("o\uFFFD" : GoString) ≠ ⟨[111, 254]⟩) :=
  ⟨⟨rfl, rfl⟩, rfl, rfl, rfl, by decide⟩

/-- C6: for every existing asset at `id`, `TransferAsset` with the asset's
current owner fails with the "no transfer performed" error and hands back the
context untouched (no write), so that the world state is unchanged, also
after the transaction. -/
theorem transferAsset_same_owner_fails (ctx : Stub) (id : GoString) (a : Asset)
    (txId : GoString) (ts : Option Timestamp) (hread : ReadAsset ctx id = .ok a) :
    TransferAsset ctx id a.Owner
        = (.error ("asset is already owned by " ++ a.Owner ++ ", no transfer performed"), ctx) ∧
    (ctx.invoke txId ts (fun c => TransferAsset c id a.Owner)).1
        = .error ("asset is already owned by " ++ a.Owner ++ ", no transfer performed") ∧
    (ctx.invoke txId ts (fun c => TransferAsset c id a.Owner)).2.state = ctx.state := by
  have h1 : ∀ c : Stub, ReadAsset c id = .ok a →
      TransferAsset c id a.Owner
        = (.error ("asset is already owned by " ++ a.Owner ++ ", no transfer performed"), c) := by
    intro c hc
    simp [TransferAsset, hc]
  refine ⟨h1 ctx hread, ?_⟩
  rw [invoke_error ctx txId ts _ _ _ (h1 { ctx with writes := [] } hread)]
  exact ⟨rfl, rfl⟩

/-- Witness of C6: `asset1` transferred to its own owner Tomoko. -/
theorem transferAsset_same_owner_fails_witness :
    TransferAsset (oneAssetLedger noFaults) "asset1" "Tomoko"
        = (.error ("asset is already owned by " ++ "Tomoko" ++ ", no transfer performed"),
            oneAssetLedger noFaults) :=
  (transferAsset_same_owner_fails (oneAssetLedger noFaults) "asset1"
    ⟨"asset1", "Car", 10000, "Tomoko"⟩ "tx2" none rfl).1

/-- C7: for every world state and every id absent from it, `ReadAsset`,
`UpdateAssetPrice` and `TransferAsset` each fail with the "does not exist"
error for every price and owner, the two writing operations hand back the
context untouched (no write), and after their transactions the world state is
unchanged and the id still absent. -/
theorem absent_id_not_found (ctx : Stub) (id o : GoString) (p : Int)
    (txId : GoString) (ts : Option Timestamp) (habsent : ctx.GetState id = .ok none) :
    ReadAsset ctx id = .error ("the asset " ++ id ++ " does not exist") ∧
    UpdateAssetPrice ctx id p = (.error ("the asset " ++ id ++ " does not exist"), ctx) ∧
    TransferAsset ctx id o = (.error ("the asset " ++ id ++ " does not exist"), ctx) ∧
    (ctx.invoke txId ts (fun c => UpdateAssetPrice c id p)).2.state = ctx.state ∧
    (ctx.invoke txId ts (fun c => TransferAsset c id o)).2.state = ctx.state ∧
    (ctx.invoke txId ts (fun c => UpdateAssetPrice c id p)).2.GetState id = .ok none ∧
    (ctx.invoke txId ts (fun c => TransferAsset c id o)).2.GetState id = .ok none := by
  have hr := readAsset_absent ctx id habsent
  have hu : ∀ c : Stub, ReadAsset c id = .error ("the asset " ++ id ++ " does not exist") →
      UpdateAssetPrice c id p = (.error ("the asset " ++ id ++ " does not exist"), c) := by
    intro c hc
    simp [UpdateAssetPrice, hc]
  have ht : ∀ c : Stub, ReadAsset c id = .error ("the asset " ++ id ++ " does not exist") →
      TransferAsset c id o = (.error ("the asset " ++ id ++ " does not exist"), c) := by
    intro c hc
    simp [TransferAsset, hc]
  refine ⟨hr, hu ctx hr, ht ctx hr, ?_⟩
  rw [invoke_error ctx txId ts _ _ _ (hu { ctx with writes := [] } hr),
    invoke_error ctx txId ts _ _ _ (ht { ctx with writes := [] } hr)]
  exact ⟨rfl, rfl, habsent, habsent⟩

/-- Witness of C7: the id `asset9` on a ledger that holds only `asset1`. -/
theorem absent_id_not_found_witness :
    ReadAsset (oneAssetLedger noFaults) "asset9"
      = .error ("the asset " ++ "asset9" ++ " does not exist") :=
  (absent_id_not_found (oneAssetLedger noFaults) "asset9" "Brad" 5 "tx2" none rfl).1

/-- C8: for every world state whose point lookup at `id` does not fail,
`AssetExists(id)` returns without error, and returns true exactly when the
lookup found a value (the slice read is not nil; where the store holds no
empty value at `id` that is: when the value read is non-empty); on an absent
id it returns false and no error, whereas `ReadAsset` on the same id returns
an error. -/
theorem assetExists_iff_present (ctx : Stub) (id : GoString) (r : Option Bytes)
    (hlookup : ctx.GetState id = .ok r) :
    (∃ b, AssetExists ctx id = .ok b ∧ (b = true ↔ r ≠ none) ∧
      (r ≠ some "" → (b = true ↔ 0 < (r.getD "").length))) ∧
    (r = none → AssetExists ctx id = .ok false ∧
      ReadAsset ctx id = .error ("the asset " ++ id ++ " does not exist")) := by
  constructor
  · refine ⟨r.isSome, by simp [AssetExists, hlookup], ?_, ?_⟩
    · cases r <;> simp
    · intro hne
      cases r with
      | none => simp
      | some v =>
        have hv : v ≠ "" := fun h => hne (by rw [h])
        have hl : 0 < v.length := by
          rcases v with ⟨l⟩
          cases l with
          | nil => exact absurd rfl hv
          | cons c cs => simp [String.length]
        simpa using hl
  · intro hr
    subst hr
    exact ⟨by simp [AssetExists, hlookup], readAsset_absent ctx id hlookup⟩

/-- Witness of C8: the absent id `asset9` on a ledger that holds only `asset1`. -/
theorem assetExists_iff_present_witness :
    AssetExists (oneAssetLedger noFaults) "asset9" = .ok false ∧
    ReadAsset (oneAssetLedger noFaults) "asset9"
      = .error ("the asset " ++ "asset9" ++ " does not exist") :=
  (assetExists_iff_present (oneAssetLedger noFaults) "asset9" none rfl).2 rfl

theorem upsert_samples (x y z : Bytes) :
    upsert (upsert (upsert ([] : List (GoString × Bytes)) "asset1" x) "asset2" y) "asset3" z
      = [(("asset1" : GoString), x), (("asset2" : GoString), y), (("asset3" : GoString), z)] :=
  rfl

theorem initLedger_run (ctx : Stub)
    (hput : ∀ key value, ctx.faults.putState key value = none) :
    InitLedger ctx = (.ok (), ⟨ctx.state, ctx.history,
      upsert (upsert (upsert ctx.writes
        "asset1" (String.mk (encodeAsset ⟨"asset1", "Car", 10000, "Tomoko"⟩)))
        "asset2" (String.mk (encodeAsset ⟨"asset2", "House", 250000, "Brad"⟩)))
        "asset3" (String.mk (encodeAsset ⟨"asset3", "Boat", 50000, "Jin Soo"⟩)), ctx.faults⟩) := by
  simp [InitLedger, InitLedger_loop, sampleAssets, json_Marshal, Stub.PutState, hput]

/-- C9, as amended: starting from an empty world state, if the platform
accepts the writes and the range scan does not fail, the `InitLedger`
transaction succeeds and a following `GetAllAssets` succeeds and returns
exactly the three assets asset1/Car/10000/Tomoko, asset2/House/250000/Brad
and asset3/Boat/50000/Jin Soo. -/
theorem initLedger_then_getAllAssets (ctx : Stub) (txId : GoString) (ts : Option Timestamp)
    (hempty : ctx.state = [])
    (hput : ∀ key value, ctx.faults.putState key value = none)
    (hrange : ctx.faults.getStateByRange "" "" = none)
    (hnext : ∀ i, ctx.faults.rangeNext i = none) :
    (ctx.invoke txId ts InitLedger).1 = .ok () ∧
    GetAllAssets (ctx.invoke txId ts InitLedger).2
      = .ok [⟨"asset1", "Car", 10000, "Tomoko"⟩, ⟨"asset2", "House", 250000, "Brad"⟩,
          ⟨"asset3", "Boat", 50000, "Jin Soo"⟩] := by
  obtain ⟨st, hist, ws, f⟩ := ctx
  simp only at hempty hput hrange hnext
  subst hempty
  have hrun := initLedger_run ⟨[], hist, [], f⟩ hput
  rw [upsert_samples] at hrun
  have hinv : (Stub.invoke ⟨[], hist, ws, f⟩ txId ts InitLedger).1 = .ok () ∧
      (Stub.invoke ⟨[], hist, ws, f⟩ txId ts InitLedger).2.state
        = ([("asset1", String.mk (encodeAsset ⟨"asset1", "Car", 10000, "Tomoko"⟩)),
           ("asset2", String.mk (encodeAsset ⟨"asset2", "House", 250000, "Brad"⟩)),
           ("asset3", String.mk (encodeAsset ⟨"asset3", "Boat", 50000, "Jin Soo"⟩))] :
            List (GoString × Bytes)) ∧
      (Stub.invoke ⟨[], hist, ws, f⟩ txId ts InitLedger).2.faults = f := by
    simp [Stub.invoke, hrun, Stub.commit, List.foldl, upsert_samples]
  obtain ⟨h1, h2, h3⟩ := hinv
  refine ⟨h1, ?_⟩
  have r1 := json_roundtrip ⟨"asset1", "Car", 10000, "Tomoko"⟩ (by decide) (by decide)
  have r2 := json_roundtrip ⟨"asset2", "House", 250000, "Brad"⟩ (by decide) (by decide)
  have r3 := json_roundtrip ⟨"asset3", "Boat", 50000, "Jin Soo"⟩ (by decide) (by decide)
  have k1 : inRange "" "" "asset1" = true := rfl
  have k2 : inRange "" "" "asset2" = true := rfl
  have k3 : inRange "" "" "asset3" = true := rfl
  simp only [GetAllAssets, Stub.GetStateByRange, h2, h3, hrange, List.filter, k1, k2, k3,
    List.map, iterate, hnext, GetAllAssets_loop, r1, r2, r3, List.nil_append, List.cons_append]

/-- Witness of C9 as amended: the empty ledger on a platform without failures. -/
theorem initLedger_then_getAllAssets_witness :
    ((emptyLedger noFaults).invoke "tx1" none InitLedger).1 = .ok () ∧
    GetAllAssets ((emptyLedger noFaults).invoke "tx1" none InitLedger).2
      = .ok [⟨"asset1", "Car", 10000, "Tomoko"⟩, ⟨"asset2", "House", 250000, "Brad"⟩,
          ⟨"asset3", "Boat", 50000, "Jin Soo"⟩] :=
  initLedger_then_getAllAssets (emptyLedger noFaults) "tx1" none rfl (fun _ _ => rfl) rfl
    (fun _ => rfl)

/-- Counterexample to C9 as stated: on the empty world state `InitLedger` fails
when the platform refuses the write. -/
theorem initLedger_empty_can_fail :
    (emptyLedger writesFail).state = [] ∧
    ((emptyLedger writesFail).invoke "tx1" none InitLedger).1
      = .error "failed to put to world state. PUT_STATE failed" :=
  ⟨rfl, rfl⟩

theorem historicalRecord_encoded (a : Asset) (txId : GoString) (ts : Option Timestamp)
    (h : isInt a.Price) :
    historicalRecord ⟨txId, String.mk (encodeAsset a), ts, false⟩
      = .ok (some ⟨a.Price, a.Owner.replaceInvalid⟩) := by
  have hl := encodeAsset_length a
  have hne : encodeAsset a ≠ [] := by
    intro h0
    rw [h0] at hl
    simp at hl
  simp [historicalRecord, hne, json_roundtrip_bytes a h, Asset.replaceInvalid]

/-- The ledger after a creation, a price update and a transfer of the same
asset, run as three successive transactions on a platform that accepts the
writes at the key, for arbitrary Go strings: the three transactions succeed
and the history of the key gains three entries, the update and the transfer
writing the strings they read back. -/
theorem three_writes_ledger (ctx : Stub) (id t o1 o2 : GoString) (p1 p2 : Int)
    (tx1 tx2 tx3 : GoString) (ts1 ts2 ts3 : Option Timestamp)
    (hp1 : isInt p1) (hp2 : isInt p2) (hp : p2 ≠ p1) (ho : o2 ≠ o1.replaceInvalid)
    (habsent : ctx.GetState id = .ok none)
    (hput : ∀ value, ctx.faults.putState id value = none) :
    (ctx.invoke tx1 ts1 (fun c => CreateAsset c id t p1 o1)).1 = .ok () ∧
    ((ctx.invoke tx1 ts1 (fun c => CreateAsset c id t p1 o1)).2.invoke tx2 ts2
        (fun c => UpdateAssetPrice c id p2)).1 = .ok () ∧
    ((ctx.invoke tx1 ts1 (fun c => CreateAsset c id t p1 o1)).2.invoke tx2 ts2
        (fun c => UpdateAssetPrice c id p2)).2.invoke tx3 ts3
        (fun c => TransferAsset c id o2)
      = (.ok (),
        ⟨upsert (upsert (upsert ctx.state id (String.mk (encodeAsset ⟨id, t, p1, o1⟩))) id
            (String.mk (encodeAsset
              ⟨id.replaceInvalid, t.replaceInvalid, p2, o1.replaceInvalid⟩))) id
            (String.mk (encodeAsset ⟨id.replaceInvalid, t.replaceInvalid, p2, o2⟩)),
          (id, ⟨tx3, String.mk (encodeAsset ⟨id.replaceInvalid, t.replaceInvalid, p2, o2⟩), ts3,
              false⟩) ::
            (id, ⟨tx2, String.mk (encodeAsset
              ⟨id.replaceInvalid, t.replaceInvalid, p2, o1.replaceInvalid⟩), ts2, false⟩) ::
            (id, ⟨tx1, String.mk (encodeAsset ⟨id, t, p1, o1⟩), ts1, false⟩) :: ctx.history,
          [], ctx.faults⟩) := by
  have hf := (getState_fault_none ctx id none habsent).1
  -- the first transaction
  have hinv1 := createAsset_commit ctx id t o1 p1 tx1 ts1 habsent hput
  obtain ⟨st, hist, ws, f⟩ := ctx
  simp only at hput hf hinv1
  have hr1 := readAsset_after_write ⟨st, hist, ws, f⟩ id ⟨id, t, p1, o1⟩
    ((id, ⟨tx1, String.mk (encodeAsset ⟨id, t, p1, o1⟩), ts1, false⟩) :: hist) hf hp1
  simp only [Asset.replaceInvalid] at hr1
  -- the second transaction
  have hinv2 := updateAssetPrice_commit _ id p2 _ tx2 ts2 hr1 (Ne.symm hp) hput
  simp only at hinv2
  have hr2 := readAsset_after_price
    ⟨upsert st id (String.mk (encodeAsset ⟨id, t, p1, o1⟩)), hist, ws, f⟩ id
    ⟨id.replaceInvalid, t.replaceInvalid, p1, o1.replaceInvalid⟩ p2
    ((id, ⟨tx2, String.mk (encodeAsset
        ⟨id.replaceInvalid, t.replaceInvalid, p2, o1.replaceInvalid⟩), ts2, false⟩) ::
      (id, ⟨tx1, String.mk (encodeAsset ⟨id, t, p1, o1⟩), ts1, false⟩) :: hist) hf hp2
    (readAsset_fixed _ _ _ hr1)
  simp only at hr2
  -- the third transaction
  have hinv3 := transferAsset_commit _ id o2 _ tx3 ts3 hr2 (Ne.symm ho) hput
  simp only at hinv3
  rw [hinv1]
  refine ⟨rfl, ?_⟩
  rw [hinv2]
  refine ⟨rfl, ?_⟩
  rw [hinv3]

/-- The history of a key after a creation, a price update and a transfer on a
platform that accepts the writes at the key, for arbitrary Go strings: every
owner is recorded with U+FFFD for each of its bytes that is not valid UTF-8. -/
theorem history_three_writes (ctx : Stub) (id t o1 o2 : GoString) (p1 p2 : Int)
    (tx1 tx2 tx3 : GoString) (ts1 ts2 ts3 : Option Timestamp) (t1 t2 t3 : Timestamp)
    (hp1 : isInt p1) (hp2 : isInt p2) (hp : p2 ≠ p1) (ho : o2 ≠ o1.replaceInvalid)
    (habsent : ctx.GetState id = .ok none)
    (hnohist : ctx.history.filter (fun e => e.1 = id) = [])
    (hput : ∀ value, ctx.faults.putState id value = none)
    (hopen : ctx.faults.getHistoryForKey id = none)
    (hnext : ∀ i, ctx.faults.historyNext i = none)
    (ht1 : ptypes_Timestamp ts1 = .ok t1) (ht2 : ptypes_Timestamp ts2 = .ok t2)
    (ht3 : ptypes_Timestamp ts3 = .ok t3) :
    (ctx.invoke tx1 ts1 (fun c => CreateAsset c id t p1 o1)).1 = .ok () ∧
    ((ctx.invoke tx1 ts1 (fun c => CreateAsset c id t p1 o1)).2.invoke tx2 ts2
        (fun c => UpdateAssetPrice c id p2)).1 = .ok () ∧
    (((ctx.invoke tx1 ts1 (fun c => CreateAsset c id t p1 o1)).2.invoke tx2 ts2
        (fun c => UpdateAssetPrice c id p2)).2.invoke tx3 ts3
        (fun c => TransferAsset c id o2)).1 = .ok () ∧
    GetAssetHistory (((ctx.invoke tx1 ts1 (fun c => CreateAsset c id t p1 o1)).2.invoke tx2 ts2
        (fun c => UpdateAssetPrice c id p2)).2.invoke tx3 ts3
        (fun c => TransferAsset c id o2)).2 id
      = .ok [⟨some ⟨p2, o2.replaceInvalid⟩, tx3, t3, false⟩,
          ⟨some ⟨p2, o1.replaceInvalid⟩, tx2, t2, false⟩,
          ⟨some ⟨p1, o1.replaceInvalid⟩, tx1, t1, false⟩] := by
  obtain ⟨h1, h2, h3⟩ := three_writes_ledger ctx id t o1 o2 p1 p2 tx1 tx2 tx3 ts1 ts2 ts3
    hp1 hp2 hp ho habsent hput
  refine ⟨h1, h2, ?_⟩
  rw [h3]
  refine ⟨rfl, ?_⟩
  have q3 := historicalRecord_encoded ⟨id.replaceInvalid, t.replaceInvalid, p2, o2⟩ tx3 ts3 hp2
  have q2 := historicalRecord_encoded
    ⟨id.replaceInvalid, t.replaceInvalid, p2, o1.replaceInvalid⟩ tx2 ts2 hp2
  have q1 := historicalRecord_encoded ⟨id, t, p1, o1⟩ tx1 ts1 hp1
  simp only [GoString.replaceInvalid_idem] at q1 q2 q3
  simp only [GetAssetHistory, Stub.GetHistoryForKey, hopen, List.filter, decide_True, hnohist,
    List.map, iterate, hnext, GetAssetHistory_loop, q1, q2, q3, ht1, ht2, ht3, List.nil_append,
    List.cons_append]

/-- After the same three transactions, the history query fails with the error
of the timestamp conversion when the timestamp of the transfer, the newest
entry, does not convert. -/
theorem history_three_writes_bad_time (ctx : Stub) (id t o1 o2 : GoString) (p1 p2 : Int)
    (tx1 tx2 tx3 : GoString) (ts1 ts2 ts3 : Option Timestamp) (err : GoString)
    (hp1 : isInt p1) (hp2 : isInt p2) (hp : p2 ≠ p1) (ho : o2 ≠ o1.replaceInvalid)
    (habsent : ctx.GetState id = .ok none)
    (hput : ∀ value, ctx.faults.putState id value = none)
    (hopen : ctx.faults.getHistoryForKey id = none)
    (hnext : ∀ i, ctx.faults.historyNext i = none)
    (ht3 : ptypes_Timestamp ts3 = .error err) :
    (((ctx.invoke tx1 ts1 (fun c => CreateAsset c id t p1 o1)).2.invoke tx2 ts2
        (fun c => UpdateAssetPrice c id p2)).2.invoke tx3 ts3
        (fun c => TransferAsset c id o2)).1 = .ok () ∧
    GetAssetHistory (((ctx.invoke tx1 ts1 (fun c => CreateAsset c id t p1 o1)).2.invoke tx2 ts2
        (fun c => UpdateAssetPrice c id p2)).2.invoke tx3 ts3
        (fun c => TransferAsset c id o2)).2 id
      = .error err := by
  obtain ⟨_, _, h3⟩ := three_writes_ledger ctx id t o1 o2 p1 p2 tx1 tx2 tx3 ts1 ts2 ts3
    hp1 hp2 hp ho habsent hput
  rw [h3]
  refine ⟨rfl, ?_⟩
  have q3 := historicalRecord_encoded ⟨id.replaceInvalid, t.replaceInvalid, p2, o2⟩ tx3 ts3 hp2
  simp only [GetAssetHistory, Stub.GetHistoryForKey, hopen, List.filter, decide_True,
    List.map, iterate, hnext, GetAssetHistory_loop, q3, ht3]

/-- C10, as amended: for every asset id absent from the ledger (no value and no
history) and for `p2` different from `p1` and `o2` different from `o1`, the
owners `o1` and `o2` being valid UTF-8: if the platform accepts the writes at
`id`, then `CreateAsset(id, t, p1, o1)`, `UpdateAssetPrice(id, p2)` and
`TransferAsset(id, o2)`, run as three successive transactions, all succeed;
and if moreover the history query does not fail (the iterator opens, every
`Next` succeeds) and the three transaction timestamps convert,
`GetAssetHistory(id)` then returns exactly 3 entries, newest first: the records
are (p2, o2), (p2, o1), (p1, o1) in that order, each with the id and the time
of the transaction that wrote it, none with `IsDelete` true. -/
theorem history_after_create_update_transfer (ctx : Stub) (id t o1 o2 : GoString) (p1 p2 : Int)
    (tx1 tx2 tx3 : GoString) (ts1 ts2 ts3 : Option Timestamp) (t1 t2 t3 : Timestamp)
    (hp1 : isInt p1) (hp2 : isInt p2) (hp : p2 ≠ p1) (ho : o2 ≠ o1)
    (hv1 : o1.validUTF8 = true) (hv2 : o2.validUTF8 = true)
    (habsent : ctx.GetState id = .ok none)
    (hnohist : ctx.history.filter (fun e => e.1 = id) = [])
    (hput : ∀ value, ctx.faults.putState id value = none)
    (hopen : ctx.faults.getHistoryForKey id = none)
    (hnext : ∀ i, ctx.faults.historyNext i = none)
    (ht1 : ptypes_Timestamp ts1 = .ok t1) (ht2 : ptypes_Timestamp ts2 = .ok t2)
    (ht3 : ptypes_Timestamp ts3 = .ok t3) :
    (ctx.invoke tx1 ts1 (fun c => CreateAsset c id t p1 o1)).1 = .ok () ∧
    ((ctx.invoke tx1 ts1 (fun c => CreateAsset c id t p1 o1)).2.invoke tx2 ts2
        (fun c => UpdateAssetPrice c id p2)).1 = .ok () ∧
    (((ctx.invoke tx1 ts1 (fun c => CreateAsset c id t p1 o1)).2.invoke tx2 ts2
        (fun c => UpdateAssetPrice c id p2)).2.invoke tx3 ts3
        (fun c => TransferAsset c id o2)).1 = .ok () ∧
    GetAssetHistory (((ctx.invoke tx1 ts1 (fun c => CreateAsset c id t p1 o1)).2.invoke tx2 ts2
        (fun c => UpdateAssetPrice c id p2)).2.invoke tx3 ts3
        (fun c => TransferAsset c id o2)).2 id
      = .ok [⟨some ⟨p2, o2⟩, tx3, t3, false⟩, ⟨some ⟨p2, o1⟩, tx2, t2, false⟩,
          ⟨some ⟨p1, o1⟩, tx1, t1, false⟩] := by
  have e1 := GoString.replaceInvalid_of_valid o1 hv1
  have e2 := GoString.replaceInvalid_of_valid o2 hv2
  have h := history_three_writes ctx id t o1 o2 p1 p2 tx1 tx2 tx3 ts1 ts2 ts3 t1 t2 t3
    hp1 hp2 hp (by rw [e1]; exact ho) habsent hnohist hput hopen hnext ht1 ht2 ht3
  rw [e1, e2] at h
  exact h

/-- Witness of C10 as amended: `asset7` created, repriced and transferred on the
empty ledger. -/
theorem history_after_create_update_transfer_witness :
    ((emptyLedger noFaults).invoke "tx1" (some ⟨100, 0⟩)
        (fun c => CreateAsset c "asset7" "Car" 1 "Tomoko")).1 = .ok () ∧
    (((emptyLedger noFaults).invoke "tx1" (some ⟨100, 0⟩)
        (fun c => CreateAsset c "asset7" "Car" 1 "Tomoko")).2.invoke "tx2" (some ⟨200, 0⟩)
        (fun c => UpdateAssetPrice c "asset7" 2)).1 = .ok () ∧
    ((((emptyLedger noFaults).invoke "tx1" (some ⟨100, 0⟩)
        (fun c => CreateAsset c "asset7" "Car" 1 "Tomoko")).2.invoke "tx2" (some ⟨200, 0⟩)
        (fun c => UpdateAssetPrice c "asset7" 2)).2.invoke "tx3" (some ⟨300, 0⟩)
        (fun c => TransferAsset c "asset7" "Brad")).1 = .ok () ∧
    GetAssetHistory ((((emptyLedger noFaults).invoke "tx1" (some ⟨100, 0⟩)
        (fun c => CreateAsset c "asset7" "Car" 1 "Tomoko")).2.invoke "tx2" (some ⟨200, 0⟩)
        (fun c => UpdateAssetPrice c "asset7" 2)).2.invoke "tx3" (some ⟨300, 0⟩)
        (fun c => TransferAsset c "asset7" "Brad")).2 "asset7"
      = .ok [⟨some ⟨2, "Brad"⟩, "tx3", ⟨300, 0⟩, false⟩, ⟨some ⟨2, "Tomoko"⟩, "tx2", ⟨200, 0⟩, false⟩,
          ⟨some ⟨1, "Tomoko"⟩, "tx1", ⟨100, 0⟩, false⟩] :=
  history_after_create_update_transfer (emptyLedger noFaults) "asset7" "Car" "Tomoko" "Brad" 1 2
    "tx1" "tx2" "tx3" (some ⟨100, 0⟩) (some ⟨200, 0⟩) (some ⟨300, 0⟩) ⟨100, 0⟩ ⟨200, 0⟩ ⟨300, 0⟩
    (by decide) (by decide) (by decide) (by decide) rfl rfl rfl rfl (fun _ => rfl) rfl
    (fun _ => rfl) rfl rfl rfl

/-- Counterexample to C10 as stated, in four parts, each for the id `asset7`
absent from the empty ledger, the prices 1 and 2 and two different owners. On
a platform without a history index the three transactions succeed and
`GetAssetHistory` returns an error, not 3 entries. On a platform that refuses
every write the three transactions run and fail, and `GetAssetHistory`
returns no entry. On a platform that refuses nothing, with the new owner
`"o\xfe"`, which is not valid UTF-8, the three transactions succeed and the
newest entry holds the owner with U+FFFD for that byte: not the new owner. And
when the transfer succeeds without a timestamp, `GetAssetHistory` returns the
error of the timestamp conversion. -/
theorem history_query_can_fail :
    ((emptyLedger noHistoryIndex).GetState "asset7" = .ok none ∧
    ((emptyLedger noHistoryIndex).invoke "tx1" (some ⟨100, 0⟩)
        (fun c => CreateAsset c "asset7" "Car" 1 "Tomoko")).1 = .ok () ∧
    (((emptyLedger noHistoryIndex).invoke "tx1" (some ⟨100, 0⟩)
        (fun c => CreateAsset c "asset7" "Car" 1 "Tomoko")).2.invoke "tx2" (some ⟨200, 0⟩)
        (fun c => UpdateAssetPrice c "asset7" 2)).1 = .ok () ∧
    ((((emptyLedger noHistoryIndex).invoke "tx1" (some ⟨100, 0⟩)
        (fun c => CreateAsset c "asset7" "Car" 1 "Tomoko")).2.invoke "tx2" (some ⟨200, 0⟩)
        (fun c => UpdateAssetPrice c "asset7" 2)).2.invoke "tx3" (some ⟨300, 0⟩)
        (fun c => TransferAsset c "asset7" "Brad")).1 = .ok () ∧
    GetAssetHistory ((((emptyLedger noHistoryIndex).invoke "tx1" (some ⟨100, 0⟩)
        (fun c => CreateAsset c "asset7" "Car" 1 "Tomoko")).2.invoke "tx2" (some ⟨200, 0⟩)
        (fun c => UpdateAssetPrice c "asset7" 2)).2.invoke "tx3" (some ⟨300, 0⟩)
        (fun c => TransferAsset c "asset7" "Brad")).2 "asset7"
      = .error "history database not enabled") ∧
    ((emptyLedger writesFail).GetState "asset7" = .ok none ∧
    GetAssetHistory ((((emptyLedger writesFail).invoke "tx1" (some ⟨100, 0⟩)
        (fun c => CreateAsset c "asset7" "Car" 1 "Tomoko")).2.invoke "tx2" (some ⟨200, 0⟩)
        (fun c => UpdateAssetPrice c "asset7" 2)).2.invoke "tx3" (some ⟨300, 0⟩)
        (fun c => TransferAsset c "asset7" "Brad")).2 "asset7"
      = .ok []) ∧
    ((emptyLedger noFaults).GetState "asset7" = .ok none ∧
    GetAssetHistory ((((emptyLedger noFaults).invoke "tx1" (some ⟨100, 0⟩)
        (fun c => CreateAsset c "asset7" "Car" 1 "Tomoko")).2.invoke "tx2" (some ⟨200, 0⟩)
        (fun c => UpdateAssetPrice c "asset7" 2)).2.invoke "tx3" (some ⟨300, 0⟩)
        (fun c => TransferAsset c "asset7" ⟨[111, 254]⟩)).2 "asset7"
      = .ok [⟨some ⟨2, "o\uFFFD"⟩, "tx3", ⟨300, 0⟩, false⟩,
          ⟨some ⟨2, "Tomoko"⟩, "tx2", ⟨200, 0⟩, false⟩,
          ⟨some ⟨1, "Tomoko"⟩, "tx1", ⟨100, 0⟩, false⟩] ∧
      ("o\uFFFD" : GoString) ≠ ⟨[111, 254]⟩) ∧
    (((((emptyLedger noFaults).invoke "tx1" (some ⟨100, 0⟩)
        (fun c => CreateAsset c "asset7" "Car" 1 "Tomoko")).2.invoke "tx2" (some ⟨200, 0⟩)
        (fun c => UpdateAssetPrice c "asset7" 2)).2.invoke "tx3" none
        (fun c => TransferAsset c "asset7" "Brad")).1 = .ok () ∧
    GetAssetHistory ((((emptyLedger noFaults).invoke "tx1" (some ⟨100, 0⟩)
        (fun c => CreateAsset c "asset7" "Car" 1 "Tomoko")).2.invoke "tx2" (some ⟨200, 0⟩)
        (fun c => UpdateAssetPrice c "asset7" 2)).2.invoke "tx3" none
        (fun c => TransferAsset c "asset7" "Brad")).2 "asset7"
      = .error "timestamp: nil Timestamp") :=
  ⟨⟨rfl, rfl, rfl, rfl, rfl⟩, ⟨rfl, rfl⟩, ⟨rfl,
    (history_three_writes (emptyLedger noFaults) "asset7" "Car" "Tomoko" ⟨[111, 254]⟩ 1 2
      "tx1" "tx2" "tx3" (some ⟨100, 0⟩) (some ⟨200, 0⟩) (some ⟨300, 0⟩) ⟨100, 0⟩ ⟨200, 0⟩
      ⟨300, 0⟩ (by decide) (by decide) (by decide) (by decide) rfl rfl (fun _ => rfl) rfl
      (fun _ => rfl) rfl rfl rfl).2.2.2, by decide⟩,
    history_three_writes_bad_time (emptyLedger noFaults) "asset7" "Car" "Tomoko" "Brad" 1 2
      "tx1" "tx2" "tx3" (some ⟨100, 0⟩) (some ⟨200, 0⟩) none "timestamp: nil Timestamp"
      (by decide) (by decide) (by decide) (by decide) rfl (fun _ => rfl) rfl (fun _ => rfl)
      rfl⟩

/-! ## The history query, entry by entry -/

theorem getAssetHistory_loop_acc (it : List (Except GoString KeyModification))
    (acc : List HistoryQueryResult) :
    GetAssetHistory_loop it acc
      = (GetAssetHistory_loop it []).map (fun rs => acc ++ rs) := by
  induction it generalizing acc with
  | nil => simp [GetAssetHistory_loop, Except.map]
  | cons x rest ih =>
    cases x with
    | error e => simp [GetAssetHistory_loop, Except.map]
    | ok km =>
      simp only [GetAssetHistory_loop]
      cases historicalRecord km with
      | error e => simp [Except.map]
      | ok rec =>
        cases ptypes_Timestamp km.Timestamp with
        | error e => simp [Except.map]
        | ok t =>
          simp only
          rw [ih, ih ([] ++ _)]
          cases GetAssetHistory_loop rest [] <;> simp [Except.map]

theorem getAssetHistory_loop_cons (km : KeyModification)
    (rest : List (Except GoString KeyModification)) :
    GetAssetHistory_loop (.ok km :: rest) []
      = match historyEntry km with
        | .error err => .error err
        | .ok r =>
          match GetAssetHistory_loop rest [] with
          | .error err => .error err
          | .ok rs => .ok (r :: rs) := by
  simp only [GetAssetHistory_loop, historyEntry]
  cases historicalRecord km with
  | error e => rfl
  | ok rec =>
    cases ptypes_Timestamp km.Timestamp with
    | error e => rfl
    | ok t =>
      simp only
      rw [getAssetHistory_loop_acc]
      cases GetAssetHistory_loop rest [] <;> simp [Except.map]

/-- A successful run of the loop: every answer of the iterator was an entry,
and the results are the entries' results, one for one and in order. -/
theorem getAssetHistory_loop_ok (it : List (Except GoString KeyModification))
    (rs : List HistoryQueryResult) (h : GetAssetHistory_loop it [] = .ok rs) :
    ∃ kms, it = kms.map .ok ∧ List.Forall₂ (fun km r => historyEntry km = .ok r) kms rs := by
  induction it generalizing rs with
  | nil =>
    simp only [GetAssetHistory_loop, Except.ok.injEq] at h
    subst h
    exact ⟨[], rfl, List.Forall₂.nil⟩
  | cons x rest ih =>
    cases x with
    | error e => simp [GetAssetHistory_loop] at h
    | ok km =>
      rw [getAssetHistory_loop_cons] at h
      cases he : historyEntry km with
      | error e => simp [he] at h
      | ok r =>
        cases hl : GetAssetHistory_loop rest [] with
        | error e => simp [he, hl] at h
        | ok rs2 =>
          simp only [he, hl, Except.ok.injEq] at h
          subst h
          obtain ⟨kms, hk, hf⟩ := ih rs2 hl
          exact ⟨km :: kms, by simp [hk], List.Forall₂.cons he hf⟩

/-- The loop succeeds on entries that all convert. -/
theorem getAssetHistory_loop_of_entries (kms : List KeyModification)
    (rs : List HistoryQueryResult)
    (h : List.Forall₂ (fun km r => historyEntry km = .ok r) kms rs) :
    GetAssetHistory_loop (kms.map .ok) [] = .ok rs := by
  induction h with
  | nil => rfl
  | cons he _ ih =>
    simp only [List.map_cons]
    rw [getAssetHistory_loop_cons, he, ih]

theorem historyEntry_describes (km : KeyModification) (r : HistoryQueryResult)
    (h : historyEntry km = .ok r) : describes km r := by
  unfold historyEntry at h
  cases hr : historicalRecord km with
  | error e => simp [hr] at h
  | ok rec =>
    cases ht : ptypes_Timestamp km.Timestamp with
    | error e => simp [hr, ht] at h
    | ok t =>
      simp only [hr, ht, Except.ok.injEq] at h
      subst h
      refine ⟨rfl, rfl, ht, ?_, ?_⟩
      · intro hv
        have hc : (!km.IsDelete && decide (km.Value.length > 0)) = true := by
          simp [hv.1, hv.2]
        unfold historicalRecord at hr
        rw [if_pos hc] at hr
        cases hj : json_Unmarshal km.Value with
        | error e => simp [hj] at hr
        | ok a =>
          simp only [hj, Except.ok.injEq] at hr
          exact ⟨a, rfl, hr.symm⟩
      · intro hv
        have hc : ¬ ((!km.IsDelete && decide (km.Value.length > 0)) = true) := by
          intro hc
          apply hv
          simp only [Bool.and_eq_true, Bool.not_eq_true', decide_eq_true_eq] at hc
          exact ⟨hc.1, hc.2⟩
        unfold historicalRecord at hr
        rw [if_neg hc] at hr
        simp only [Except.ok.injEq] at hr
        exact hr.symm

theorem historyEntry_ok_of (km : KeyModification) (t : Timestamp)
    (hdec : hasValue km → ∃ a, json_Unmarshal km.Value = .ok a)
    (ht : ptypes_Timestamp km.Timestamp = .ok t) : ∃ r, historyEntry km = .ok r := by
  unfold historyEntry historicalRecord
  by_cases hv : hasValue km
  · have hc : (!km.IsDelete && decide (km.Value.length > 0)) = true := by
      simp [hv.1, hv.2]
    obtain ⟨a, ha⟩ := hdec hv
    rw [if_pos hc, ha]
    simp [ht]
  · have hc : ¬ ((!km.IsDelete && decide (km.Value.length > 0)) = true) := by
      intro hc
      apply hv
      simp only [Bool.and_eq_true, Bool.not_eq_true', decide_eq_true_eq] at hc
      exact ⟨hc.1, hc.2⟩
    rw [if_neg hc]
    simp [ht]

theorem historyEntry_error_of (km : KeyModification) (h : entryFails (.ok km)) :
    ∃ err, historyEntry km = .error err := by
  cases he : historyEntry km with
  | error e => exact ⟨e, rfl⟩
  | ok r =>
    obtain ⟨_, _, ht, hv, _⟩ := historyEntry_describes km r he
    rcases h with ⟨hval, hno⟩ | hno
    · obtain ⟨a, ha, _⟩ := hv hval
      exact absurd ha (hno a)
    · exact absurd ht (hno _)

/-- The loop fails as soon as one answer of the iterator fails. -/
theorem getAssetHistory_loop_error (it : List (Except GoString KeyModification))
    (x : Except GoString KeyModification) (hx : x ∈ it) (hfail : entryFails x) :
    ∃ err, GetAssetHistory_loop it [] = .error err := by
  cases hl : GetAssetHistory_loop it [] with
  | error e => exact ⟨e, rfl⟩
  | ok rs =>
    obtain ⟨kms, hk, hf⟩ := getAssetHistory_loop_ok it rs hl
    subst hk
    obtain ⟨km, hkm, rfl⟩ := List.mem_map.mp hx
    obtain ⟨err, herr⟩ := historyEntry_error_of km hfail
    have : ∀ (l : List KeyModification) (rs : List HistoryQueryResult),
        List.Forall₂ (fun km r => historyEntry km = .ok r) l rs → km ∈ l →
        ∃ r, historyEntry km = .ok r := by
      intro l rs h
      induction h with
      | nil => intro h; cases h
      | cons h1 _ ih =>
        intro hm
        rcases List.mem_cons.mp hm with rfl | hm
        · exact ⟨_, h1⟩
        · exact ih hm
    obtain ⟨r, hr⟩ := this kms rs hf hkm
    rw [herr] at hr
    cases hr

theorem getAssetHistory_of_open (ctx : Stub) (key : GoString)
    (it : List (Except GoString KeyModification)) (hopen : ctx.GetHistoryForKey key = .ok it) :
    GetAssetHistory ctx key = GetAssetHistory_loop it [] := by
  simp only [GetAssetHistory, hopen]

theorem forall2_imp_of {α β : Type} {R S : α → β → Prop} (h : ∀ a b, R a b → S a b)
    {l : List α} {m : List β} (hf : List.Forall₂ R l m) : List.Forall₂ S l m := by
  induction hf with
  | nil => exact List.Forall₂.nil
  | cons h1 _ ih => exact List.Forall₂.cons (h _ _ h1) ih

/-- C11, as amended: for every history entry returned by the ledger for a key
that either represents a deletion or carries no value (empty bytes), the
corresponding `GetAssetHistory` result entry has no record (no price, no
owner), and its deletion flag is the flag of the history entry itself: true
for a deletion, false for an entry that is not one and only carries no value. -/
theorem history_entry_without_value (ctx : Stub) (key : GoString)
    (it : List (Except GoString KeyModification)) (rs : List HistoryQueryResult)
    (hopen : ctx.GetHistoryForKey key = .ok it)
    (hres : GetAssetHistory ctx key = .ok rs) :
    ∃ kms, it = kms.map .ok ∧
      List.Forall₂ (fun (km : KeyModification) (r : HistoryQueryResult) =>
        (km.IsDelete = true ∨ km.Value.length = 0) →
          r.Record = none ∧ r.IsDelete = km.IsDelete ∧ (km.IsDelete = true → r.IsDelete = true))
        kms rs := by
  rw [getAssetHistory_of_open ctx key it hopen] at hres
  obtain ⟨kms, hk, hf⟩ := getAssetHistory_loop_ok it rs hres
  refine ⟨kms, hk, forall2_imp_of ?_ hf⟩
  intro km r he hcase
  obtain ⟨_, hd, _, _, hnone⟩ := historyEntry_describes km r he
  have hnv : ¬ hasValue km := by
    rintro ⟨h1, h2⟩
    rcases hcase with h | h
    · rw [h] at h1; cases h1
    · omega
  exact ⟨hnone hnv, hd, fun h => by rw [hd, h]⟩

/-- Witness of C11 as amended: the history of a created and then deleted asset. -/
theorem history_entry_without_value_witness :
    ∃ kms : List KeyModification,
      ([.ok ⟨"tx2", "", some ⟨200, 0⟩, true⟩,
        .ok ⟨"tx1",
          "\x7b\"ID\":\"asset1\",\"Type\":\"Car\",\"Price\":10000,\"Owner\":\"Tomoko\"\x7d",
          some ⟨100, 0⟩, false⟩] : List (Except GoString KeyModification)) = kms.map .ok ∧
      List.Forall₂ (fun (km : KeyModification) (r : HistoryQueryResult) =>
        (km.IsDelete = true ∨ km.Value.length = 0) →
          r.Record = none ∧ r.IsDelete = km.IsDelete ∧ (km.IsDelete = true → r.IsDelete = true))
        kms [⟨none, "tx2", ⟨200, 0⟩, true⟩, ⟨some ⟨10000, "Tomoko"⟩, "tx1", ⟨100, 0⟩, false⟩] :=
  history_entry_without_value deletedAssetHistory "asset1" _ _ rfl rfl

/-- Counterexample to C11 as stated: a history entry that is not a deletion and
carries no value gets a result entry without a record whose deletion flag is
false. -/
theorem history_entry_without_value_flag :
    emptyValueHistory.GetHistoryForKey "asset1"
      = .ok [.ok ⟨"tx1", "", some ⟨100, 0⟩, false⟩] ∧
    GetAssetHistory emptyValueHistory "asset1" = .ok [⟨none, "tx1", ⟨100, 0⟩, false⟩] :=
  ⟨rfl, rfl⟩

/-- C12: for every key and every history the ledger yields for it: if every
entry iterates without error, every value carried by a non-deleted entry
decodes as an asset and every timestamp converts, `GetAssetHistory` returns a
list of the same length and in the same order, entry `i` carrying the
transaction id and deletion flag of history entry `i`, its converted
timestamp and, when the entry carries a value, the price and owner decoded
from it; if any entry fails iteration, decoding or timestamp conversion,
`GetAssetHistory` returns an error and no entries at all, whatever came
before that entry. -/
theorem getAssetHistory_all_or_nothing (ctx : Stub) (key : GoString)
    (it : List (Except GoString KeyModification))
    (hopen : ctx.GetHistoryForKey key = .ok it) :
    (∀ kms : List KeyModification, it = kms.map .ok →
      (∀ km ∈ kms, (hasValue km → ∃ a, json_Unmarshal km.Value = .ok a) ∧
        ∃ t, ptypes_Timestamp km.Timestamp = .ok t) →
      ∃ rs, GetAssetHistory ctx key = .ok rs ∧ rs.length = kms.length ∧
        List.Forall₂ describes kms rs) ∧
    ((∃ x ∈ it, entryFails x) → ∃ err, GetAssetHistory ctx key = .error err) := by
  rw [getAssetHistory_of_open ctx key it hopen]
  constructor
  · intro kms hk hall
    subst hk
    have hex : ∃ rs, List.Forall₂ (fun km r => historyEntry km = .ok r) kms rs := by
      clear hopen
      induction kms with
      | nil => exact ⟨[], List.Forall₂.nil⟩
      | cons km kms ih =>
        obtain ⟨hdec, t, ht⟩ := hall km (List.mem_cons_self _ _)
        obtain ⟨r, hr⟩ := historyEntry_ok_of km t hdec ht
        obtain ⟨rs, hrs⟩ := ih (fun km2 hm => hall km2 (List.mem_cons_of_mem _ hm))
        exact ⟨r :: rs, List.Forall₂.cons hr hrs⟩
    obtain ⟨rs, hrs⟩ := hex
    refine ⟨rs, getAssetHistory_loop_of_entries kms rs hrs, ?_, ?_⟩
    · exact (List.Forall₂.length_eq hrs).symm
    · exact forall2_imp_of historyEntry_describes hrs
  · rintro ⟨x, hx, hfail⟩
    exact getAssetHistory_loop_error it x hx hfail

/-- Witness of C12: the history of a created and then deleted asset converts
entry by entry. -/
theorem getAssetHistory_all_or_nothing_witness :
    ∃ rs, GetAssetHistory deletedAssetHistory "asset1" = .ok rs ∧ rs.length = 2 ∧
      List.Forall₂ describes
        [⟨"tx2", "", some ⟨200, 0⟩, true⟩,
         ⟨"tx1", "\x7b\"ID\":\"asset1\",\"Type\":\"Car\",\"Price\":10000,\"Owner\":\"Tomoko\"\x7d",
          some ⟨100, 0⟩, false⟩] rs :=
  (getAssetHistory_all_or_nothing deletedAssetHistory "asset1" _ rfl).1
    [⟨"tx2", "", some ⟨200, 0⟩, true⟩,
     ⟨"tx1", "\x7b\"ID\":\"asset1\",\"Type\":\"Car\",\"Price\":10000,\"Owner\":\"Tomoko\"\x7d",
      some ⟨100, 0⟩, false⟩] rfl
    (by
      intro km hm
      simp only [List.mem_cons, List.mem_singleton, List.not_mem_nil, or_false] at hm
      rcases hm with rfl | rfl
      · exact ⟨fun h => absurd h.1 (by decide), ⟨200, 0⟩, rfl⟩
      · exact ⟨fun _ => ⟨⟨"asset1", "Car", 10000, "Tomoko"⟩, rfl⟩, ⟨100, 0⟩, rfl⟩)

/-! ## The range query, entry by entry -/

theorem getAllAssets_loop_acc (it : List (Except GoString KV)) (acc : List Asset) :
    GetAllAssets_loop it acc = (GetAllAssets_loop it []).map (fun rs => acc ++ rs) := by
  induction it generalizing acc with
  | nil => simp [GetAllAssets_loop, Except.map]
  | cons x rest ih =>
    cases x with
    | error e => simp [GetAllAssets_loop, Except.map]
    | ok kv =>
      simp only [GetAllAssets_loop]
      cases json_Unmarshal kv.Value with
      | error e => simp [Except.map]
      | ok a =>
        simp only
        rw [ih, ih ([] ++ _)]
        cases GetAllAssets_loop rest [] <;> simp [Except.map]

theorem getAllAssets_loop_cons (kv : KV) (rest : List (Except GoString KV)) :
    GetAllAssets_loop (.ok kv :: rest) []
      = match json_Unmarshal kv.Value with
        | .error err => .error err
        | .ok a =>
          match GetAllAssets_loop rest [] with
          | .error err => .error err
          | .ok rs => .ok (a :: rs) := by
  simp only [GetAllAssets_loop]
  cases json_Unmarshal kv.Value with
  | error e => rfl
  | ok a =>
    simp only
    rw [getAllAssets_loop_acc]
    cases GetAllAssets_loop rest [] <;> simp [Except.map]

/-- The loop of `GetAllAssets` over the iterator of the entries `xs` succeeds
exactly when no `Next` fails and every value decodes; the assets are then the
decoded values, one for one and in order. -/
theorem getAllAssets_loop_iterate (fault : Nat → Option GoString) (i : Nat)
    (xs : List (GoString × Bytes)) (assets : List Asset) :
    GetAllAssets_loop (iterate fault i (xs.map (fun kv => (⟨kv.1, kv.2⟩ : KV)))) [] = .ok assets
      ↔ (∀ j, j < xs.length → fault (i + j) = none) ∧
        List.Forall₂ (fun kv a => json_Unmarshal kv.2 = .ok a) xs assets := by
  induction xs generalizing i assets with
  | nil =>
    simp only [List.map_nil, iterate, GetAllAssets_loop, Except.ok.injEq, List.length_nil,
      Nat.not_lt_zero, false_implies, implies_true, true_and, List.forall₂_nil_left_iff]
    exact eq_comm
  | cons x xs ih =>
    simp only [List.map_cons, iterate]
    cases hf : fault i with
    | some e =>
      simp only [GetAllAssets_loop]
      constructor
      · intro h; cases h
      · rintro ⟨h, _⟩
        have := h 0 (by simp)
        simp [hf] at this
    | none =>
      simp only
      rw [getAllAssets_loop_cons]
      cases hj : json_Unmarshal x.2 with
      | error e =>
        simp only
        constructor
        · intro h; cases h
        · rintro ⟨_, h⟩
          cases h with
          | cons h1 _ => rw [hj] at h1; cases h1
      | ok a =>
        simp only
        cases hl : GetAllAssets_loop (iterate fault (i + 1)
            (xs.map (fun kv => (⟨kv.1, kv.2⟩ : KV)))) [] with
        | error e =>
          simp only
          constructor
          · intro h; cases h
          · rintro ⟨hn, h⟩
            cases h with
            | cons h1 h2 =>
              have := (ih (i + 1) _).mpr ⟨fun j hjlt => by
                have := hn (j + 1) (by simp; omega)
                rw [← this]; congr 1; omega, h2⟩
              rw [hl] at this
              cases this
        | ok rs =>
          simp only [Except.ok.injEq]
          obtain ⟨hn, hrs⟩ := (ih (i + 1) rs).mp hl
          constructor
          · intro h
            subst h
            refine ⟨?_, List.Forall₂.cons hj hrs⟩
            intro j hjlt
            cases j with
            | zero => simpa using hf
            | succ j =>
              have := hn j (by simp at hjlt; omega)
              rw [← this]; congr 1; omega
          · rintro ⟨_, h⟩
            cases h with
            | cons h1 h2 =>
              rw [hj] at h1
              simp only [Except.ok.injEq] at h1
              subst h1
              have := (ih (i + 1) _).mpr ⟨hn, h2⟩
              rw [hl] at this
              simp only [Except.ok.injEq] at this
              rw [this]

theorem inRange_full (key : GoString) : inRange "" "" key = true := by
  have : ∀ bs : List Nat, ltBytes bs [] = false := by
    intro bs; cases bs <;> rfl
  have e : (GoString.ofText "").bytes = [] := rfl
  simp [inRange, keyLt, this, e]

theorem filter_full (st : List (GoString × Bytes)) :
    st.filter (fun kv => inRange "" "" kv.1) = st := by
  induction st with
  | nil => rfl
  | cons kv st ih => simp [List.filter, inRange_full, ih]

/-- `GetAllAssets` succeeds exactly when the range scan opens, no `Next` fails
and every stored value decodes; the assets are then the decoded values of the
store's entries, one for one and in the store's order. -/
theorem getAllAssets_ok_iff (ctx : Stub) (assets : List Asset) :
    GetAllAssets ctx = .ok assets
      ↔ ctx.faults.getStateByRange "" "" = none ∧
        (∀ j, j < ctx.state.length → ctx.faults.rangeNext j = none) ∧
        List.Forall₂ (fun kv a => json_Unmarshal kv.2 = .ok a) ctx.state assets := by
  unfold GetAllAssets Stub.GetStateByRange
  cases ho : ctx.faults.getStateByRange "" "" with
  | some e => simp
  | none =>
    simp only [filter_full, true_and]
    rw [getAllAssets_loop_iterate]
    simp

/-- C13, as amended: for every world state: if the range scan does not fail (it
opens and every `Next` succeeds) and every stored value decodes as an asset,
`GetAllAssets` succeeds and returns one asset per stored key, in the order of
the store (ascending keys, `reachable_keysAscending`), each equal to the
decoding of the value at that key; if at least one stored value does not decode, or the iteration fails,
`GetAllAssets` returns an error and no assets at all, also when values
earlier in key order decoded. -/
theorem getAllAssets_all_or_nothing (ctx : Stub) :
    (ctx.faults.getStateByRange "" "" = none →
      (∀ j, j < ctx.state.length → ctx.faults.rangeNext j = none) →
      (∀ kv ∈ ctx.state, ∃ a, json_Unmarshal kv.2 = .ok a) →
      ∃ assets, GetAllAssets ctx = .ok assets ∧ assets.length = ctx.state.length ∧
        List.Forall₂ (fun kv a => json_Unmarshal kv.2 = .ok a) ctx.state assets) ∧
    (((∃ kv ∈ ctx.state, ∀ a, json_Unmarshal kv.2 ≠ .ok a) ∨
        ctx.faults.getStateByRange "" "" ≠ none ∨
        ∃ j, j < ctx.state.length ∧ ctx.faults.rangeNext j ≠ none) →
      ∃ err, GetAllAssets ctx = .error err) := by
  constructor
  · intro hopen hnext hdec
    have hex : ∃ assets, List.Forall₂ (fun kv a => json_Unmarshal kv.2 = .ok a)
        ctx.state assets := by
      generalize ctx.state = st at hdec
      induction st with
      | nil => exact ⟨[], List.Forall₂.nil⟩
      | cons kv st ih =>
        obtain ⟨a, ha⟩ := hdec kv (List.mem_cons_self _ _)
        obtain ⟨as, has⟩ := ih (fun kv2 hm => hdec kv2 (List.mem_cons_of_mem _ hm))
        exact ⟨a :: as, List.Forall₂.cons ha has⟩
    obtain ⟨assets, hassets⟩ := hex
    exact ⟨assets, (getAllAssets_ok_iff ctx assets).mpr ⟨hopen, hnext, hassets⟩,
      (List.Forall₂.length_eq hassets).symm, hassets⟩
  · intro hbad
    cases hg : GetAllAssets ctx with
    | error e => exact ⟨e, rfl⟩
    | ok assets =>
      obtain ⟨hopen, hnext, hall⟩ := (getAllAssets_ok_iff ctx assets).mp hg
      rcases hbad with ⟨kv, hkv, hno⟩ | hno | ⟨j, hj, hno⟩
      · have : ∀ (l : List (GoString × Bytes)) (m : List Asset),
            List.Forall₂ (fun kv a => json_Unmarshal kv.2 = .ok a) l m → kv ∈ l →
            ∃ a, json_Unmarshal kv.2 = .ok a := by
          intro l m h
          induction h with
          | nil => intro h; cases h
          | cons h1 _ ih =>
            intro hm
            rcases List.mem_cons.mp hm with rfl | hm
            · exact ⟨_, h1⟩
            · exact ih hm
        obtain ⟨a, ha⟩ := this _ _ hall hkv
        exact absurd ha (hno a)
      · exact absurd hopen hno
      · exact absurd (hnext j hj) hno

/-- Witness of C13 as amended: the ledger holding `asset1`, read on a platform
without failures and on one whose range scan does not open. -/
theorem getAllAssets_all_or_nothing_witness :
    (∃ assets, GetAllAssets (oneAssetLedger noFaults) = .ok assets ∧
      assets.length = (oneAssetLedger noFaults).state.length ∧
      List.Forall₂ (fun kv a => json_Unmarshal kv.2 = .ok a)
        (oneAssetLedger noFaults).state assets) ∧
    (∃ err, GetAllAssets (oneAssetLedger rangeScanFails) = .error err) :=
  ⟨(getAllAssets_all_or_nothing (oneAssetLedger noFaults)).1 rfl (fun _ _ => rfl)
      (by
        intro kv hm
        simp only [oneAssetLedger, List.mem_singleton] at hm
        subst hm
        exact ⟨⟨"asset1", "Car", 10000, "Tomoko"⟩, rfl⟩),
   (getAllAssets_all_or_nothing (oneAssetLedger rangeScanFails)).2
      (Or.inr (Or.inl (by simp [oneAssetLedger, rangeScanFails])))⟩

/-- Counterexample to C13 as stated: the only stored value decodes as an
asset, yet `GetAllAssets` returns an error because the range scan does not open. -/
theorem getAllAssets_decodable_can_fail :
    (∀ kv ∈ (oneAssetLedger rangeScanFails).state, ∃ a, json_Unmarshal kv.2 = .ok a) ∧
    GetAllAssets (oneAssetLedger rangeScanFails) = .error "GET_STATE_BY_RANGE failed" := by
  refine ⟨?_, rfl⟩
  intro kv hm
  simp only [oneAssetLedger, List.mem_singleton] at hm
  subst hm
  exact ⟨⟨"asset1", "Car", 10000, "Tomoko"⟩, rfl⟩

/-- C14, as amended: for every asset whose ID, type and owner are valid UTF-8
strings (the empty string included) and whose price is any Go `int` (zero
included), decoding the JSON encoding of the asset succeeds and yields an
asset identical to the original in all four fields. -/
theorem asset_json_roundtrip (a : Asset) (hprice : isInt a.Price)
    (hid : a.ID.validUTF8 = true) (htype : a.Type_.validUTF8 = true)
    (howner : a.Owner.validUTF8 = true) :
    ∃ data, json_Marshal a = .ok data ∧
      json_Unmarshal data = .ok ⟨a.ID, a.Type_, a.Price, a.Owner⟩ :=
  ⟨String.mk (encodeAsset a), rfl,
    json_roundtrip a hprice (asset_replaceInvalid_of_valid a hid htype howner)⟩

/-- Witness of C14 as amended: the asset with empty strings and a zero price. -/
theorem asset_json_roundtrip_witness :
    ∃ data, json_Marshal ⟨"", "", 0, ""⟩ = .ok data ∧
      json_Unmarshal data = .ok ⟨"", "", 0, ""⟩ :=
  asset_json_roundtrip ⟨"", "", 0, ""⟩ (by decide) rfl rfl rfl

/-- Counterexample to C14 as stated: the asset with the ID `"\xff"`, the type
`"t\xfe"` and the owner `"o\xfe"`, none of them valid UTF-8, is encoded with
the escape `\ufffd` in the place of each of these bytes, and decoding the
encoding yields an asset with U+FFFD there: an asset that differs from the
original in its ID, its type and its owner. -/
theorem asset_json_roundtrip_invalid_utf8 :
    json_Marshal ⟨⟨[255]⟩, ⟨[116, 254]⟩, 1, ⟨[111, 254]⟩⟩
      = .ok "\x7b\"ID\":\"\\ufffd\",\"Type\":\"t\\ufffd\",\"Price\":1,\"Owner\":\"o\\ufffd\"\x7d" ∧
    json_Unmarshal
        "\x7b\"ID\":\"\\ufffd\",\"Type\":\"t\\ufffd\",\"Price\":1,\"Owner\":\"o\\ufffd\"\x7d"
      = .ok ⟨"\uFFFD", "t\uFFFD", 1, "o\uFFFD"⟩ ∧
    ("\uFFFD" : GoString) ≠ ⟨[255]⟩ ∧ ("t\uFFFD" : GoString) ≠ ⟨[116, 254]⟩ ∧
    ("o\uFFFD" : GoString) ≠ ⟨[111, 254]⟩ :=
  ⟨rfl, rfl, by decide, by decide, by decide⟩

/-- C16: for every world state and every id, `SearchAssetByID(id)` returns
exactly the result of `ReadAsset(id)`: the same asset when `ReadAsset`
succeeds and the same error when it fails. Both only read: neither hands a
changed context back. -/
theorem searchAssetByID_eq_readAsset (ctx : Stub) (id : GoString) :
    SearchAssetByID ctx id = ReadAsset ctx id :=
  rfl

/-! ## The key order and the world state as a map -/

theorem ltBytes_trans (a b c : List Nat) (hab : ltBytes a b = true)
    (hbc : ltBytes b c = true) : ltBytes a c = true := by
  induction a generalizing b c with
  | nil =>
    cases b with
    | nil => simp [ltBytes] at hab
    | cons y ys =>
      cases c with
      | nil => simp [ltBytes] at hbc
      | cons z zs => simp [ltBytes]
  | cons x xs ih =>
    cases b with
    | nil => simp [ltBytes] at hab
    | cons y ys =>
      cases c with
      | nil => simp [ltBytes] at hbc
      | cons z zs =>
        simp only [ltBytes] at hab hbc ⊢
        split_ifs at hab hbc ⊢ <;> first
          | rfl
          | omega
          | exact ih ys zs hab hbc

theorem ltBytes_irrefl (a : List Nat) : ltBytes a a = false := by
  induction a with
  | nil => rfl
  | cons x xs ih => simp [ltBytes, ih]

theorem keyLt_trans (a b c : GoString) (hab : keyLt a b = true) (hbc : keyLt b c = true) :
    keyLt a c = true :=
  ltBytes_trans _ _ _ hab hbc

theorem keyLt_asymm (a b : GoString) (hab : keyLt a b = true) : keyLt b a = false := by
  cases h : keyLt b a with
  | false => rfl
  | true =>
    have := keyLt_trans a b a hab h
    simp [keyLt, ltBytes_irrefl] at this

/-- Writing a key twice leaves what the second write alone leaves. -/
theorem upsert_upsert (st : List (GoString × Bytes)) (key : GoString) (v w : Bytes) :
    upsert (upsert st key v) key w = upsert st key w := by
  induction st with
  | nil => simp [upsert]
  | cons kv rest ih =>
    obtain ⟨k, u⟩ := kv
    by_cases h1 : key = k
    · simp [upsert, h1]
    · by_cases h2 : keyLt key k = true
      · simp [upsert, h1, h2]
      · simp [upsert, h1, h2, ih]

/-- A write that changes nothing still changes nothing after a write at
another key. -/
theorem upsert_fixed (st : List (GoString × Bytes)) (key other : GoString) (v w : Bytes)
    (hfix : upsert st key v = st) (hne : other ≠ key) :
    upsert (upsert st other w) key v = upsert st other w := by
  induction st with
  | nil => simp [upsert] at hfix
  | cons kv rest ih =>
    obtain ⟨k, u⟩ := kv
    by_cases h1 : key = k
    · subst h1
      have hu : v = u := by
        simp only [upsert, if_true] at hfix
        simpa using hfix
      subst hu
      by_cases h3 : keyLt other key = true
      · have h4 := keyLt_asymm other key h3
        have h5 : ¬ key = other := fun h => hne h.symm
        simp [upsert, hne, h3, h4, h5]
      · simp [upsert, hne, h3]
    · by_cases h2 : keyLt key k = true
      · simp only [upsert, h1, h2, if_true, if_false] at hfix
        have := congrArg List.length hfix
        simp at this
      · have hrest : upsert rest key v = rest := by
          simp only [upsert, h1, h2, if_false] at hfix
          simpa using hfix
        have h5 : ¬ key = other := fun h => hne h.symm
        by_cases h6 : other = k
        · subst h6
          simp [upsert, h5, h2, hrest]
        · by_cases h3 : keyLt other k = true
          · have h7 : ¬ keyLt key other = true := by
              intro h
              exact h2 (keyLt_trans key other k h h3)
            simp [upsert, h6, h3, h5, h7, h1, h2, hrest]
          · simp [upsert, h6, h3, h1, h2, ih hrest]

theorem upsert_self_fixed (st : List (GoString × Bytes)) (key : GoString) (v : Bytes) :
    upsert (upsert st key v) key v = upsert st key v :=
  upsert_upsert st key v v

theorem lookup_mem (st : List (GoString × Bytes)) (key : GoString) (v : Bytes)
    (h : lookup st key = some v) : (key, v) ∈ st := by
  induction st with
  | nil => simp [lookup] at h
  | cons kv rest ih =>
    obtain ⟨k, u⟩ := kv
    by_cases hk : k = key
    · simp only [lookup, hk, if_true, Option.some.injEq] at h
      subst hk; subst h
      exact List.mem_cons_self _ _
    · simp only [lookup, hk, if_false] at h
      exact List.mem_cons_of_mem _ (ih h)

theorem mem_upsert (st : List (GoString × Bytes)) (key : GoString) (v : Bytes)
    (kv : GoString × Bytes) (h : kv ∈ upsert st key v) : kv = (key, v) ∨ kv ∈ st := by
  induction st with
  | nil => simpa [upsert] using h
  | cons e rest ih =>
    obtain ⟨k, u⟩ := e
    unfold upsert at h
    split_ifs at h with h1 h2
    · rcases List.mem_cons.mp h with h | h
      · exact Or.inl h
      · exact Or.inr (List.mem_cons_of_mem _ h)
    · rcases List.mem_cons.mp h with h | h
      · exact Or.inl h
      · exact Or.inr h
    · rcases List.mem_cons.mp h with h | h
      · exact Or.inr (h ▸ List.mem_cons_self _ _)
      · rcases ih h with h | h
        · exact Or.inl h
        · exact Or.inr (List.mem_cons_of_mem _ h)

/-- A transaction either fails and leaves the ledger as it was, or succeeds. -/
theorem invoke_cases (ctx : Stub) (txId : GoString) (ts : Option Timestamp)
    (op : Stub → Except GoString Unit × Stub) :
    (∃ err, ctx.invoke txId ts op = (.error err, { ctx with writes := [] })) ∨
    (ctx.invoke txId ts op).1 = .ok () := by
  unfold Stub.invoke
  rcases hop : op { ctx with writes := [] } with ⟨r, c2⟩
  cases r with
  | error e => exact Or.inl ⟨e, rfl⟩
  | ok u => exact Or.inr rfl

/-! ## What a transaction does to the world state -/

/-- The world state after a `CreateAsset` transaction: as before, or (on
success, at an absent key) with the new asset at `id`. -/
theorem createAsset_state (ctx : Stub) (id assetType owner : GoString) (price : Int)
    (txId : GoString) (ts : Option Timestamp) :
    ((ctx.invoke txId ts (fun c => CreateAsset c id assetType price owner)).1 ≠ .ok () ∧
      (ctx.invoke txId ts (fun c => CreateAsset c id assetType price owner)).2.state
        = ctx.state) ∨
    ((ctx.invoke txId ts (fun c => CreateAsset c id assetType price owner)).1 = .ok () ∧
      lookup ctx.state id = none ∧
      (ctx.invoke txId ts (fun c => CreateAsset c id assetType price owner)).2.state
        = upsert ctx.state id (String.mk (encodeAsset ⟨id, assetType, price, owner⟩))) := by
  rcases invoke_cases ctx txId ts (fun c => CreateAsset c id assetType price owner) with
    ⟨err, h⟩ | h
  · left
    rw [h]
    exact ⟨by simp, rfl⟩
  · right
    obtain ⟨hf, hinv⟩ := createAsset_invoke_ok ctx id assetType owner price txId ts h
    refine ⟨h, ?_, by rw [hinv]⟩
    have hc := createAsset_cases { ctx with writes := [] } id assetType owner price
    simp only [hf] at hc
    cases hl : lookup ctx.state id with
    | none => rfl
    | some v =>
      rw [hl] at hc
      rw [invoke_error ctx txId ts _ _ _ hc] at h
      simp at h

/-- The world state after an `UpdateAssetPrice` transaction: as before, or (on
success, at an existing asset) with the repriced asset at `id`. -/
theorem updateAssetPrice_state (ctx : Stub) (id : GoString) (newPrice : Int)
    (txId : GoString) (ts : Option Timestamp) :
    ((ctx.invoke txId ts (fun c => UpdateAssetPrice c id newPrice)).1 ≠ .ok () ∧
      (ctx.invoke txId ts (fun c => UpdateAssetPrice c id newPrice)).2.state = ctx.state) ∨
    ((ctx.invoke txId ts (fun c => UpdateAssetPrice c id newPrice)).1 = .ok () ∧
      ∃ a v, lookup ctx.state id = some v ∧ json_Unmarshal v = .ok a ∧
      (ctx.invoke txId ts (fun c => UpdateAssetPrice c id newPrice)).2.state
        = upsert ctx.state id (String.mk (encodeAsset { a with Price := newPrice }))) := by
  rcases invoke_cases ctx txId ts (fun c => UpdateAssetPrice c id newPrice) with ⟨err, h⟩ | h
  · left
    rw [h]
    exact ⟨by simp, rfl⟩
  · right
    obtain ⟨a, hr, _, hinv⟩ := updateAssetPrice_invoke_ok ctx id newPrice txId ts h
    obtain ⟨v, hv, hj⟩ := readAsset_ok_inv ctx id a hr
    exact ⟨h, a, v, (getState_fault_none ctx id _ hv).2, hj, by rw [hinv]⟩

/-- The world state after a `TransferAsset` transaction: as before, or (on
success, at an existing asset) with the transferred asset at `id`. -/
theorem transferAsset_state (ctx : Stub) (id newOwner : GoString)
    (txId : GoString) (ts : Option Timestamp) :
    ((ctx.invoke txId ts (fun c => TransferAsset c id newOwner)).1 ≠ .ok () ∧
      (ctx.invoke txId ts (fun c => TransferAsset c id newOwner)).2.state = ctx.state) ∨
    ((ctx.invoke txId ts (fun c => TransferAsset c id newOwner)).1 = .ok () ∧
      ∃ a v, lookup ctx.state id = some v ∧ json_Unmarshal v = .ok a ∧
      (ctx.invoke txId ts (fun c => TransferAsset c id newOwner)).2.state
        = upsert ctx.state id (String.mk (encodeAsset { a with Owner := newOwner }))) := by
  rcases invoke_cases ctx txId ts (fun c => TransferAsset c id newOwner) with ⟨err, h⟩ | h
  · left
    rw [h]
    exact ⟨by simp, rfl⟩
  · right
    obtain ⟨a, hr, _, hinv⟩ := transferAsset_invoke_ok ctx id newOwner txId ts h
    obtain ⟨v, hv, hj⟩ := readAsset_ok_inv ctx id a hr
    exact ⟨h, a, v, (getState_fault_none ctx id _ hv).2, hj, by rw [hinv]⟩

/-- C18: for every world state, every id and every argument list, each of
`CreateAsset`, `UpdateAssetPrice` and `TransferAsset` changes the value of at
most the single key `id`: the value at every other key is the same after the
transaction as before, whether it succeeds or fails; no key is removed (a
value present at `id` before is followed by a value present after); and the
set of keys grows only by `id` and only on a successful `CreateAsset`
(`UpdateAssetPrice` and `TransferAsset` never add a key). -/
theorem writes_touch_only_id (ctx : Stub) (id other assetType owner newOwner : GoString)
    (price newPrice : Int) (txId : GoString) (ts : Option Timestamp) (hother : other ≠ id) :
    (lookup (ctx.invoke txId ts (fun c => CreateAsset c id assetType price owner)).2.state other
        = lookup ctx.state other ∧
      lookup (ctx.invoke txId ts (fun c => UpdateAssetPrice c id newPrice)).2.state other
        = lookup ctx.state other ∧
      lookup (ctx.invoke txId ts (fun c => TransferAsset c id newOwner)).2.state other
        = lookup ctx.state other) ∧
    (lookup ctx.state id ≠ none →
      lookup (ctx.invoke txId ts (fun c => CreateAsset c id assetType price owner)).2.state id
        ≠ none ∧
      lookup (ctx.invoke txId ts (fun c => UpdateAssetPrice c id newPrice)).2.state id ≠ none ∧
      lookup (ctx.invoke txId ts (fun c => TransferAsset c id newOwner)).2.state id ≠ none) ∧
    (lookup ctx.state id = none →
      (lookup (ctx.invoke txId ts (fun c => CreateAsset c id assetType price owner)).2.state id
          ≠ none →
        (ctx.invoke txId ts (fun c => CreateAsset c id assetType price owner)).1 = .ok ()) ∧
      lookup (ctx.invoke txId ts (fun c => UpdateAssetPrice c id newPrice)).2.state id = none ∧
      lookup (ctx.invoke txId ts (fun c => TransferAsset c id newOwner)).2.state id = none) := by
  have hc := createAsset_state ctx id assetType owner price txId ts
  have hu := updateAssetPrice_state ctx id newPrice txId ts
  have ht := transferAsset_state ctx id newOwner txId ts
  refine ⟨⟨?_, ?_, ?_⟩, ?_, ?_⟩
  · rcases hc with ⟨_, h⟩ | ⟨_, _, h⟩
    · rw [h]
    · rw [h, lookup_upsert_other _ _ _ _ hother]
  · rcases hu with ⟨_, h⟩ | ⟨_, _, _, _, _, h⟩
    · rw [h]
    · rw [h, lookup_upsert_other _ _ _ _ hother]
  · rcases ht with ⟨_, h⟩ | ⟨_, _, _, _, _, h⟩
    · rw [h]
    · rw [h, lookup_upsert_other _ _ _ _ hother]
  · intro hpresent
    refine ⟨?_, ?_, ?_⟩
    · rcases hc with ⟨_, h⟩ | ⟨_, _, h⟩
      · rw [h]; exact hpresent
      · rw [h, lookup_upsert_self]; simp
    · rcases hu with ⟨_, h⟩ | ⟨_, _, _, _, _, h⟩
      · rw [h]; exact hpresent
      · rw [h, lookup_upsert_self]; simp
    · rcases ht with ⟨_, h⟩ | ⟨_, _, _, _, _, h⟩
      · rw [h]; exact hpresent
      · rw [h, lookup_upsert_self]; simp
  · intro habsent
    refine ⟨?_, ?_, ?_⟩
    · intro hgrew
      rcases hc with ⟨_, h⟩ | ⟨hok, _, _⟩
      · rw [h] at hgrew; exact absurd habsent hgrew
      · exact hok
    · rcases hu with ⟨_, h⟩ | ⟨_, _, _, hl, _, _⟩
      · rw [h]; exact habsent
      · rw [habsent] at hl; cases hl
    · rcases ht with ⟨_, h⟩ | ⟨_, _, _, hl, _, _⟩
      · rw [h]; exact habsent
      · rw [habsent] at hl; cases hl

/-- Witness of C18: the operations at `asset7` seen from the key `asset1` of a
ledger that holds only `asset1`. -/
theorem writes_touch_only_id_witness :
    lookup ((oneAssetLedger noFaults).invoke "tx2" none
        (fun c => CreateAsset c "asset7" "Boat" 5 "Brad")).2.state "asset1"
      = lookup (oneAssetLedger noFaults).state "asset1" :=
  (writes_touch_only_id (oneAssetLedger noFaults) "asset7" "asset1" "Boat" "Brad" "Jin Soo" 5 6
    "tx2" none (by decide)).1.1

/-- `InitLedger` step by step: it fails at the first write the platform refuses
and otherwise leaves the three sample assets in the write set. -/
theorem initLedger_cases (ctx : Stub) :
    InitLedger ctx =
      match ctx.faults.putState "asset1"
          (String.mk (encodeAsset ⟨"asset1", "Car", 10000, "Tomoko"⟩)) with
      | some err => (.error ("failed to put to world state. " ++ err), ctx)
      | none =>
        match ctx.faults.putState "asset2"
            (String.mk (encodeAsset ⟨"asset2", "House", 250000, "Brad"⟩)) with
        | some err => (.error ("failed to put to world state. " ++ err),
            ⟨ctx.state, ctx.history, upsert ctx.writes "asset1"
              (String.mk (encodeAsset ⟨"asset1", "Car", 10000, "Tomoko"⟩)), ctx.faults⟩)
        | none =>
          match ctx.faults.putState "asset3"
              (String.mk (encodeAsset ⟨"asset3", "Boat", 50000, "Jin Soo"⟩)) with
          | some err => (.error ("failed to put to world state. " ++ err),
              ⟨ctx.state, ctx.history, upsert (upsert ctx.writes "asset1"
                (String.mk (encodeAsset ⟨"asset1", "Car", 10000, "Tomoko"⟩))) "asset2"
                (String.mk (encodeAsset ⟨"asset2", "House", 250000, "Brad"⟩)), ctx.faults⟩)
          | none => (.ok (), ⟨ctx.state, ctx.history,
              upsert (upsert (upsert ctx.writes
                "asset1" (String.mk (encodeAsset ⟨"asset1", "Car", 10000, "Tomoko"⟩)))
                "asset2" (String.mk (encodeAsset ⟨"asset2", "House", 250000, "Brad"⟩)))
                "asset3" (String.mk (encodeAsset ⟨"asset3", "Boat", 50000, "Jin Soo"⟩)),
              ctx.faults⟩) := by
  simp only [InitLedger, InitLedger_loop, sampleAssets, json_Marshal, Stub.PutState]
  cases ctx.faults.putState "asset1"
      (String.mk (encodeAsset ⟨"asset1", "Car", 10000, "Tomoko"⟩)) with
  | some e => rfl
  | none =>
    simp only
    cases ctx.faults.putState "asset2"
        (String.mk (encodeAsset ⟨"asset2", "House", 250000, "Brad"⟩)) with
    | some e => rfl
    | none =>
      simp only
      cases ctx.faults.putState "asset3"
          (String.mk (encodeAsset ⟨"asset3", "Boat", 50000, "Jin Soo"⟩)) with
      | some e => rfl
      | none => rfl

/-- The world state after an `InitLedger` transaction: as before, or (on
success) with the three sample assets written over it. -/
theorem initLedger_state (ctx : Stub) (txId : GoString) (ts : Option Timestamp) :
    ((ctx.invoke txId ts InitLedger).1 ≠ .ok () ∧
      (ctx.invoke txId ts InitLedger).2.state = ctx.state) ∨
    ((ctx.invoke txId ts InitLedger).1 = .ok () ∧
      (ctx.invoke txId ts InitLedger).2.state
        = upsert (upsert (upsert ctx.state
            "asset1" (String.mk (encodeAsset ⟨"asset1", "Car", 10000, "Tomoko"⟩)))
            "asset2" (String.mk (encodeAsset ⟨"asset2", "House", 250000, "Brad"⟩)))
            "asset3" (String.mk (encodeAsset ⟨"asset3", "Boat", 50000, "Jin Soo"⟩))) := by
  have hc := initLedger_cases { ctx with writes := [] }
  simp only at hc
  unfold Stub.invoke
  rw [hc]
  cases ctx.faults.putState "asset1"
      (String.mk (encodeAsset ⟨"asset1", "Car", 10000, "Tomoko"⟩)) with
  | some e => left; exact ⟨by simp, rfl⟩
  | none =>
    simp only
    cases ctx.faults.putState "asset2"
        (String.mk (encodeAsset ⟨"asset2", "House", 250000, "Brad"⟩)) with
    | some e => left; exact ⟨by simp, rfl⟩
    | none =>
      simp only
      cases ctx.faults.putState "asset3"
          (String.mk (encodeAsset ⟨"asset3", "Boat", 50000, "Jin Soo"⟩)) with
      | some e => left; exact ⟨by simp, rfl⟩
      | none =>
        right
        refine ⟨rfl, ?_⟩
        simp only [Stub.commit, upsert_samples, List.foldl]

/-- Whether `InitLedger` succeeds depends on the platform alone. -/
theorem initLedger_outcome (ctx ctx2 : Stub) (txId txId2 : GoString) (ts ts2 : Option Timestamp)
    (hf : ctx2.faults = ctx.faults) :
    (ctx2.invoke txId2 ts2 InitLedger).1 = (ctx.invoke txId ts InitLedger).1 := by
  obtain ⟨s2, h2, w2, f2⟩ := ctx2
  simp only at hf
  subst hf
  have hc := initLedger_cases { ctx with writes := [] }
  have hc2 := initLedger_cases ⟨s2, h2, [], ctx.faults⟩
  simp only at hc hc2
  unfold Stub.invoke
  rw [hc, hc2]
  cases ctx.faults.putState "asset1"
      (String.mk (encodeAsset ⟨"asset1", "Car", 10000, "Tomoko"⟩)) with
  | some e => rfl
  | none =>
    simp only
    cases ctx.faults.putState "asset2"
        (String.mk (encodeAsset ⟨"asset2", "House", 250000, "Brad"⟩)) with
    | some e => rfl
    | none =>
      simp only
      cases ctx.faults.putState "asset3"
          (String.mk (encodeAsset ⟨"asset3", "Boat", 50000, "Jin Soo"⟩)) with
      | some e => rfl
      | none => rfl

theorem invoke_faults (ctx : Stub) (txId : GoString) (ts : Option Timestamp)
    (op : Stub → Except GoString Unit × Stub)
    (hop : ∀ c, (op c).2.faults = c.faults) :
    (ctx.invoke txId ts op).2.faults = ctx.faults := by
  unfold Stub.invoke
  have h := hop { ctx with writes := [] }
  rcases hc : op { ctx with writes := [] } with ⟨r, c2⟩
  rw [hc] at h
  cases r with
  | error e => rfl
  | ok u => exact h

theorem initLedger_faults (c : Stub) : (InitLedger c).2.faults = c.faults := by
  rw [initLedger_cases]
  cases c.faults.putState "asset1"
      (String.mk (encodeAsset ⟨"asset1", "Car", 10000, "Tomoko"⟩)) with
  | some e => rfl
  | none =>
    simp only
    cases c.faults.putState "asset2"
        (String.mk (encodeAsset ⟨"asset2", "House", 250000, "Brad"⟩)) with
    | some e => rfl
    | none =>
      simp only
      cases c.faults.putState "asset3"
          (String.mk (encodeAsset ⟨"asset3", "Boat", 50000, "Jin Soo"⟩)) with
      | some e => rfl
      | none => rfl

/-- Writing the three sample assets over a state that already holds them
changes nothing. -/
theorem upsert_samples_twice (st : List (GoString × Bytes)) (x y z : Bytes) :
    upsert (upsert (upsert (upsert (upsert (upsert st "asset1" x) "asset2" y) "asset3" z)
      "asset1" x) "asset2" y) "asset3" z
      = upsert (upsert (upsert st "asset1" x) "asset2" y) "asset3" z := by
  have n21 : ("asset2" : GoString) ≠ "asset1" := by decide
  have n31 : ("asset3" : GoString) ≠ "asset1" := by decide
  have n32 : ("asset3" : GoString) ≠ "asset2" := by decide
  have h1 : upsert (upsert (upsert (upsert st "asset1" x) "asset2" y) "asset3" z) "asset1" x
      = upsert (upsert (upsert st "asset1" x) "asset2" y) "asset3" z :=
    upsert_fixed _ _ _ _ _ (upsert_fixed _ _ _ _ _ (upsert_self_fixed st _ _) n21) n31
  have h2 : upsert (upsert (upsert (upsert st "asset1" x) "asset2" y) "asset3" z) "asset2" y
      = upsert (upsert (upsert st "asset1" x) "asset2" y) "asset3" z :=
    upsert_fixed _ _ _ _ _ (upsert_self_fixed _ _ _) n32
  rw [h1, h2, upsert_self_fixed]

/-- C15: for every world state (empty or not, whatever is stored at asset1,
asset2 and asset3), a successful `InitLedger` leaves the three keys asset1,
asset2, asset3 holding exactly the fixed sample assets, whatever they held
before, and leaves the value at every other key unchanged; a further
`InitLedger` then changes nothing, whatever the platform does; and running
`InitLedger` twice yields the same world state as running it once. -/
theorem initLedger_overwrites (ctx : Stub) (txId txId2 : GoString) (ts ts2 : Option Timestamp) :
    ((ctx.invoke txId ts InitLedger).1 = .ok () →
      (∀ a ∈ sampleAssets,
        lookup (ctx.invoke txId ts InitLedger).2.state a.ID = some (String.mk (encodeAsset a)) ∧
        json_Unmarshal (String.mk (encodeAsset a)) = .ok a) ∧
      (∀ key : GoString, key ≠ "asset1" → key ≠ "asset2" → key ≠ "asset3" →
        lookup (ctx.invoke txId ts InitLedger).2.state key = lookup ctx.state key) ∧
      (∀ f2 : Faults,
        (((ctx.invoke txId ts InitLedger).2.withFaults f2).invoke txId2 ts2 InitLedger).2.state
          = (ctx.invoke txId ts InitLedger).2.state)) ∧
    ((ctx.invoke txId ts InitLedger).2.invoke txId2 ts2 InitLedger).2.state
      = (ctx.invoke txId ts InitLedger).2.state := by
  have n12 : ("asset1" : GoString) ≠ "asset2" := by decide
  have n13 : ("asset1" : GoString) ≠ "asset3" := by decide
  have n23 : ("asset2" : GoString) ≠ "asset3" := by decide
  have hfaults : (ctx.invoke txId ts InitLedger).2.faults = ctx.faults :=
    invoke_faults ctx txId ts InitLedger initLedger_faults
  have hsame := initLedger_outcome ctx (ctx.invoke txId ts InitLedger).2 txId txId2 ts ts2 hfaults
  constructor
  · intro hok
    rcases initLedger_state ctx txId ts with ⟨hne, _⟩ | ⟨_, hst⟩
    · exact absurd hok hne
    · refine ⟨?_, ?_, ?_⟩
      · rw [hst]
        intro a ha
        simp only [sampleAssets, List.mem_cons, List.mem_singleton, List.not_mem_nil,
          or_false] at ha
        rcases ha with rfl | rfl | rfl
        · exact ⟨by rw [lookup_upsert_other _ _ _ _ n13, lookup_upsert_other _ _ _ _ n12,
            lookup_upsert_self], json_roundtrip _ (by decide) (by decide)⟩
        · exact ⟨by rw [lookup_upsert_other _ _ _ _ n23, lookup_upsert_self],
            json_roundtrip _ (by decide) (by decide)⟩
        · exact ⟨by rw [lookup_upsert_self], json_roundtrip _ (by decide) (by decide)⟩
      · rw [hst]
        intro key h1 h2 h3
        rw [lookup_upsert_other _ _ _ _ h3, lookup_upsert_other _ _ _ _ h2,
          lookup_upsert_other _ _ _ _ h1]
      · intro f2
        have hs2 : ((ctx.invoke txId ts InitLedger).2.withFaults f2).state
            = (ctx.invoke txId ts InitLedger).2.state := rfl
        rcases initLedger_state ((ctx.invoke txId ts InitLedger).2.withFaults f2) txId2 ts2 with
          ⟨_, h2⟩ | ⟨_, h2⟩
        · rw [h2, hs2]
        · rw [h2, hs2, hst]
          exact upsert_samples_twice ctx.state _ _ _
  · rcases initLedger_state (ctx.invoke txId ts InitLedger).2 txId2 ts2 with ⟨_, h2⟩ | ⟨hok2, h2⟩
    · exact h2
    · rw [h2]
      rw [hsame] at hok2
      rcases initLedger_state ctx txId ts with ⟨hne, _⟩ | ⟨_, hst⟩
      · exact absurd hok2 hne
      · rw [hst]
        exact upsert_samples_twice ctx.state _ _ _

/-- Witness of C15: `InitLedger` run on a ledger whose `asset1` was transferred. -/
theorem initLedger_overwrites_witness :
    lookup (((oneAssetLedger noFaults).invoke "tx2" none
        (fun c => TransferAsset c "asset1" "Brad")).2.invoke "tx3" none InitLedger).2.state
        "asset1"
      = some (String.mk (encodeAsset ⟨"asset1", "Car", 10000, "Tomoko"⟩)) :=
  (((initLedger_overwrites ((oneAssetLedger noFaults).invoke "tx2" none
      (fun c => TransferAsset c "asset1" "Brad")).2 "tx3" "tx4" none none).1 rfl).1
    ⟨"asset1", "Car", 10000, "Tomoko"⟩ (by simp [sampleAssets])).1

/-! ## The well-formedness invariant -/

theorem wellFormed_upsert (st : List (GoString × Bytes)) (key : GoString) (a : Asset)
    (hst : wellFormed st) (hid : a.ID.replaceInvalid = key.replaceInvalid)
    (hprice : isInt a.Price) :
    wellFormed (upsert st key (String.mk (encodeAsset a))) := by
  intro kv hkv
  rcases mem_upsert st key _ kv hkv with h | h
  · subst h
    exact ⟨a.replaceInvalid, json_roundtrip_bytes a hprice, hid⟩
  · exact hst kv h

theorem wellFormed_step (ctx : Stub) (tx : Transaction) (hst : wellFormed ctx.state)
    (htyped : tx.call.wellTyped) : wellFormed (ctx.step tx).state := by
  obtain ⟨txId, ts, f, call⟩ := tx
  have hs : (ctx.withFaults f).state = ctx.state := rfl
  cases call with
  | initLedger =>
    change wellFormed ((ctx.withFaults f).invoke txId ts InitLedger).2.state
    rcases initLedger_state (ctx.withFaults f) txId ts with ⟨_, h⟩ | ⟨_, h⟩
    · rw [h, hs]; exact hst
    · rw [h, hs]
      exact wellFormed_upsert _ _ _ (wellFormed_upsert _ _ _ (wellFormed_upsert _ _ _ hst rfl
        (by decide)) rfl (by decide)) rfl (by decide)
  | createAsset id assetType price owner =>
    change wellFormed ((ctx.withFaults f).invoke txId ts
      (fun c => CreateAsset c id assetType price owner)).2.state
    rcases createAsset_state (ctx.withFaults f) id assetType owner price txId ts with
      ⟨_, h⟩ | ⟨_, _, h⟩
    · rw [h, hs]; exact hst
    · rw [h, hs]
      exact wellFormed_upsert _ _ _ hst rfl htyped
  | updateAssetPrice id newPrice =>
    change wellFormed ((ctx.withFaults f).invoke txId ts
      (fun c => UpdateAssetPrice c id newPrice)).2.state
    rcases updateAssetPrice_state (ctx.withFaults f) id newPrice txId ts with
      ⟨_, h⟩ | ⟨_, a, v, hl, hj, h⟩
    · rw [h, hs]; exact hst
    · rw [h, hs]
      obtain ⟨b, hb, hid⟩ := hst (id, v) (lookup_mem _ _ _ hl)
      simp only at hb hid
      rw [hj] at hb
      simp only [Except.ok.injEq] at hb
      subst hb
      exact wellFormed_upsert _ _ _ hst (by rw [hid, GoString.replaceInvalid_idem]) htyped
  | transferAsset id newOwner =>
    change wellFormed ((ctx.withFaults f).invoke txId ts
      (fun c => TransferAsset c id newOwner)).2.state
    rcases transferAsset_state (ctx.withFaults f) id newOwner txId ts with
      ⟨_, h⟩ | ⟨_, a, v, hl, hj, h⟩
    · rw [h, hs]; exact hst
    · rw [h, hs]
      obtain ⟨b, hb, hid⟩ := hst (id, v) (lookup_mem _ _ _ hl)
      simp only at hb hid
      rw [hj] at hb
      simp only [Except.ok.injEq] at hb
      subst hb
      exact wellFormed_upsert _ _ _ hst (by rw [hid, GoString.replaceInvalid_idem])
        (json_Unmarshal_isInt v a hj)

theorem wellFormed_steps (txs : List Transaction) (ctx : Stub) (hst : wellFormed ctx.state)
    (htyped : ∀ tx ∈ txs, tx.call.wellTyped) : wellFormed (ctx.steps txs).state := by
  induction txs generalizing ctx with
  | nil => exact hst
  | cons tx txs ih =>
    simp only [Stub.steps, List.foldl]
    exact ih (ctx.step tx)
      (wellFormed_step ctx tx hst (htyped tx (List.mem_cons_self _ _)))
      (fun t ht => htyped t (List.mem_cons_of_mem _ ht))

/-- On a well-formed world state `ReadAsset` succeeds exactly where
`AssetExists` answers true. -/
theorem readAsset_iff_exists (ctx : Stub) (id : GoString) (hst : wellFormed ctx.state) :
    (∃ a, ReadAsset ctx id = .ok a) ↔ AssetExists ctx id = .ok true := by
  cases hg : ctx.GetState id with
  | error e =>
    simp [ReadAsset, AssetExists, hg]
  | ok r =>
    cases r with
    | none => simp [ReadAsset, AssetExists, hg]
    | some v =>
      obtain ⟨a, ha, _⟩ := hst (id, v) (lookup_mem _ _ _ (getState_fault_none ctx id _ hg).2)
      simp only at ha
      rw [readAsset_of_value ctx id v hg]
      simp [AssetExists, hg, ha]

/-- C17, as amended: in every world state reachable from the empty store by any
sequence of `InitLedger`, `CreateAsset`, `UpdateAssetPrice` and
`TransferAsset` invocations (successful or failing, whatever fails on the
platform), every stored value decodes as an asset, and the decoded asset's ID
equals the key it is stored under whenever that key is valid UTF-8 (in
general it is the key with U+FFFD for each byte that is not valid UTF-8);
consequently in every reachable state `ReadAsset(id)` succeeds if and only if
`AssetExists(id)` returns true. -/
theorem reachable_wellFormed (ctx : Stub) (hreach : Reachable ctx) :
    (∀ kv ∈ ctx.state, ∃ a, json_Unmarshal kv.2 = .ok a ∧ a.ID = kv.1.replaceInvalid ∧
      (kv.1.validUTF8 = true → a.ID = kv.1)) ∧
    (∀ id : GoString, (∃ a, ReadAsset ctx id = .ok a) ↔ AssetExists ctx id = .ok true) ∧
    (∀ (f : Faults) (id : GoString),
      (∃ a, ReadAsset (ctx.withFaults f) id = .ok a) ↔
        AssetExists (ctx.withFaults f) id = .ok true) := by
  obtain ⟨f0, txs, htyped, rfl⟩ := hreach
  have hwf : wellFormed ((emptyLedger f0).steps txs).state :=
    wellFormed_steps txs (emptyLedger f0) (by intro kv h; cases h) htyped
  refine ⟨?_, fun id => readAsset_iff_exists _ id hwf,
    fun f id => readAsset_iff_exists _ id hwf⟩
  intro kv hkv
  obtain ⟨a, ha, hid⟩ := hwf kv hkv
  exact ⟨a, ha, hid, fun hv => by rw [hid, GoString.replaceInvalid_of_valid _ hv]⟩

/-- Witness of C17 as amended: the ledger after `InitLedger` and a transfer of
`asset2`. -/
theorem reachable_wellFormed_witness :
    (∃ a, ReadAsset ((emptyLedger noFaults).steps
        [⟨"tx1", none, noFaults, .initLedger⟩,
         ⟨"tx2", none, noFaults, .transferAsset "asset2" "Tomoko"⟩]) "asset2" = .ok a) ↔
      AssetExists ((emptyLedger noFaults).steps
        [⟨"tx1", none, noFaults, .initLedger⟩,
         ⟨"tx2", none, noFaults, .transferAsset "asset2" "Tomoko"⟩]) "asset2" = .ok true :=
  (reachable_wellFormed _ ⟨noFaults,
    [⟨"tx1", none, noFaults, .initLedger⟩,
     ⟨"tx2", none, noFaults, .transferAsset "asset2" "Tomoko"⟩],
    by
      intro tx htx
      simp only [List.mem_cons, List.mem_singleton, List.not_mem_nil, or_false] at htx
      rcases htx with rfl | rfl <;> exact trivial,
    rfl⟩).2.1 "asset2"

/-- Counterexample to C17 as stated: on a platform that refuses nothing, the
single invocation `CreateAsset("\xff", "t", 1, "bob")` on the empty store, whose
id is not valid UTF-8, leaves under the key `"\xff"` a value that decodes as an
asset whose ID is U+FFFD, not the key. -/
theorem reachable_id_differs_from_key :
    Reachable ((emptyLedger noFaults).steps
      [⟨"tx1", none, noFaults, .createAsset ⟨[255]⟩ "t" 1 "bob"⟩]) ∧
    ((emptyLedger noFaults).steps
        [⟨"tx1", none, noFaults, .createAsset ⟨[255]⟩ "t" 1 "bob"⟩]).state
      = [(⟨[255]⟩,
          "\x7b\"ID\":\"\\ufffd\",\"Type\":\"t\",\"Price\":1,\"Owner\":\"bob\"\x7d")] ∧
    json_Unmarshal "\x7b\"ID\":\"\\ufffd\",\"Type\":\"t\",\"Price\":1,\"Owner\":\"bob\"\x7d"
      = .ok ⟨"\uFFFD", "t", 1, "bob"⟩ ∧
    ("\uFFFD" : GoString) ≠ ⟨[255]⟩ :=
  ⟨⟨noFaults, [⟨"tx1", none, noFaults, .createAsset ⟨[255]⟩ "t" 1 "bob"⟩],
    by
      intro tx htx
      simp only [List.mem_singleton] at htx
      subst htx
      exact (by decide : isInt 1),
    rfl⟩, rfl, rfl, by decide⟩

/-! ## Price update and transfer on the same asset -/

/-- An `UpdateAssetPrice` transaction, case by case. -/
theorem updateAssetPrice_invoke_eq (ctx : Stub) (id : GoString) (newPrice : Int)
    (txId : GoString) (ts : Option Timestamp) :
    ctx.invoke txId ts (fun c => UpdateAssetPrice c id newPrice) =
      match ReadAsset ctx id with
      | .error err => (.error err, { ctx with writes := [] })
      | .ok a =>
        if a.Price = newPrice then
          (.error ("price is already " ++ String.mk (formatInt newPrice)
            ++ ", no update performed"), { ctx with writes := [] })
        else
          match ctx.faults.putState id (String.mk (encodeAsset { a with Price := newPrice })) with
          | some err => (.error err, { ctx with writes := [] })
          | none => (.ok (),
              ⟨upsert ctx.state id (String.mk (encodeAsset { a with Price := newPrice })),
               (id, ⟨txId, String.mk (encodeAsset { a with Price := newPrice }), ts, false⟩)
                 :: ctx.history, [], ctx.faults⟩) := by
  cases hr : ReadAsset ctx id with
  | error err =>
    exact invoke_error ctx txId ts _ err { ctx with writes := [] }
      (by simp [UpdateAssetPrice, readAsset_writes, hr])
  | ok a =>
    by_cases hp : a.Price = newPrice
    · simp only [hp, if_true]
      exact invoke_error ctx txId ts _ _ { ctx with writes := [] }
        (by simp [UpdateAssetPrice, readAsset_writes, hr, hp])
    · simp only [hp, if_false]
      have hrun := updateAssetPrice_run { ctx with writes := [] } id newPrice a
        (by rw [readAsset_writes]; exact hr) hp
      cases hf : ctx.faults.putState id (String.mk (encodeAsset { a with Price := newPrice })) with
      | some err =>
        exact invoke_error ctx txId ts _ err { ctx with writes := [] }
          (by rw [hrun]; simp [Stub.PutState, hf])
      | none =>
        apply invoke_single_write
        rw [hrun]
        simp [Stub.PutState, hf, upsert]

/-- A `TransferAsset` transaction, case by case. -/
theorem transferAsset_invoke_eq (ctx : Stub) (id newOwner : GoString)
    (txId : GoString) (ts : Option Timestamp) :
    ctx.invoke txId ts (fun c => TransferAsset c id newOwner) =
      match ReadAsset ctx id with
      | .error err => (.error err, { ctx with writes := [] })
      | .ok a =>
        if a.Owner = newOwner then
          (.error ("asset is already owned by " ++ newOwner ++ ", no transfer performed"),
            { ctx with writes := [] })
        else
          match ctx.faults.putState id (String.mk (encodeAsset { a with Owner := newOwner })) with
          | some err => (.error err, { ctx with writes := [] })
          | none => (.ok (),
              ⟨upsert ctx.state id (String.mk (encodeAsset { a with Owner := newOwner })),
               (id, ⟨txId, String.mk (encodeAsset { a with Owner := newOwner }), ts, false⟩)
                 :: ctx.history, [], ctx.faults⟩) := by
  cases hr : ReadAsset ctx id with
  | error err =>
    exact invoke_error ctx txId ts _ err { ctx with writes := [] }
      (by simp [TransferAsset, readAsset_writes, hr])
  | ok a =>
    by_cases hp : a.Owner = newOwner
    · simp only [hp, if_true]
      exact invoke_error ctx txId ts _ _ { ctx with writes := [] }
        (by simp [TransferAsset, readAsset_writes, hr, hp])
    · simp only [hp, if_false]
      have hrun := transferAsset_run { ctx with writes := [] } id newOwner a
        (by rw [readAsset_writes]; exact hr) hp
      cases hf : ctx.faults.putState id (String.mk (encodeAsset { a with Owner := newOwner })) with
      | some err =>
        exact invoke_error ctx txId ts _ err { ctx with writes := [] }
          (by rw [hrun]; simp [Stub.PutState, hf])
      | none =>
        apply invoke_single_write
        rw [hrun]
        simp [Stub.PutState, hf, upsert]

/-- C19, as amended: `UpdateAssetPrice` and `TransferAsset` on the same asset
commute on the world state, provided the platform's answer to a write at `id`
does not depend on the value written and `newOwner` is valid UTF-8: for every
such world state, id, `newPrice` and `newOwner`, running
`UpdateAssetPrice(id, newPrice)` then
`TransferAsset(id, newOwner)` gives the same success or failure of each
operation and the same final world state as running
`TransferAsset(id, newOwner)` then `UpdateAssetPrice(id, newPrice)`. -/
theorem update_transfer_commute (ctx : Stub) (id newOwner : GoString) (newPrice : Int)
    (tx1 tx2 tx3 tx4 : GoString) (ts1 ts2 ts3 ts4 : Option Timestamp)
    (hprice : isInt newPrice) (hvalid : newOwner.validUTF8 = true)
    (hput : ∀ v w, (ctx.faults.putState id v).isSome = (ctx.faults.putState id w).isSome) :
    ((ctx.invoke tx1 ts1 (fun c => UpdateAssetPrice c id newPrice)).1 = .ok () ↔
      ((ctx.invoke tx3 ts3 (fun c => TransferAsset c id newOwner)).2.invoke tx4 ts4
        (fun c => UpdateAssetPrice c id newPrice)).1 = .ok ()) ∧
    (((ctx.invoke tx1 ts1 (fun c => UpdateAssetPrice c id newPrice)).2.invoke tx2 ts2
        (fun c => TransferAsset c id newOwner)).1 = .ok () ↔
      (ctx.invoke tx3 ts3 (fun c => TransferAsset c id newOwner)).1 = .ok ()) ∧
    ((ctx.invoke tx1 ts1 (fun c => UpdateAssetPrice c id newPrice)).2.invoke tx2 ts2
        (fun c => TransferAsset c id newOwner)).2.state
      = ((ctx.invoke tx3 ts3 (fun c => TransferAsset c id newOwner)).2.invoke tx4 ts4
        (fun c => UpdateAssetPrice c id newPrice)).2.state := by
  obtain ⟨st, hist, ws, f⟩ := ctx
  simp only at hput
  cases hr : ReadAsset ⟨st, hist, ws, f⟩ id with
  | error err =>
    have hr0 : ReadAsset ⟨st, hist, [], f⟩ id = .error err := hr
    simp [updateAssetPrice_invoke_eq, transferAsset_invoke_eq, hr, hr0]
  | ok a =>
    have hr0 : ReadAsset ⟨st, hist, [], f⟩ id = .ok a := hr
    have hf : f.getState id = none := readAsset_fault_none _ id a hr
    have hpa : isInt a.Price := readAsset_isInt _ id a hr
    have hR1 : ReadAsset ⟨upsert st id (String.mk (encodeAsset ⟨a.ID, a.Type_, newPrice, a.Owner⟩)),
        (id, ⟨tx1, String.mk (encodeAsset ⟨a.ID, a.Type_, newPrice, a.Owner⟩), ts1, false⟩)
          :: hist, [], f⟩ id = .ok ⟨a.ID, a.Type_, newPrice, a.Owner⟩ :=
      readAsset_after_price ⟨st, hist, ws, f⟩ id a newPrice _ hf hprice
        (readAsset_fixed _ id a hr)
    have hR2 : ReadAsset ⟨upsert st id (String.mk (encodeAsset ⟨a.ID, a.Type_, a.Price, newOwner⟩)),
        (id, ⟨tx3, String.mk (encodeAsset ⟨a.ID, a.Type_, a.Price, newOwner⟩), ts3, false⟩)
          :: hist, [], f⟩ id = .ok ⟨a.ID, a.Type_, a.Price, newOwner⟩ :=
      by
        have h := readAsset_after_owner ⟨st, hist, ws, f⟩ id a newOwner
          ((id, ⟨tx3, String.mk (encodeAsset ⟨a.ID, a.Type_, a.Price, newOwner⟩), ts3, false⟩)
            :: hist) hf hpa (readAsset_fixed _ id a hr)
        rw [GoString.replaceInvalid_of_valid newOwner hvalid] at h
        exact h
    cases hp0 : f.putState id "" with
    | none =>
      have hacc : ∀ v, f.putState id v = none := by
        intro v
        have := hput v ""
        rw [hp0] at this
        cases hv : f.putState id v with
        | none => rfl
        | some e => rw [hv] at this; simp at this
      by_cases hP : a.Price = newPrice
      · by_cases hO : a.Owner = newOwner
        · simp [updateAssetPrice_invoke_eq, transferAsset_invoke_eq, hr, hr0, hP, hO]
        · rw [← hP] at hR1 ⊢
          simp [updateAssetPrice_invoke_eq, transferAsset_invoke_eq, hr, hr0, hR2, hO, hacc]
      · by_cases hO : a.Owner = newOwner
        · rw [← hO] at hR2 ⊢
          simp [updateAssetPrice_invoke_eq, transferAsset_invoke_eq, hr, hr0, hR1, hP, hacc]
        · simp [updateAssetPrice_invoke_eq, transferAsset_invoke_eq, hr, hr0, hR1, hR2, hP, hO,
            hacc, upsert_upsert]
    | some e0 =>
      have hrej : ∀ v, ∃ e, f.putState id v = some e := by
        intro v
        have := hput v ""
        rw [hp0] at this
        cases hv : f.putState id v with
        | none => rw [hv] at this; simp at this
        | some e => exact ⟨e, rfl⟩
      obtain ⟨e1, he1⟩ := hrej (String.mk (encodeAsset ⟨a.ID, a.Type_, newPrice, a.Owner⟩))
      obtain ⟨e2, he2⟩ := hrej (String.mk (encodeAsset ⟨a.ID, a.Type_, a.Price, newOwner⟩))
      by_cases hP : a.Price = newPrice
      · by_cases hO : a.Owner = newOwner
        · simp [updateAssetPrice_invoke_eq, transferAsset_invoke_eq, hr, hr0, hP, hO]
        · rw [← hP] at he1 ⊢
          simp [updateAssetPrice_invoke_eq, transferAsset_invoke_eq, hr, hr0, hO, he2]
      · by_cases hO : a.Owner = newOwner
        · rw [← hO] at he2 ⊢
          simp [updateAssetPrice_invoke_eq, transferAsset_invoke_eq, hr, hr0, hP, he1]
        · simp [updateAssetPrice_invoke_eq, transferAsset_invoke_eq, hr, hr0, hP, hO, he1, he2]

/-- Witness of C19 as amended: `asset1` repriced to 5 and transferred to Brad,
in both orders, on a platform without failures. -/
theorem update_transfer_commute_witness :
    (((oneAssetLedger noFaults).invoke "tx1" none
        (fun c => UpdateAssetPrice c "asset1" 5)).2.invoke "tx2" none
        (fun c => TransferAsset c "asset1" "Brad")).2.state
      = (((oneAssetLedger noFaults).invoke "tx3" none
        (fun c => TransferAsset c "asset1" "Brad")).2.invoke "tx4" none
        (fun c => UpdateAssetPrice c "asset1" 5)).2.state :=
  (update_transfer_commute (oneAssetLedger noFaults) "asset1" "Brad" 5 "tx1" "tx2" "tx3" "tx4"
    none none none none (by decide) rfl (fun _ _ => rfl)).2.2

/-- Counterexample to C19 as stated, in two parts. On a platform that stores at
most 59 characters per value, repricing `asset1` to 100000 fails when it runs
first (the value would have 60 characters) and succeeds when it runs after
the transfer to the shorter owner Al; the final world states differ. And on a
platform that refuses nothing, with the new owner `"o\xfe"`, which is not
valid UTF-8, all four transactions succeed but the final world states
differ: the transfer writes the escape `\ufffd` for the invalid byte, and a
price update after it writes the owner it read back, with the character
U+FFFD itself. -/
theorem update_transfer_order_matters :
    (((oneAssetLedger (sizeLimit 59)).invoke "tx1" none
        (fun c => UpdateAssetPrice c "asset1" 100000)).1 = .error "value too large" ∧
    (((oneAssetLedger (sizeLimit 59)).invoke "tx1" none
        (fun c => UpdateAssetPrice c "asset1" 100000)).2.invoke "tx2" none
        (fun c => TransferAsset c "asset1" "Al")).1 = .ok () ∧
    ((oneAssetLedger (sizeLimit 59)).invoke "tx3" none
        (fun c => TransferAsset c "asset1" "Al")).1 = .ok () ∧
    (((oneAssetLedger (sizeLimit 59)).invoke "tx3" none
        (fun c => TransferAsset c "asset1" "Al")).2.invoke "tx4" none
        (fun c => UpdateAssetPrice c "asset1" 100000)).1 = .ok () ∧
    lookup (((oneAssetLedger (sizeLimit 59)).invoke "tx1" none
        (fun c => UpdateAssetPrice c "asset1" 100000)).2.invoke "tx2" none
        (fun c => TransferAsset c "asset1" "Al")).2.state "asset1"
      = some "\x7b\"ID\":\"asset1\",\"Type\":\"Car\",\"Price\":10000,\"Owner\":\"Al\"\x7d" ∧
    lookup (((oneAssetLedger (sizeLimit 59)).invoke "tx3" none
        (fun c => TransferAsset c "asset1" "Al")).2.invoke "tx4" none
        (fun c => UpdateAssetPrice c "asset1" 100000)).2.state "asset1"
      = some "\x7b\"ID\":\"asset1\",\"Type\":\"Car\",\"Price\":100000,\"Owner\":\"Al\"\x7d") ∧
    (((oneAssetLedger noFaults).invoke "tx1" none
        (fun c => UpdateAssetPrice c "asset1" 5)).1 = .ok () ∧
    (((oneAssetLedger noFaults).invoke "tx1" none
        (fun c => UpdateAssetPrice c "asset1" 5)).2.invoke "tx2" none
        (fun c => TransferAsset c "asset1" ⟨[111, 254]⟩)).1 = .ok () ∧
    ((oneAssetLedger noFaults).invoke "tx3" none
        (fun c => TransferAsset c "asset1" ⟨[111, 254]⟩)).1 = .ok () ∧
    (((oneAssetLedger noFaults).invoke "tx3" none
        (fun c => TransferAsset c "asset1" ⟨[111, 254]⟩)).2.invoke "tx4" none
        (fun c => UpdateAssetPrice c "asset1" 5)).1 = .ok () ∧
    lookup (((oneAssetLedger noFaults).invoke "tx1" none
        (fun c => UpdateAssetPrice c "asset1" 5)).2.invoke "tx2" none
        (fun c => TransferAsset c "asset1" ⟨[111, 254]⟩)).2.state "asset1"
      = some "\x7b\"ID\":\"asset1\",\"Type\":\"Car\",\"Price\":5,\"Owner\":\"o\\ufffd\"\x7d" ∧
    lookup (((oneAssetLedger noFaults).invoke "tx3" none
        (fun c => TransferAsset c "asset1" ⟨[111, 254]⟩)).2.invoke "tx4" none
        (fun c => UpdateAssetPrice c "asset1" 5)).2.state "asset1"
      = some "\x7b\"ID\":\"asset1\",\"Type\":\"Car\",\"Price\":5,\"Owner\":\"o\uFFFD\"\x7d" ∧
    ("\x7b\"ID\":\"asset1\",\"Type\":\"Car\",\"Price\":5,\"Owner\":\"o\\ufffd\"\x7d" : Bytes)
      ≠ "\x7b\"ID\":\"asset1\",\"Type\":\"Car\",\"Price\":5,\"Owner\":\"o\uFFFD\"\x7d") :=
  ⟨⟨rfl, rfl, rfl, rfl, rfl, rfl⟩, rfl, rfl, rfl, rfl, rfl, rfl, by decide⟩

/-! ## The store keeps its keys in ascending order -/

theorem ltBytes_total (a b : List Nat) (hne : a ≠ b) :
    ltBytes a b = true ∨ ltBytes b a = true := by
  induction a generalizing b with
  | nil =>
    cases b with
    | nil => exact absurd rfl hne
    | cons y ys => left; rfl
  | cons x xs ih =>
    cases b with
    | nil => right; rfl
    | cons y ys =>
      simp only [ltBytes]
      by_cases h1 : x < y
      · left; simp [h1]
      · by_cases h2 : y < x
        · right; simp [h2]
        · have hxy : x = y := by omega
          subst hxy
          have hrest : xs ≠ ys := fun h => hne (by rw [h])
          simpa [h1] using ih ys hrest

theorem keyLt_total (a b : GoString) (hne : a ≠ b) : keyLt a b = true ∨ keyLt b a = true := by
  apply ltBytes_total
  intro h
  apply hne
  rcases a with ⟨l⟩
  rcases b with ⟨m⟩
  simp only at h
  rw [h]

theorem keysAscending_upsert (st : List (GoString × Bytes)) (key : GoString) (value : Bytes)
    (hst : keysAscending st) : keysAscending (upsert st key value) := by
  induction st with
  | nil => simp [upsert, keysAscending]
  | cons kv rest ih =>
    obtain ⟨k, u⟩ := kv
    unfold keysAscending at hst ih ⊢
    rw [List.pairwise_cons] at hst
    obtain ⟨hhead, hrest⟩ := hst
    unfold upsert
    split_ifs with h1 h2
    · subst h1
      exact List.pairwise_cons.mpr ⟨hhead, hrest⟩
    · refine List.pairwise_cons.mpr ⟨?_, List.pairwise_cons.mpr ⟨hhead, hrest⟩⟩
      intro b hb
      rcases List.mem_cons.mp hb with rfl | hb
      · exact h2
      · exact keyLt_trans _ _ _ h2 (hhead b hb)
    · refine List.pairwise_cons.mpr ⟨?_, ih hrest⟩
      intro b hb
      rcases mem_upsert rest key value b hb with rfl | hb
      · rcases keyLt_total key k h1 with h | h
        · exact absurd h h2
        · exact h
      · exact hhead b hb

theorem keysAscending_step (ctx : Stub) (tx : Transaction) (hst : keysAscending ctx.state) :
    keysAscending (ctx.step tx).state := by
  obtain ⟨txId, ts, f, call⟩ := tx
  have hs : (ctx.withFaults f).state = ctx.state := rfl
  cases call with
  | initLedger =>
    change keysAscending ((ctx.withFaults f).invoke txId ts InitLedger).2.state
    rcases initLedger_state (ctx.withFaults f) txId ts with ⟨_, h⟩ | ⟨_, h⟩
    · rw [h, hs]; exact hst
    · rw [h, hs]
      exact keysAscending_upsert _ _ _ (keysAscending_upsert _ _ _
        (keysAscending_upsert _ _ _ hst))
  | createAsset id assetType price owner =>
    change keysAscending ((ctx.withFaults f).invoke txId ts
      (fun c => CreateAsset c id assetType price owner)).2.state
    rcases createAsset_state (ctx.withFaults f) id assetType owner price txId ts with
      ⟨_, h⟩ | ⟨_, _, h⟩
    · rw [h, hs]; exact hst
    · rw [h, hs]; exact keysAscending_upsert _ _ _ hst
  | updateAssetPrice id newPrice =>
    change keysAscending ((ctx.withFaults f).invoke txId ts
      (fun c => UpdateAssetPrice c id newPrice)).2.state
    rcases updateAssetPrice_state (ctx.withFaults f) id newPrice txId ts with
      ⟨_, h⟩ | ⟨_, _, _, _, _, h⟩
    · rw [h, hs]; exact hst
    · rw [h, hs]; exact keysAscending_upsert _ _ _ hst
  | transferAsset id newOwner =>
    change keysAscending ((ctx.withFaults f).invoke txId ts
      (fun c => TransferAsset c id newOwner)).2.state
    rcases transferAsset_state (ctx.withFaults f) id newOwner txId ts with
      ⟨_, h⟩ | ⟨_, _, _, _, _, h⟩
    · rw [h, hs]; exact hst
    · rw [h, hs]; exact keysAscending_upsert _ _ _ hst

/-- In every reachable ledger the store lists its keys in strictly ascending
(lexicographic) order: the order in which a range scan yields them. -/
theorem reachable_keysAscending (ctx : Stub) (hreach : Reachable ctx) :
    keysAscending ctx.state := by
  obtain ⟨f0, txs, _, rfl⟩ := hreach
  have : ∀ (txs : List Transaction) (c : Stub), keysAscending c.state →
      keysAscending (c.steps txs).state := by
    intro txs
    induction txs with
    | nil => intro c h; exact h
    | cons tx txs ih =>
      intro c h
      simp only [Stub.steps, List.foldl]
      exact ih (c.step tx) (keysAscending_step c tx h)
  exact this txs (emptyLedger f0) List.Pairwise.nil

end AssetManagement
